import Mathlib

/-!
Verification of the planar-subdivision core of the simplefeatures geometry
library: interaction-point detection, convex hull, and DCEL construction.

The Go source is shallowly embedded: coordinates become exact integer pairs
(`XY`), Go slices and coordinate sequences become `List XY`, Go maps become
association lists keyed by `XY` (the source only ever inserts and looks up,
never iterates over map order), pointer-linked DCEL records become an arena
(`List halfEdgeRecord`) with `Nat` indices as cross-references, and Go panics
become `Except` error values.
-/

/-- A 2D coordinate. The source stores `float64`; the embedding uses exact
integers, which supports the purely combinatorial and sign-based reasoning of
the core (no division or rounding occurs in the embedded code). Equality is
exact, matching the bitwise equality of the source. -/
structure XY where
  x : Int
  y : Int
deriving DecidableEq, Repr

instance : Inhabited XY := ⟨⟨0, 0⟩⟩

/-- Modelled from the spec: the total lexicographic order on `XY` (X first,
then Y). The `XY.Less` method itself is outside the supplied sources. -/
def XY.Less (a b : XY) : Bool :=
  a.x < b.x || (a.x == b.x && a.y < b.y)

/-- Turn direction returned by the orientation primitive. -/
inductive threePointOrientation where
  | leftTurn
  | rightTurn
  | collinear
deriving DecidableEq, Repr

export threePointOrientation (leftTurn rightTurn collinear)

/-- Twice the signed area of triangle `a b c`, i.e. the 2D cross product
`(b-a) × (c-a)`. -/
def crossProd (a b c : XY) : Int :=
  (b.x - a.x) * (c.y - a.y) - (b.y - a.y) * (c.x - a.x)

/-- Modelled from the spec: `orientation(a, b, c)` is the sign of the 2D cross
product `(b-a) × (c-a)`; strictly positive is a left turn, strictly negative a
right turn, zero collinear. The `orientation` function itself is outside the
supplied sources. -/
def orientation (a b c : XY) : threePointOrientation :=
  if crossProd a b c > 0 then leftTurn
  else if crossProd a b c < 0 then rightTurn
  else collinear

/-- A coordinate sequence (the XY projection used by the core; Z and M are
discarded by the embedding, matching the spec's non-goals). -/
abbrev Sequence := List XY

/-- `reverseSequence` from the source: the same points in reverse order. -/
def reverseSequence (s : Sequence) : Sequence := s.reverse

/-- The geometry sum type. A `point` may be empty (`none`); `multiPoint`
elements may individually be empty. A polygon is its list of rings, ring 0
exterior and the rest holes. -/
inductive Geometry where
  | point (xy : Option XY)
  | lineString (seq : Sequence)
  | polygon (rings : List Sequence)
  | multiPoint (pts : List (Option XY))
  | multiLineString (lss : List Sequence)
  | multiPolygon (polys : List (List Sequence))
  | geometryCollection (gs : List Geometry)

/-- Go `LineString.IsClosed`: start and end coordinates coincide. Modelled
from the spec (the accessor is outside the supplied sources). -/
def lineStringIsClosed (seq : Sequence) : Bool :=
  seq.head? == seq.getLast?

/-- Membership of an `XY` in a set of interaction points (Go `map[XY]struct{}`
lookups). Sets of XYs are embedded as lists; only membership matters. -/
def xySetMember (s : List XY) (xy : XY) : Bool :=
  xy ∈ s

/-- Insertion into an XY set (`interactions[xy] = struct{}{}`). -/
def xySetInsert (s : List XY) (xy : XY) : List XY :=
  if xy ∈ s then s else s ++ [xy]

/-- `xyPair` from the source: a container for a pair of XYs. -/
structure xyPair where
  first : XY
  second : XY
deriving DecidableEq, Repr

/-- Lookup in the `adjacents` map (`map[XY]xyPair`). -/
def lookupAdj : List (XY × xyPair) → XY → Option xyPair
  | [], _ => none
  | (k, v) :: t, xy => if k = xy then some v else lookupAdj t xy

/-- The state threaded through interaction-point detection: the `adjacents`
map and the `interactions` set. -/
structure interactionState where
  adjacents : List (XY × xyPair)
  interactions : List XY
deriving DecidableEq, Repr

/-- The canonicalised adjacent pair used by `addLineStringInteractions`:
`{prev, next}` sorted lexicographically (direction-insensitive). -/
def canonicalAdjacent (prev next : XY) : xyPair :=
  let adj : xyPair := ⟨prev, next⟩
  if XY.Less adj.second adj.first then ⟨adj.second, adj.first⟩ else adj

/-- One iteration of the interior-vertex loop of `addLineStringInteractions`,
at a window `(prev, curr, next)` (loop index `i` with
`prev = seq[i-1]`, `curr = seq[i]`, `next = seq[i+1]`). -/
def lineStringInteractionStep (st : interactionState) (prev curr next : XY) :
    interactionState :=
  if prev = next then
    -- LineString loops back on itself: the reversal point interacts.
    { st with interactions := xySetInsert st.interactions curr }
  else
    let adj := canonicalAdjacent prev next
    let st1 :=
      match lookupAdj st.adjacents curr with
      | some existing =>
          if existing ≠ adj then
            { st with interactions := xySetInsert st.interactions curr }
          else st
      | none => st
    match lookupAdj st1.adjacents curr with
    | none => { st1 with adjacents := st1.adjacents ++ [(curr, adj)] }
    | some _ => st1

/-- The interior-vertex loop of `addLineStringInteractions`, expressed as a
sliding window over the sequence: the call with window `(prev, curr)` and
remaining points `next :: rest` performs the body for that triple and slides
on. This is the loop `for i := 1; i+1 < n; i++` of the source. -/
def lineStringInteractionLoop (st : interactionState) :
    XY → XY → List XY → interactionState
  | _, _, [] => st
  | prev, curr, next :: rest =>
      lineStringInteractionLoop (lineStringInteractionStep st prev curr next)
        curr next rest

/-- `addLineStringInteractions`: both endpoints always interact; interior
vertices interact on reversal or on a differing adjacent-pair context. -/
def addLineStringInteractions (seq : Sequence) (st : interactionState) :
    interactionState :=
  let st1 :=
    match seq.head? with
    | some xy => { st with interactions := xySetInsert st.interactions xy }
    | none => st
  let st2 :=
    match seq.getLast? with
    | some xy => { st1 with interactions := xySetInsert st1.interactions xy }
    | none => st1
  match seq with
  | p0 :: p1 :: rest => lineStringInteractionLoop st2 p0 p1 rest
  | _ => st2

/-- `addMultiLineStringInteractions`: each member line string in order. -/
def addMultiLineStringInteractions (lss : List Sequence)
    (st : interactionState) : interactionState :=
  lss.foldl (fun st ls => addLineStringInteractions ls st) st

/-- `addPointInteractions`: a non-empty point always interacts. -/
def addPointInteractions (pt : Option XY) (st : interactionState) :
    interactionState :=
  match pt with
  | some xy => { st with interactions := xySetInsert st.interactions xy }
  | none => st

/-- `addMultiPointInteractions`: each non-empty element. -/
def addMultiPointInteractions (pts : List (Option XY))
    (st : interactionState) : interactionState :=
  pts.foldl (fun st pt => addPointInteractions pt st) st

/-- The panics of the embedded code, as error values. -/
inductive geomPanic where
  | unsupportedGeometryCollection
deriving DecidableEq, Repr

/-- Go `Polygon.Boundary` as a multi line string: the rings themselves
(exterior plus holes). Modelled from the spec ("Polygons contribute via their
boundaries as a MultiLineString (exterior + holes)"); the accessor is outside
the supplied sources. -/
def polygonBoundary (rings : List Sequence) : List Sequence := rings

/-- Go `MultiPolygon.Boundary`: all rings of all member polygons. Modelled
from the spec; the accessor is outside the supplied sources. -/
def multiPolygonBoundary (polys : List (List Sequence)) : List Sequence :=
  polys.flatten

/-- `addGeometryInteractions`: dispatch on the geometry variant. A
GeometryCollection panics ("geometry collection not supported"). -/
def addGeometryInteractions (g : Geometry) (st : interactionState) :
    Except geomPanic interactionState :=
  match g with
  | .point xy => .ok (addPointInteractions xy st)
  | .multiPoint pts => .ok (addMultiPointInteractions pts st)
  | .lineString seq => .ok (addLineStringInteractions seq st)
  | .multiLineString lss => .ok (addMultiLineStringInteractions lss st)
  | .polygon rings =>
      .ok (addMultiLineStringInteractions (polygonBoundary rings) st)
  | .multiPolygon polys =>
      .ok (addMultiLineStringInteractions (multiPolygonBoundary polys) st)
  | .geometryCollection _ => .error .unsupportedGeometryCollection

/-- `findInteractionPoints`: fold the per-geometry pass over the input list,
starting from empty `adjacents` and `interactions`. The Go panic on
GeometryCollection surfaces as an `Except.error`. -/
def findInteractionPoints (gs : List Geometry) :
    Except geomPanic (List XY) :=
  (gs.foldlM (fun st g => addGeometryInteractions g st)
    (⟨[], []⟩ : interactionState)).map interactionState.interactions

example :
    findInteractionPoints [.lineString [⟨0,0⟩, ⟨2,2⟩, ⟨0,2⟩, ⟨2,0⟩]] =
      .ok [⟨0,0⟩, ⟨2,0⟩] := by rfl

example :
    findInteractionPoints
      [.lineString [⟨0,0⟩, ⟨1,1⟩, ⟨2,2⟩, ⟨0,2⟩, ⟨1,1⟩, ⟨2,0⟩]] =
      .ok [⟨0,0⟩, ⟨2,0⟩, ⟨1,1⟩] := by rfl

/-! ## DCEL data model

Pointer-linked Go records become an arena: `halfEdges` is a list and the
`twin`/`next`/`prev` pointers are indices into it. A vertex pointer becomes
the vertex's `XY` key (the `vertices` map keys records uniquely by
coordinate). The `vertices` map becomes an association list in insertion
order; the source never iterates over the map. -/

/-- An operand of a binary overlay operation (0 = A, 1 = B). -/
abbrev operand := Fin 2

/-- A `[2]bool` field of a record. -/
structure boolPair where
  fst : Bool
  snd : Bool
deriving DecidableEq, Repr

instance : Inhabited boolPair := ⟨⟨false, false⟩⟩

def boolPair.get (p : boolPair) (op : operand) : Bool :=
  if op.val = 0 then p.fst else p.snd

def boolPair.set (p : boolPair) (op : operand) (v : Bool) : boolPair :=
  if op.val = 0 then { p with fst := v } else { p with snd := v }

/-- The per-operand location flags of a vertex. -/
structure location where
  interior : Bool
  boundary : Bool
deriving DecidableEq, Repr

instance : Inhabited location := ⟨⟨false, false⟩⟩

/-- A `[2]location` field. -/
structure locationPair where
  fst : location
  snd : location
deriving DecidableEq, Repr

instance : Inhabited locationPair := ⟨⟨default, default⟩⟩

def locationPair.get (p : locationPair) (op : operand) : location :=
  if op.val = 0 then p.fst else p.snd

def locationPair.set (p : locationPair) (op : operand) (v : location) :
    locationPair :=
  if op.val = 0 then { p with fst := v } else { p with snd := v }

/-- Modelled from the spec: `newLocationsOnBoundary(operand)` initialises the
given operand's location to "on boundary" (rings are closed boundary curves);
the helper is outside the supplied sources. -/
def newLocationsOnBoundary (op : operand) : locationPair :=
  locationPair.set default op ⟨false, true⟩

/-- `vertexRecord`. `incidents` holds arena indices of the outgoing
half-edges. -/
structure vertexRecord where
  coords : XY
  incidents : List Nat
  src : boolPair
  inSet : boolPair
  locations : locationPair
  extracted : Bool
deriving DecidableEq, Repr

instance : Inhabited vertexRecord :=
  ⟨⟨default, [], default, default, default, false⟩⟩

/-- `halfEdgeRecord`. `origin` is the owning vertex's key; `twin`, `next` and
`prev` are arena indices (a still-nil Go pointer is index 0, which is always
overwritten before use by the source's wiring passes). The `incident` face
pointer is only populated in the overlay and is omitted. -/
structure halfEdgeRecord where
  origin : XY
  twin : Nat
  next : Nat
  prev : Nat
  seq : Sequence
  srcEdge : boolPair
  srcFace : boolPair
  inSet : boolPair
  extracted : Bool
deriving DecidableEq, Repr

instance : Inhabited halfEdgeRecord :=
  ⟨⟨default, 0, 0, 0, [], default, default, default, false⟩⟩

/-- `doublyConnectedEdgeList`. `faces` is only populated in the overlay and is
omitted; `vertices` is keyed by coordinate. -/
structure doublyConnectedEdgeList where
  halfEdges : List halfEdgeRecord
  vertices : List (XY × vertexRecord)
deriving DecidableEq, Repr

/-- Lookup in the `vertices` map. -/
def lookupVertex : List (XY × vertexRecord) → XY → Option vertexRecord
  | [], _ => none
  | (k, v) :: t, xy => if k = xy then some v else lookupVertex t xy

/-- Insertion of a fresh vertex record (`d.vertices[xy] = vr`; only performed
by the source after an absence check). -/
def insertVertex (vs : List (XY × vertexRecord)) (xy : XY)
    (vr : vertexRecord) : List (XY × vertexRecord) :=
  vs ++ [(xy, vr)]

/-- In-place mutation of the record stored at a key (Go mutates through the
map's pointer). Absent keys are untouched. -/
def updateVertex : List (XY × vertexRecord) → XY →
    (vertexRecord → vertexRecord) → List (XY × vertexRecord)
  | [], _, _ => []
  | (k0, v0) :: t, xy, f =>
      (if k0 = xy then (k0, f v0) else (k0, v0)) :: updateVertex t xy f

/-- In-place mutation of the half-edge record at an arena index (Go mutates
through the pointer). Out-of-range indices are untouched. -/
def modifyEdge : List halfEdgeRecord → Nat → (halfEdgeRecord → halfEdgeRecord) →
    List halfEdgeRecord
  | [], _, _ => []
  | e :: t, 0, f => f e :: t
  | e :: t, n + 1, f => e :: modifyEdge t n f

/-- The scan of `forEachNonInteractingSegment` that finds the next interaction
index after `start`: the first `j > start` with `seq[j]` in the interaction
set. Like the source's `var end int`, the result defaults to `0` when no such
index exists (the precondition that endpoints interact rules this out). -/
def findSegmentEnd (seq : Sequence) (interactions : List XY) (start : Nat) :
    Nat :=
  match (seq.drop (start + 1)).findIdx? (fun xy => xySetMember interactions xy)
  with
  | some k => start + 1 + k
  | none => 0

/-- The loop of `forEachNonInteractingSegment`, returning the emitted segments
in order. The loop variable `i` only advances when the inner scan finds an
interaction strictly beyond it; the `fuel` counter makes the embedding total,
with `none` marking the runs on which the Go loop would not terminate. -/
def nonInteractingSegmentsLoop (seq : Sequence) (interactions : List XY) :
    Nat → Nat → Option (List Sequence)
  | 0, i => if i < seq.length - 1 then none else some []
  | fuel + 1, i =>
      if i < seq.length - 1 then
        let endIdx := findSegmentEnd seq interactions i
        let segment := (seq.drop i).take (endIdx + 1 - i)
        match nonInteractingSegmentsLoop seq interactions fuel endIdx with
        | some segs => some (segment :: segs)
        | none => none
      else some []

/-- The segments emitted by `forEachNonInteractingSegment seq interactions fn`
(in callback order). `seq.length` units of fuel suffice for every terminating
run, since `i` advances by at least one per iteration. -/
def nonInteractingSegments (seq : Sequence) (interactions : List XY) :
    Option (List Sequence) :=
  nonInteractingSegmentsLoop seq interactions seq.length 0

/-- The segments actually consumed by the builder: on an input where the Go
loop would not terminate (and hence contributes nothing to any built DCEL),
the embedding takes the empty segment list. -/
def builderSegments (seq : Sequence) (interactions : List XY) :
    List Sequence :=
  (nonInteractingSegments seq interactions).getD []

example :
    nonInteractingSegments [⟨0,0⟩, ⟨1,0⟩, ⟨2,0⟩, ⟨3,0⟩] [⟨0,0⟩, ⟨2,0⟩, ⟨3,0⟩]
      = some [[⟨0,0⟩, ⟨1,0⟩, ⟨2,0⟩], [⟨2,0⟩, ⟨3,0⟩]] := by rfl

example :
    nonInteractingSegments [⟨0,0⟩, ⟨1,0⟩, ⟨2,0⟩] [⟨0,0⟩] = none := by rfl

/-! ## DCEL builder -/

/-- The `edgeSet` used for deduplication, keyed by the full coordinate tuple
of a segment. Modelled from the spec ("Keyed by the full coordinate tuple of a
segment; a content-addressed set"); the `edgeSet` helper is outside the
supplied sources. -/
abbrev edgeSet := List Sequence

def edgeSetContains (es : edgeSet) (seg : Sequence) : Bool := seg ∈ es

def edgeSetInsert (es : edgeSet) (seg : Sequence) : edgeSet :=
  if seg ∈ es then es else es ++ [seg]

/-- A fresh vertex record as allocated by `addMultiPolygon`'s vertex pass. -/
def newArealVertex (xy : XY) (op : operand) : vertexRecord :=
  { coords := xy
    incidents := []
    src := boolPair.set default op true
    inSet := default
    locations := newLocationsOnBoundary op
    extracted := false }

/-- The vertex-population pass of `addMultiPolygon`: every ring coordinate in
the interaction set gets a vertex record if absent. -/
def addRingVertices (d : doublyConnectedEdgeList) (op : operand)
    (interactions : List XY) (ring : Sequence) : doublyConnectedEdgeList :=
  ring.foldl
    (fun d xy =>
      if xySetMember interactions xy then
        match lookupVertex d.vertices xy with
        | none => { d with vertices := insertVertex d.vertices xy (newArealVertex xy op) }
        | some _ => d
      else d)
    d

/-- The edge creation of `addMultiPolygon` for one non-interacting ring
segment: a twin pair, internal edge first. `gi` is the arena index the
internal edge will occupy. `next`/`prev` are left at 0 and overwritten by the
ring's linking pass. -/
def ringSegmentEdges (segment : Sequence) (op : operand) (gi : Nat) :
    halfEdgeRecord × halfEdgeRecord :=
  let reverseSegment := reverseSequence segment
  let internalEdge : halfEdgeRecord :=
    { origin := segment.headD default
      twin := gi + 1
      next := 0
      prev := 0
      seq := segment
      srcEdge := boolPair.set default op true
      srcFace := boolPair.set default op true
      inSet := default
      extracted := false }
  let externalEdge : halfEdgeRecord :=
    { origin := reverseSegment.headD default
      twin := gi
      next := 0
      prev := 0
      seq := reverseSegment
      srcEdge := boolPair.set default op true
      srcFace := default
      inSet := default
      extracted := false }
  (internalEdge, externalEdge)

/-- Append an arena index to a vertex's `incidents` list. -/
def appendIncident (vs : List (XY × vertexRecord)) (xy : XY) (idx : Nat) :
    List (XY × vertexRecord) :=
  updateVertex vs xy (fun v => { v with incidents := v.incidents ++ [idx] })

/-- The `next`/`prev` linking pattern of `addMultiPolygon` for a ring that
yielded `numEdges = 2k` new edges starting at arena index `base`: writing the
new edges' local indices `j = 0, ..., 2k-1` (internal edges even, external
edges odd), pair `i = j/2` is linked by
`newEdges[2i].next = newEdges[(2i+2)%2k]`,
`newEdges[2i+1].next = newEdges[(2i-1+2k)%2k]`,
`newEdges[2i].prev = newEdges[(2i-2+2k)%2k]`,
`newEdges[2i+1].prev = newEdges[(2i+3)%2k]`. -/
def linkRingEdges (base numEdges : Nat) (edges : List halfEdgeRecord) :
    List halfEdgeRecord :=
  edges.mapIdx (fun j e =>
    if j % 2 = 0 then
      { e with next := base + (j + 2) % numEdges
               prev := base + (j + numEdges - 2) % numEdges }
    else
      { e with next := base + (j + numEdges - 2) % numEdges
               prev := base + (j + 2) % numEdges })

/-- The per-ring edge pass of `addMultiPolygon`: create the twin pairs for
each non-interacting segment (recording incidences at the segment-end
vertices), then wire `next`/`prev` with the ring linking pattern and append
the new edges to the arena. -/
def ringEdgeStep (op : operand) (base : Nat)
    (acc : List halfEdgeRecord × List (XY × vertexRecord))
    (segment : Sequence) :
    List halfEdgeRecord × List (XY × vertexRecord) :=
  let (newEdges, vs) := acc
  let gi := base + newEdges.length
  let (internalEdge, externalEdge) := ringSegmentEdges segment op gi
  let vs := appendIncident vs internalEdge.origin gi
  let vs := appendIncident vs externalEdge.origin (gi + 1)
  (newEdges ++ [internalEdge, externalEdge], vs)

def addRingEdges (d : doublyConnectedEdgeList) (op : operand)
    (interactions : List XY) (ring : Sequence) : doublyConnectedEdgeList :=
  let segments := builderSegments ring interactions
  let base := d.halfEdges.length
  let (newEdges, vs) := segments.foldl (ringEdgeStep op base) ([], d.vertices)
  { halfEdges := d.halfEdges ++ linkRingEdges base newEdges.length newEdges
    vertices := vs }

/-- `addMultiPolygon`: force canonical orientation, then per polygon populate
the vertices of all rings and create each ring's edges. -/
def addMultiPolygonRings (d : doublyConnectedEdgeList)
    (polys : List (List Sequence)) (op : operand) (interactions : List XY) :
    doublyConnectedEdgeList :=
  polys.foldl
    (fun d rings =>
      let d := rings.foldl (fun d ring => addRingVertices d op interactions ring) d
      rings.foldl (fun d ring => addRingEdges d op interactions ring) d)
    d

/-- Twice the signed area of a ring (shoelace formula over consecutive
coordinate pairs). Support for the modelled `ForceCCW`. -/
def signedAreaTwice (ring : Sequence) : Int :=
  (ring.zip (ring.drop 1)).foldl (fun s pq => s + (pq.1.x * pq.2.y - pq.2.x * pq.1.y)) 0

/-- Modelled from the spec: `ForceCCW` forces a polygon to canonical
orientation (exterior ring CCW, holes CW), reversing any ring with the wrong
signed area. The method is outside the supplied sources. -/
def forceCCWRing (isExterior : Bool) (ring : Sequence) : Sequence :=
  if isExterior then
    if signedAreaTwice ring < 0 then reverseSequence ring else ring
  else
    if signedAreaTwice ring > 0 then reverseSequence ring else ring

def forceCCWPolygon : List Sequence → List Sequence
  | [] => []
  | ext :: holes => forceCCWRing true ext :: holes.map (forceCCWRing false)

def forceCCW (polys : List (List Sequence)) : List (List Sequence) :=
  polys.map forceCCWPolygon

def addMultiPolygon (d : doublyConnectedEdgeList)
    (polys : List (List Sequence)) (op : operand) (interactions : List XY) :
    doublyConnectedEdgeList :=
  addMultiPolygonRings d (forceCCW polys) op interactions

/-- The body of `addMultiLineString`'s vertex pass for one coordinate that is
in the interaction set. `onBoundary` is `(j == 0 || j == n-1) && !ls.IsClosed()`. -/
def lineStringVertexStep (d : doublyConnectedEdgeList) (op : operand)
    (onBoundary : Bool) (xy : XY) : doublyConnectedEdgeList :=
  match lookupVertex d.vertices xy with
  | none =>
      let locs : locationPair :=
        if onBoundary then locationPair.set default op ⟨false, true⟩
        else locationPair.set default op ⟨true, false⟩
      let vr : vertexRecord :=
        { coords := xy
          incidents := []
          src := boolPair.set default op true
          inSet := default
          locations := locs
          extracted := false }
      { d with vertices := insertVertex d.vertices xy vr }
  | some v =>
      let newLoc : location :=
        if onBoundary then
          if (v.locations.get op).boundary then
            -- mod-2 rule: an even number of boundary incidences is interior.
            ⟨true, false⟩
          else
            ⟨false, true⟩
        else
          { v.locations.get op with interior := true }
      let vs := updateVertex d.vertices xy
        (fun v => { v with locations := v.locations.set op newLoc })
      { d with vertices := vs }

/-- The vertex pass of `addMultiLineString` over one line string, as a loop
carrying whether the current coordinate is the first (`j == 0`); the last
coordinate (`j == n-1`) is the one with an empty tail. -/
def lineStringVertexLoop (op : operand) (interactions : List XY)
    (closed : Bool) : Bool → List XY → doublyConnectedEdgeList →
    doublyConnectedEdgeList
  | _, [], d => d
  | isFirst, xy :: rest, d =>
      let onBoundary := (isFirst || rest.isEmpty) && !closed
      let d := if xySetMember interactions xy then
                 lineStringVertexStep d op onBoundary xy
               else d
      lineStringVertexLoop op interactions closed false rest d

/-- The edge pass of `addMultiLineString` for one non-interacting segment:
deduplicate against the edge set, then create a twin pair forming a
degenerate two-edge cycle (`next`/`prev` of each edge is its twin). -/
def lineStringSegmentStep (op : operand)
    (acc : doublyConnectedEdgeList × edgeSet) (segment : Sequence) :
    doublyConnectedEdgeList × edgeSet :=
  let (d, edges) := acc
  let reverseSegment := reverseSequence segment
  let startXY := segment.headD default
  let endXY := reverseSegment.headD default
  if edgeSetContains edges segment then (d, edges)
  else
    let edges := edgeSetInsert edges segment
    let edges := edgeSetInsert edges reverseSegment
    let idx := d.halfEdges.length
    let fwd : halfEdgeRecord :=
      { origin := startXY
        twin := idx + 1
        next := idx + 1
        prev := idx + 1
        seq := segment
        srcEdge := boolPair.set default op true
        srcFace := default
        inSet := default
        extracted := false }
    let rev : halfEdgeRecord :=
      { origin := endXY
        twin := idx
        next := idx
        prev := idx
        seq := reverseSegment
        srcEdge := boolPair.set default op true
        srcFace := default
        inSet := default
        extracted := false }
    let vs := appendIncident d.vertices startXY idx
    let vs := appendIncident vs endXY (idx + 1)
    ({ halfEdges := d.halfEdges ++ [fwd, rev], vertices := vs }, edges)

/-- `addMultiLineString`: the vertex pass over every member line string, then
the deduplicated edge pass. -/
def addMultiLineString (d : doublyConnectedEdgeList) (lss : List Sequence)
    (op : operand) (interactions : List XY) : doublyConnectedEdgeList :=
  let d := lss.foldl
    (fun d ls =>
      match ls with
      | [] => d
      | xy :: rest =>
          lineStringVertexLoop op interactions (lineStringIsClosed ls) true
            (xy :: rest) d)
    d
  (lss.foldl
    (fun acc ls =>
      (builderSegments ls interactions).foldl (lineStringSegmentStep op) acc)
    (d, ([] : edgeSet))).1

/-- One element of `addMultiPoint`: get or create the record, then set `src`
and the interior location flag for the operand. -/
def addMultiPointStep (op : operand) (d : doublyConnectedEdgeList)
    (pt : Option XY) : doublyConnectedEdgeList :=
  match pt with
  | none => d
  | some xy =>
      let fresh : vertexRecord :=
        { coords := xy
          incidents := []
          src := default
          inSet := default
          locations := default
          extracted := false }
      let d :=
        match lookupVertex d.vertices xy with
        | none => { d with vertices := insertVertex d.vertices xy fresh }
        | some _ => d
      let vs := updateVertex d.vertices xy
        (fun v =>
          { v with
            src := v.src.set op true
            locations := v.locations.set op
              { v.locations.get op with interior := true } })
      { d with vertices := vs }

/-- `addMultiPoint`: each element in order. -/
def addMultiPoint (d : doublyConnectedEdgeList) (pts : List (Option XY))
    (op : operand) : doublyConnectedEdgeList :=
  pts.foldl (addMultiPointStep op) d

mutual

/-- `addGeometry`: dispatch on the geometry variant; a Polygon is treated as
a MultiPolygon of one, a LineString as a MultiLineString of one, a Point as a
MultiPoint of one, and a GeometryCollection recurses into its children. -/
def addGeometry (d : doublyConnectedEdgeList) (g : Geometry) (op : operand)
    (interactions : List XY) : doublyConnectedEdgeList :=
  match g with
  | .polygon rings => addMultiPolygon d [rings] op interactions
  | .multiPolygon polys => addMultiPolygon d polys op interactions
  | .lineString seq => addMultiLineString d [seq] op interactions
  | .multiLineString lss => addMultiLineString d lss op interactions
  | .point xy => addMultiPoint d [xy] op
  | .multiPoint pts => addMultiPoint d pts op
  | .geometryCollection gs => addGeometryCollection d gs op interactions

def addGeometryCollection (d : doublyConnectedEdgeList) (gs : List Geometry)
    (op : operand) (interactions : List XY) : doublyConnectedEdgeList :=
  match gs with
  | [] => d
  | g :: rest => addGeometryCollection (addGeometry d g op interactions) rest op interactions

end

/-- Modelled from the spec: `fixVertex` re-wires only the `next`/`prev`
pointers of the half-edges around one vertex so a freshly added ghost edge is
threaded into any pre-existing cycles there. The routine is outside the
supplied sources and the angular-order policy is explicitly not shown in the
spec, so the incident edges are threaded in their stored order: each incoming
edge (the twin of an outgoing incident) gets as `next` the cyclically
following outgoing incident, whose `prev` becomes that incoming edge. -/
def fixVertex (d : doublyConnectedEdgeList) (xy : XY) :
    doublyConnectedEdgeList :=
  match lookupVertex d.vertices xy with
  | none => d
  | some v =>
      let outs := v.incidents
      let k := outs.length
      let hs := (List.range k).foldl
        (fun hs j =>
          let oj := outs.getD j 0
          let following := outs.getD ((j + 1) % k) 0
          let incoming := (hs.getD oj default).twin
          let hs := modifyEdge hs incoming (fun e => { e with next := following })
          modifyEdge hs following (fun e => { e with prev := incoming }))
        d.halfEdges
      { d with halfEdges := hs }

/-- `addGhostLine`: create the twin pair for a ghost segment (degenerate
two-edge cycle), then fix up both endpoint vertices. -/
def addGhostLine (d : doublyConnectedEdgeList)
    (segment reverseSegment : Sequence) : doublyConnectedEdgeList :=
  let vertAxy := segment.headD default
  let vertBxy := reverseSegment.headD default
  let idx := d.halfEdges.length
  let e1 : halfEdgeRecord :=
    { origin := vertAxy
      twin := idx + 1
      next := idx + 1
      prev := idx + 1
      seq := segment
      srcEdge := default
      srcFace := default
      inSet := default
      extracted := false }
  let e2 : halfEdgeRecord :=
    { origin := vertBxy
      twin := idx
      next := idx
      prev := idx
      seq := reverseSegment
      srcEdge := default
      srcFace := default
      inSet := default
      extracted := false }
  let vs := appendIncident d.vertices vertAxy idx
  let vs := appendIncident vs vertBxy (idx + 1)
  let d := { halfEdges := d.halfEdges ++ [e1, e2], vertices := vs }
  fixVertex (fixVertex d vertAxy) vertBxy

/-- The per-segment body of `addGhosts`: create missing endpoint vertices
(zero-valued records), then add the ghost line unless the segment is already
present in the edge set. -/
def ensureVertex (d : doublyConnectedEdgeList) (xy : XY) :
    doublyConnectedEdgeList :=
  match lookupVertex d.vertices xy with
  | none =>
      let fresh : vertexRecord :=
        { coords := xy, incidents := [], src := default, inSet := default
          locations := default, extracted := false }
      { d with vertices := insertVertex d.vertices xy fresh }
  | some _ => d

def ghostSegmentStep (acc : doublyConnectedEdgeList × edgeSet)
    (segment : Sequence) : doublyConnectedEdgeList × edgeSet :=
  let (d, edges) := acc
  let reverseSegment := reverseSequence segment
  let startXY := segment.headD default
  let endXY := reverseSegment.headD default
  let d := ensureVertex d startXY
  let d := ensureVertex d endXY
  if edgeSetContains edges segment then (d, edges)
  else
    let edges := edgeSetInsert edges segment
    let edges := edgeSetInsert edges reverseSegment
    (addGhostLine d segment reverseSegment, edges)

/-- `addGhosts`: seed the edge set with every existing half-edge, then add
each non-interacting ghost segment not already present. -/
def addGhosts (d : doublyConnectedEdgeList) (mls : List Sequence)
    (op : operand) (interactions : List XY) : doublyConnectedEdgeList :=
  let edges := d.halfEdges.foldl (fun es e => edgeSetInsert es e.seq) []
  (mls.foldl
    (fun acc ls =>
      (builderSegments ls interactions).foldl ghostSegmentStep acc)
    (d, edges)).1

/-- The empty DCEL the builder starts from. -/
def emptyDCEL : doublyConnectedEdgeList := ⟨[], []⟩

/-- `newDCELFromGeometry`: add the geometry, then the ghost lines. -/
def newDCELFromGeometry (g : Geometry) (ghosts : List Sequence)
    (op : operand) (interactions : List XY) : doublyConnectedEdgeList :=
  addGhosts (addGeometry emptyDCEL g op interactions) ghosts op interactions

/-- One Builder addition: either a geometry or a batch of ghost lines, for
some operand (the same DCEL instance serves both operands). -/
inductive builderOp where
  | geom (g : Geometry) (op : operand)
  | ghosts (mls : List Sequence) (op : operand)

/-- Run a sequence of Builder additions against one shared interaction set,
starting from the empty DCEL. -/
def runBuilder (interactions : List XY) (ops : List builderOp) :
    doublyConnectedEdgeList :=
  ops.foldl
    (fun d bop =>
      match bop with
      | .geom g op => addGeometry d g op interactions
      | .ghosts mls op => addGhosts d mls op interactions)
    emptyDCEL

/-! ## Interaction finding versus DCEL building on GeometryCollection (C9) -/

/-- Whether a geometry is a GeometryCollection. -/
def isGeometryCollection : Geometry → Bool
  | .geometryCollection _ => true
  | _ => false

theorem addGeometryInteractions_error_of_collection (g : Geometry)
    (h : isGeometryCollection g = true) (st : interactionState) :
    addGeometryInteractions g st = .error .unsupportedGeometryCollection := by
  cases g <;> simp_all [isGeometryCollection, addGeometryInteractions]

theorem interactionFold_error_of_collection (gs : List Geometry) :
    ∀ st : interactionState, (∃ g ∈ gs, isGeometryCollection g = true) →
      gs.foldlM (fun st g => addGeometryInteractions g st) st =
        .error .unsupportedGeometryCollection := by
  induction gs with
  | nil => rintro st ⟨g, hg, _⟩; simp at hg
  | cons g t ih =>
      rintro st ⟨g0, hg0, hcoll⟩
      rcases List.mem_cons.mp hg0 with h | h
      · rw [List.foldlM_cons,
          addGeometryInteractions_error_of_collection g (h ▸ hcoll)]
        rfl
      · cases hgt : addGeometryInteractions g st with
        | error e =>
            cases e
            rw [List.foldlM_cons, hgt]
            rfl
        | ok st2 =>
            rw [List.foldlM_cons, hgt]
            simpa using ih st2 ⟨g0, h, hcoll⟩

theorem addGeometryCollection_eq_foldl (gs : List Geometry) :
    ∀ (d : doublyConnectedEdgeList) (op : operand) (ia : List XY),
      addGeometryCollection d gs op ia =
        gs.foldl (fun d g => addGeometry d g op ia) d := by
  induction gs with
  | nil => intro d op ia; rfl
  | cons g t ih => intro d op ia; simp [addGeometryCollection, ih]

/-- C9: `findInteractionPoints` fails fatally (a programmer error, surfaced
here as an `Except.error`) whenever its input contains a GeometryCollection,
while the Builder's `addGeometry` accepts a GeometryCollection and processes
each child geometry recursively (in order, threading the DCEL through). -/
theorem geometryCollectionAsymmetry :
    (∀ gs : List Geometry, (∃ g ∈ gs, isGeometryCollection g = true) →
      findInteractionPoints gs = .error .unsupportedGeometryCollection) ∧
    (∀ (d : doublyConnectedEdgeList) (gs : List Geometry) (op : operand)
      (ia : List XY),
      addGeometry d (.geometryCollection gs) op ia =
        gs.foldl (fun d g => addGeometry d g op ia) d) := by
  constructor
  · intro gs h
    unfold findInteractionPoints
    rw [interactionFold_error_of_collection gs _ h]
    rfl
  · intro d gs op ia
    rw [show addGeometry d (.geometryCollection gs) op ia =
      addGeometryCollection d gs op ia from rfl]
    exact addGeometryCollection_eq_foldl gs d op ia

/-- Witness for C9 at concrete inputs: a singleton list holding an empty
GeometryCollection is rejected by the finder, and the builder recursion
equation instantiated at a two-point collection. -/
theorem geometryCollectionAsymmetryWitness :
    findInteractionPoints [.geometryCollection []] =
      .error .unsupportedGeometryCollection ∧
    addGeometry emptyDCEL
        (.geometryCollection [.point (some ⟨1,2⟩), .point (some ⟨3,4⟩)]) 0 [] =
      [Geometry.point (some ⟨1,2⟩), .point (some ⟨3,4⟩)].foldl
        (fun d g => addGeometry d g 0 []) emptyDCEL :=
  ⟨geometryCollectionAsymmetry.1 [.geometryCollection []]
      ⟨.geometryCollection [], by simp, rfl⟩,
    geometryCollectionAsymmetry.2 emptyDCEL
      [.point (some ⟨1,2⟩), .point (some ⟨3,4⟩)] 0 []⟩

/-! ## C1: the vertex location-exclusivity invariant -/

/-- The MultiLineString of the C1 counterexample: one string ending at the
origin, and one string passing through the origin as an interior vertex. -/
def locationClashGeometry : Geometry :=
  .multiLineString [[⟨0,0⟩, ⟨1,1⟩], [⟨-1,0⟩, ⟨0,0⟩, ⟨1,0⟩]]

/-- The interaction set the finder computes for `locationClashGeometry`. -/
def locationClashInteractions : List XY := [⟨0,0⟩, ⟨1,1⟩, ⟨-1,0⟩, ⟨1,0⟩]

/-- Counterexample to C1 as stated: with the consistent interaction set
computed by `findInteractionPoints`, a single `addGeometry` addition (operand
0) of `locationClashGeometry` produces a DCEL whose vertex at the origin has
`locations[0].boundary` and `locations[0].interior` simultaneously true: the
origin is an endpoint of the first member string (boundary set), and the
interior-vertex update of the second string sets `interior` without clearing
`boundary`. -/
theorem locationExclusivityCounterexample :
    findInteractionPoints [locationClashGeometry] =
      .ok locationClashInteractions ∧
    (lookupVertex
        (runBuilder locationClashInteractions
          [.geom locationClashGeometry 0]).vertices ⟨0,0⟩).map
      (fun v => ((v.locations.get 0).boundary, (v.locations.get 0).interior)) =
      some (true, true) := by
  constructor
  · rfl
  · rfl

/-! ## C2: completeness of `findInteractionPoints` on shared vertices -/

/-- The finder's second precondition: no consecutive repeated coordinates. -/
def noConsecutiveRepeats (s : Sequence) : Bool :=
  (s.zip (s.drop 1)).all (fun pq => pq.1 ≠ pq.2)

/-- Two identical (hence trivially mutually noded, repeat-free) line strings
for the C2 counterexample. -/
def sharedOverlapLine : Sequence := [⟨0,0⟩, ⟨1,0⟩, ⟨2,0⟩]

/-- Counterexample to C2 as stated: `(1,0)` is a vertex of both line strings
(which are mutually noded and have no consecutive repeated coordinates), yet
it is not in `findInteractionPoints([l1, l2])`: the two occurrences carry the
same canonicalised adjacent pair, so the second occurrence is classified as a
shared overlap, not an interaction. -/
theorem interactionCompletenessCounterexample :
    (⟨1,0⟩ : XY) ∈ sharedOverlapLine ∧
    noConsecutiveRepeats sharedOverlapLine = true ∧
    findInteractionPoints
      [.lineString sharedOverlapLine, .lineString sharedOverlapLine] =
      .ok [⟨0,0⟩, ⟨2,0⟩] ∧
    (⟨1,0⟩ : XY) ∉ [(⟨0,0⟩ : XY), ⟨2,0⟩] := by
  refine ⟨by decide, by decide, by rfl, by decide⟩

/-! ## The interaction scan as a flat event sequence

To reason about "first occurrence" behaviour of the `adjacents` map, the scan
performed by `findInteractionPoints` is re-expressed as a fold over a flat
list of events: plain insertions (points and line-string endpoints) and
interior-vertex windows. -/

/-- One event of the interaction scan. -/
inductive scanEvent where
  | insertEv (xy : XY)
  | windowEv (prev curr next : XY)
deriving DecidableEq, Repr

/-- The effect of one scan event on the state. -/
def eventStep (st : interactionState) : scanEvent → interactionState
  | .insertEv xy => { st with interactions := xySetInsert st.interactions xy }
  | .windowEv prev curr next => lineStringInteractionStep st prev curr next

/-- The interior windows `(seq[i-1], seq[i], seq[i+1])` of a scan whose
current window is `(a, b)` with remaining points `l`. -/
def windowsFrom : XY → XY → List XY → List (XY × XY × XY)
  | _, _, [] => []
  | a, b, c :: rest => (a, b, c) :: windowsFrom b c rest

/-- All interior windows of a sequence. -/
def interiorWindows : Sequence → List (XY × XY × XY)
  | p0 :: p1 :: rest => windowsFrom p0 p1 rest
  | _ => []

/-- The events contributed by `addLineStringInteractions` on one sequence. -/
def lineStringEvents (seq : Sequence) : List scanEvent :=
  (match seq.head? with | some xy => [.insertEv xy] | none => []) ++
  (match seq.getLast? with | some xy => [.insertEv xy] | none => []) ++
  (interiorWindows seq).map (fun w => .windowEv w.1 w.2.1 w.2.2)

/-- The events contributed by one geometry (a GeometryCollection, which the
finder rejects, contributes none). -/
def geometryEvents : Geometry → List scanEvent
  | .point (some xy) => [.insertEv xy]
  | .point none => []
  | .multiPoint pts =>
      pts.flatMap (fun pt => match pt with
        | some xy => [scanEvent.insertEv xy]
        | none => [])
  | .lineString seq => lineStringEvents seq
  | .multiLineString lss => lss.flatMap lineStringEvents
  | .polygon rings => rings.flatMap lineStringEvents
  | .multiPolygon polys => (polys.flatten).flatMap lineStringEvents
  | .geometryCollection _ => []

theorem lineStringInteractionLoop_eq_windows (l : List XY) :
    ∀ (st : interactionState) (a b : XY),
      lineStringInteractionLoop st a b l =
        (windowsFrom a b l).foldl
          (fun st w => lineStringInteractionStep st w.1 w.2.1 w.2.2) st := by
  induction l with
  | nil => intro st a b; rfl
  | cons c rest ih =>
      intro st a b
      simp [lineStringInteractionLoop, windowsFrom, ih]

theorem addLineStringInteractions_eq_events (seq : Sequence)
    (st : interactionState) :
    addLineStringInteractions seq st =
      (lineStringEvents seq).foldl eventStep st := by
  match seq with
  | [] => rfl
  | [p] => rfl
  | p0 :: p1 :: rest =>
      simp only [addLineStringInteractions, lineStringEvents, interiorWindows]
      rw [lineStringInteractionLoop_eq_windows]
      simp only [List.head?_cons, List.foldl_append, List.foldl_map]
      rw [List.foldl_cons]
      cases h : (p0 :: p1 :: rest).getLast? with
      | none => simp at h
      | some q => simp [eventStep]

theorem addMultiLineStringInteractions_eq_events (lss : List Sequence) :
    ∀ st : interactionState,
      addMultiLineStringInteractions lss st =
        (lss.flatMap lineStringEvents).foldl eventStep st := by
  induction lss with
  | nil => intro st; rfl
  | cons ls t ih =>
      intro st
      simp only [addMultiLineStringInteractions, List.foldl_cons,
        List.flatMap_cons, List.foldl_append]
      rw [← addLineStringInteractions_eq_events]
      exact ih (addLineStringInteractions ls st)

theorem addMultiPointInteractions_eq_events (pts : List (Option XY)) :
    ∀ st : interactionState,
      addMultiPointInteractions pts st =
        (pts.flatMap (fun pt => match pt with
          | some xy => [scanEvent.insertEv xy]
          | none => [])).foldl eventStep st := by
  induction pts with
  | nil => intro st; rfl
  | cons pt t ih =>
      intro st
      have hstep : addMultiPointInteractions (pt :: t) st =
          addMultiPointInteractions t (addPointInteractions pt st) := rfl
      rw [hstep, ih]
      cases pt <;> rfl

theorem addGeometryInteractions_eq_events (g : Geometry)
    (hg : isGeometryCollection g = false) (st : interactionState) :
    addGeometryInteractions g st =
      .ok ((geometryEvents g).foldl eventStep st) := by
  cases g with
  | point pt =>
      cases pt <;> rfl
  | multiPoint pts =>
      simp only [addGeometryInteractions, geometryEvents]
      rw [← addMultiPointInteractions_eq_events]
  | lineString seq =>
      simp only [addGeometryInteractions, geometryEvents]
      rw [← addLineStringInteractions_eq_events]
  | multiLineString lss =>
      simp only [addGeometryInteractions, geometryEvents]
      rw [← addMultiLineStringInteractions_eq_events]
  | polygon rings =>
      simp only [addGeometryInteractions, geometryEvents]
      rw [← addMultiLineStringInteractions_eq_events]
      rfl
  | multiPolygon polys =>
      simp only [addGeometryInteractions, geometryEvents]
      rw [← addMultiLineStringInteractions_eq_events]
      rfl
  | geometryCollection gs => simp [isGeometryCollection] at hg

theorem findInteractionPoints_eq_events (gs : List Geometry)
    (hg : ∀ g ∈ gs, isGeometryCollection g = false) :
    findInteractionPoints gs =
      .ok ((gs.flatMap geometryEvents).foldl eventStep
        (⟨[], []⟩ : interactionState)).interactions := by
  suffices h : ∀ st : interactionState,
      gs.foldlM (fun st g => addGeometryInteractions g st) st =
        .ok ((gs.flatMap geometryEvents).foldl eventStep st) by
    unfold findInteractionPoints
    rw [h ⟨[], []⟩]
    rfl
  induction gs with
  | nil => intro st; rfl
  | cons g t ih =>
      intro st
      rw [List.foldlM_cons,
        addGeometryInteractions_eq_events g (hg g (by simp))]
      simp only [List.flatMap_cons, List.foldl_append]
      exact ih (fun g hgmem => hg g (by simp [hgmem])) _

/-! ## Persistence and monotonicity of the scan state -/

theorem mem_xySetInsert_self (s : List XY) (xy : XY) :
    xy ∈ xySetInsert s xy := by
  unfold xySetInsert
  by_cases h : xy ∈ s <;> simp [h]

theorem mem_xySetInsert_of_mem (s : List XY) (a b : XY) (h : a ∈ s) :
    a ∈ xySetInsert s b := by
  unfold xySetInsert
  by_cases hb : b ∈ s <;> simp [hb, h]

theorem interactions_mono_step (st : interactionState) (e : scanEvent)
    (a : XY) (h : a ∈ st.interactions) : a ∈ (eventStep st e).interactions := by
  cases e with
  | insertEv xy => exact mem_xySetInsert_of_mem _ _ _ h
  | windowEv p c n =>
      unfold eventStep lineStringInteractionStep
      by_cases hpn : p = n
      · simpa [hpn] using mem_xySetInsert_of_mem _ _ _ h
      · simp only [if_neg hpn]
        cases hl : lookupAdj st.adjacents c with
        | none => simpa [hl] using h
        | some v =>
            by_cases hv : v ≠ canonicalAdjacent p n <;>
              simp [hl, hv] <;>
              first
                | exact mem_xySetInsert_of_mem _ _ _ h
                | exact h

theorem interactions_mono_fold (E : List scanEvent) :
    ∀ (st : interactionState) (a : XY), a ∈ st.interactions →
      a ∈ (E.foldl eventStep st).interactions := by
  induction E with
  | nil => intro st a h; exact h
  | cons e t ih =>
      intro st a h
      exact ih _ a (interactions_mono_step st e a h)

theorem lookupAdj_append_of_some (m m2 : List (XY × xyPair)) (k : XY)
    (v : xyPair) (h : lookupAdj m k = some v) :
    lookupAdj (m ++ m2) k = some v := by
  induction m with
  | nil => simp [lookupAdj] at h
  | cons kv t ih =>
      unfold lookupAdj at h ⊢
      by_cases hk : kv.1 = k <;> simp_all

theorem lookupAdj_append_singleton_of_none (m : List (XY × xyPair)) (k c : XY)
    (v : xyPair) (h : lookupAdj m k = none) :
    lookupAdj (m ++ [(c, v)]) k = if c = k then some v else none := by
  induction m with
  | nil => simp [lookupAdj]
  | cons kv t ih =>
      unfold lookupAdj at h ⊢
      by_cases hk : kv.1 = k <;> simp_all

theorem adjacents_persist_step (st : interactionState) (e : scanEvent)
    (k : XY) (v : xyPair) (h : lookupAdj st.adjacents k = some v) :
    lookupAdj (eventStep st e).adjacents k = some v := by
  cases e with
  | insertEv xy => exact h
  | windowEv p c n =>
      unfold eventStep lineStringInteractionStep
      by_cases hpn : p = n
      · simpa [hpn] using h
      · simp only [if_neg hpn]
        cases hl : lookupAdj st.adjacents c with
        | none =>
            simp only [hl]
            exact lookupAdj_append_of_some _ _ _ _ h
        | some w =>
            by_cases hw : w ≠ canonicalAdjacent p n <;> simp [hl, hw, h]

theorem adjacents_persist_fold (E : List scanEvent) :
    ∀ (st : interactionState) (k : XY) (v : xyPair),
      lookupAdj st.adjacents k = some v →
      lookupAdj ((E.foldl eventStep st).adjacents) k = some v := by
  induction E with
  | nil => intro st k v h; exact h
  | cons e t ih =>
      intro st k v h
      exact ih _ k v (adjacents_persist_step st e k v h)

/-- Whether an event can append an `adjacents` binding for `xy`: an interior
window at `xy` that is not a reversal. -/
def isRecordingEvent (xy : XY) : scanEvent → Bool
  | .windowEv p c n => c == xy && !(p == n)
  | .insertEv _ => false

theorem adjacents_none_step (st : interactionState) (e : scanEvent) (xy : XY)
    (h : lookupAdj st.adjacents xy = none)
    (hrec : isRecordingEvent xy e = false) :
    lookupAdj (eventStep st e).adjacents xy = none := by
  cases e with
  | insertEv a => exact h
  | windowEv p c n =>
      unfold eventStep lineStringInteractionStep
      by_cases hpn : p = n
      · simpa [hpn] using h
      · have hc : c ≠ xy := by
          simp [isRecordingEvent, hpn] at hrec
          exact hrec
        simp only [if_neg hpn]
        cases hl : lookupAdj st.adjacents c with
        | none =>
            simp only [hl]
            rw [lookupAdj_append_singleton_of_none _ _ _ _ h]
            simp [hc]
        | some w =>
            by_cases hw : w ≠ canonicalAdjacent p n <;> simp [hl, hw, h]

theorem adjacents_none_fold (E : List scanEvent) :
    ∀ (st : interactionState) (xy : XY),
      lookupAdj st.adjacents xy = none →
      (∀ e ∈ E, isRecordingEvent xy e = false) →
      lookupAdj ((E.foldl eventStep st).adjacents) xy = none := by
  induction E with
  | nil => intro st xy h _; exact h
  | cons e t ih =>
      intro st xy h hrec
      exact ih _ xy (adjacents_none_step st e xy h (hrec e (by simp)))
        (fun e he => hrec e (by simp [he]))

theorem adjacents_record_step (st : interactionState) (p xy n : XY)
    (hpn : p ≠ n) (h : lookupAdj st.adjacents xy = none) :
    lookupAdj (eventStep st (.windowEv p xy n)).adjacents xy =
      some (canonicalAdjacent p n) := by
  unfold eventStep lineStringInteractionStep
  simp only [if_neg hpn, h]
  rw [lookupAdj_append_singleton_of_none _ _ _ _ h]
  simp

theorem window_insert_of_stored_ne (st : interactionState) (p xy n : XY)
    (v : xyPair) (hpn : p ≠ n) (h : lookupAdj st.adjacents xy = some v)
    (hne : v ≠ canonicalAdjacent p n) :
    xy ∈ (eventStep st (.windowEv p xy n)).interactions := by
  unfold eventStep lineStringInteractionStep
  simp only [if_neg hpn, h, if_pos hne]
  have : lookupAdj st.adjacents xy = some v := h
  cases hl : lookupAdj st.adjacents xy with
  | none => rw [hl] at h; cases h
  | some w => simp [mem_xySetInsert_self]

theorem reversal_insert (st : interactionState) (p xy : XY) :
    xy ∈ (eventStep st (.windowEv p xy p)).interactions := by
  unfold eventStep lineStringInteractionStep
  simp [mem_xySetInsert_self]

theorem insertEv_insert (st : interactionState) (xy : XY) :
    xy ∈ (eventStep st (.insertEv xy)).interactions := by
  unfold eventStep
  simp [mem_xySetInsert_self]

/-- Splitting a list at the first element satisfying a Boolean predicate. -/
theorem exists_first_split {α : Type} (P : α → Bool) (l : List α)
    (h : ∃ e ∈ l, P e = true) :
    ∃ l1 e l2, l = l1 ++ e :: l2 ∧ P e = true ∧ ∀ x ∈ l1, P x = false := by
  induction l with
  | nil => rcases h with ⟨e, he, _⟩; simp at he
  | cons a t ih =>
      by_cases ha : P a = true
      · exact ⟨[], a, t, by simp, ha, by simp⟩
      · have ht : ∃ e ∈ t, P e = true := by
          rcases h with ⟨e, he, hPe⟩
          rcases List.mem_cons.mp he with rfl | he2
          · exact absurd hPe ha
          · exact ⟨e, he2, hPe⟩
        rcases ih ht with ⟨l1, e, l2, heq, hPe, hfree⟩
        refine ⟨a :: l1, e, l2, by simp [heq], hPe, ?_⟩
        intro x hx
        rcases List.mem_cons.mp hx with rfl | hx2
        · simpa using ha
        · exact hfree x hx2

/-! ## Amended interaction completeness (C2) -/

/-- Whether `xy` is an endpoint (start or end) of the sequence. -/
def endpointOfSeq (seq : Sequence) (xy : XY) : Bool :=
  seq.head? == some xy || seq.getLast? == some xy

theorem mem_interactions_of_insertEv (E : List scanEvent)
    (st : interactionState) (xy : XY) (h : (.insertEv xy) ∈ E) :
    xy ∈ (E.foldl eventStep st).interactions := by
  obtain ⟨s, t, rfl⟩ := List.append_of_mem h
  rw [List.foldl_append, List.foldl_cons]
  exact interactions_mono_fold t _ xy (insertEv_insert _ xy)

theorem mem_interactions_of_reversal (E : List scanEvent)
    (st : interactionState) (p xy : XY) (h : (.windowEv p xy p) ∈ E) :
    xy ∈ (E.foldl eventStep st).interactions := by
  obtain ⟨s, t, rfl⟩ := List.append_of_mem h
  rw [List.foldl_append, List.foldl_cons]
  exact interactions_mono_fold t _ xy (reversal_insert _ p xy)

theorem mem_interactions_of_differing_windows (E : List scanEvent) (xy : XY)
    (st : interactionState) (hst : lookupAdj st.adjacents xy = none)
    (p1 n1 p2 n2 : XY)
    (h1 : (.windowEv p1 xy n1) ∈ E) (h2 : (.windowEv p2 xy n2) ∈ E)
    (hp1 : p1 ≠ n1) (hp2 : p2 ≠ n2)
    (hne : canonicalAdjacent p1 n1 ≠ canonicalAdjacent p2 n2) :
    xy ∈ (E.foldl eventStep st).interactions := by
  have hex : ∃ e ∈ E, isRecordingEvent xy e = true :=
    ⟨.windowEv p1 xy n1, h1, by simp [isRecordingEvent, hp1]⟩
  obtain ⟨E1, e0, E2, hEeq, hPe0, hfree⟩ := exists_first_split _ E hex
  obtain ⟨p0, n0, rfl, hp0n0⟩ :
      ∃ p0 n0, e0 = .windowEv p0 xy n0 ∧ p0 ≠ n0 := by
    cases e0 with
    | insertEv a => simp [isRecordingEvent] at hPe0
    | windowEv p c n =>
        simp [isRecordingEvent] at hPe0
        exact ⟨p, n, by rw [hPe0.1], hPe0.2⟩
  subst hEeq
  have hdiff : ∃ p n, (.windowEv p xy n) ∈ E1 ++ .windowEv p0 xy n0 :: E2 ∧
      p ≠ n ∧ canonicalAdjacent p n ≠ canonicalAdjacent p0 n0 := by
    by_cases h : canonicalAdjacent p1 n1 = canonicalAdjacent p0 n0
    · refine ⟨p2, n2, h2, hp2, ?_⟩
      rw [← h]
      exact fun hc => hne hc.symm
    · exact ⟨p1, n1, h1, hp1, h⟩
  obtain ⟨p, n, hmem, hpn, hcne⟩ := hdiff
  have hmem2 : (.windowEv p xy n) ∈ E2 := by
    rcases List.mem_append.mp hmem with hA | hB
    · have := hfree _ hA
      simp [isRecordingEvent, hpn] at this
    · rcases List.mem_cons.mp hB with heq | hrest
      · exfalso
        have hp0 : p = p0 := by injection heq
        have hn0 : n = n0 := by
          injection heq with h1b h2b h3b
        exact hcne (by rw [hp0, hn0])
      · exact hrest
  have hA : lookupAdj ((E1.foldl eventStep st).adjacents) xy = none :=
    adjacents_none_fold E1 st xy hst hfree
  have hB : lookupAdj
      ((eventStep (E1.foldl eventStep st) (.windowEv p0 xy n0)).adjacents) xy =
      some (canonicalAdjacent p0 n0) :=
    adjacents_record_step _ _ _ _ hp0n0 hA
  obtain ⟨A, B, rfl⟩ := List.append_of_mem hmem2
  rw [List.foldl_append, List.foldl_cons, List.foldl_append, List.foldl_cons]
  have hC : lookupAdj
      ((A.foldl eventStep
        (eventStep (E1.foldl eventStep st) (.windowEv p0 xy n0))).adjacents)
      xy = some (canonicalAdjacent p0 n0) :=
    adjacents_persist_fold A _ xy _ hB
  have hD := window_insert_of_stored_ne _ p xy n _ hpn hC
    (fun hc => hcne hc.symm)
  exact interactions_mono_fold B _ xy hD

theorem insertEv_mem_lineStringEvents (seq : Sequence) (xy : XY)
    (h : endpointOfSeq seq xy = true) : (.insertEv xy) ∈ lineStringEvents seq := by
  unfold endpointOfSeq at h
  unfold lineStringEvents
  rcases Bool.or_eq_true_iff.mp h with h1 | h1 <;>
    rw [beq_iff_eq] at h1 <;> rw [h1]
  · simp
  · cases hh : seq.head? <;> simp

theorem windowEv_mem_lineStringEvents (seq : Sequence) (w : XY × XY × XY)
    (h : w ∈ interiorWindows seq) :
    (.windowEv w.1 w.2.1 w.2.2) ∈ lineStringEvents seq := by
  unfold lineStringEvents
  refine List.mem_append_right _ ?_
  exact List.mem_map.mpr ⟨w, h, rfl⟩

/-- C2, amended: for noded, repeat-free line strings `l1`, `l2`, every XY that
is a vertex of both is in `findInteractionPoints([l1, l2])` **unless it is a
pure shared-overlap vertex** — an interior vertex that is an endpoint of
neither string and all of whose (non-reversal) interior occurrences carry one
and the same canonicalised adjacent pair. Equivalently, membership is
guaranteed as soon as the vertex is an endpoint of either string, or has a
reversal occurrence (`prev == next`), or has two interior occurrences with
differing canonicalised adjacent pairs. -/
theorem interactionCompletenessAmendedThm (l1 l2 : Sequence) (xy : XY)
    (hv1 : xy ∈ l1) (hv2 : xy ∈ l2)
    (hnr1 : noConsecutiveRepeats l1 = true)
    (hnr2 : noConsecutiveRepeats l2 = true)
    (hnot : endpointOfSeq l1 xy = true ∨ endpointOfSeq l2 xy = true ∨
      (∃ w ∈ interiorWindows l1 ++ interiorWindows l2,
        w.2.1 = xy ∧ w.1 = w.2.2) ∨
      (∃ w1 ∈ interiorWindows l1 ++ interiorWindows l2,
       ∃ w2 ∈ interiorWindows l1 ++ interiorWindows l2,
        w1.2.1 = xy ∧ w2.2.1 = xy ∧ w1.1 ≠ w1.2.2 ∧ w2.1 ≠ w2.2.2 ∧
        canonicalAdjacent w1.1 w1.2.2 ≠ canonicalAdjacent w2.1 w2.2.2)) :
    ∃ r, findInteractionPoints [.lineString l1, .lineString l2] = .ok r ∧
      xy ∈ r := by
  have hfind := findInteractionPoints_eq_events
    [.lineString l1, .lineString l2]
    (by intro g hg
        rcases List.mem_cons.mp hg with rfl | hg2
        · rfl
        · rcases List.mem_cons.mp hg2 with rfl | hg3
          · rfl
          · simp at hg3)
  refine ⟨_, hfind, ?_⟩
  have hE : ([Geometry.lineString l1, .lineString l2].flatMap geometryEvents)
      = lineStringEvents l1 ++ lineStringEvents l2 := by
    simp [geometryEvents]
  rw [hE]
  have memE : ∀ e : scanEvent, e ∈ lineStringEvents l1 ∨ e ∈ lineStringEvents l2 →
      e ∈ lineStringEvents l1 ++ lineStringEvents l2 := by
    intro e he
    rcases he with h | h
    · exact List.mem_append_left _ h
    · exact List.mem_append_right _ h
  have memW : ∀ w : XY × XY × XY,
      w ∈ interiorWindows l1 ++ interiorWindows l2 →
      (.windowEv w.1 w.2.1 w.2.2) ∈ lineStringEvents l1 ++ lineStringEvents l2 := by
    intro w hw
    rcases List.mem_append.mp hw with h | h
    · exact memE _ (Or.inl (windowEv_mem_lineStringEvents l1 w h))
    · exact memE _ (Or.inr (windowEv_mem_lineStringEvents l2 w h))
  rcases hnot with h | h | h | h
  · exact mem_interactions_of_insertEv _ _ xy
      (memE _ (Or.inl (insertEv_mem_lineStringEvents l1 xy h)))
  · exact mem_interactions_of_insertEv _ _ xy
      (memE _ (Or.inr (insertEv_mem_lineStringEvents l2 xy h)))
  · obtain ⟨w, hw, hcurr, hrev⟩ := h
    have := memW w hw
    rw [hcurr, ← hrev] at this
    exact mem_interactions_of_reversal _ _ w.1 xy this
  · obtain ⟨w1, hw1, w2, hw2, hc1, hc2, hr1, hr2, hcc⟩ := h
    have hm1 := memW w1 hw1
    have hm2 := memW w2 hw2
    rw [hc1] at hm1
    rw [hc2] at hm2
    exact mem_interactions_of_differing_windows _ xy _ rfl
      w1.1 w1.2.2 w2.1 w2.2.2 hm1 hm2 hr1 hr2 hcc

/-- Witness for the amended C2 at a concrete input: two segments sharing the
endpoint `(1,0)`. -/
theorem interactionCompletenessAmendedWitness :
    ∃ r, findInteractionPoints
        [.lineString [⟨0,0⟩, ⟨1,0⟩], .lineString [⟨1,0⟩, ⟨1,1⟩]] = .ok r ∧
      (⟨1,0⟩ : XY) ∈ r :=
  interactionCompletenessAmendedThm [⟨0,0⟩, ⟨1,0⟩] [⟨1,0⟩, ⟨1,1⟩] ⟨1,0⟩
    (by decide) (by decide) (by decide) (by decide) (Or.inl (by decide))

/-! ## C6: the interior-vertex adjacency rule -/

/-- C6: an interior line-string vertex `curr` with `prev != next` adds an
interaction at a given occurrence exactly when a canonical adjacent pair is
already stored for `curr` and differs from this occurrence's canonicalised
`{prev, next}` (in particular a direction-reversed but otherwise equal pair
adds nothing, since the stored and current pairs are canonicalised); the
occurrence records its pair exactly when none is stored yet; and the stored
pair is the canonicalised pair of `curr`'s first recording occurrence in the
scan. -/
theorem interiorVertexAdjacencyRule :
    (∀ (st : interactionState) (prev curr next : XY), prev ≠ next →
      ((lineStringInteractionStep st prev curr next).interactions =
        match lookupAdj st.adjacents curr with
        | some stored =>
            if stored ≠ canonicalAdjacent prev next then
              xySetInsert st.interactions curr
            else st.interactions
        | none => st.interactions) ∧
      ((lineStringInteractionStep st prev curr next).adjacents =
        match lookupAdj st.adjacents curr with
        | some _ => st.adjacents
        | none => st.adjacents ++ [(curr, canonicalAdjacent prev next)])) ∧
    (∀ (E1 E2 : List scanEvent) (prev xy next : XY) (st : interactionState),
      lookupAdj st.adjacents xy = none →
      (∀ e ∈ E1, isRecordingEvent xy e = false) →
      prev ≠ next →
      lookupAdj
          (((E1 ++ .windowEv prev xy next :: E2).foldl eventStep st).adjacents)
          xy =
        some (canonicalAdjacent prev next)) := by
  constructor
  · intro st prev curr next hpn
    constructor
    · unfold lineStringInteractionStep
      simp only [if_neg hpn]
      cases hl : lookupAdj st.adjacents curr with
      | none =>
          simp only [hl]
      | some stored =>
          by_cases hs : stored ≠ canonicalAdjacent prev next <;>
            simp [hl, hs] <;>
            cases hl2 : lookupAdj st.adjacents curr <;> simp_all
    · unfold lineStringInteractionStep
      simp only [if_neg hpn]
      cases hl : lookupAdj st.adjacents curr with
      | none => simp only [hl]
      | some stored =>
          by_cases hs : stored ≠ canonicalAdjacent prev next <;>
            simp [hl, hs] <;>
            cases hl2 : lookupAdj st.adjacents curr <;> simp_all
  · intro E1 E2 prev xy next st hst hfree hpn
    rw [List.foldl_append, List.foldl_cons]
    have hA : lookupAdj ((E1.foldl eventStep st).adjacents) xy = none :=
      adjacents_none_fold E1 st xy hst hfree
    have hB := adjacents_record_step (E1.foldl eventStep st) prev xy next hpn hA
    exact adjacents_persist_fold E2 _ xy _ hB

/-- Witness for C6 at concrete inputs: a state whose `adjacents` already
stores a pair for the vertex `(1,1)` that differs from the new window's
canonical pair, so the step inserts an interaction; and a scan in which the
first recording occurrence of `(1,1)` fixes the stored pair. -/
theorem interiorVertexAdjacencyRuleWitness :
    ((lineStringInteractionStep
        ⟨[(⟨1,1⟩, ⟨⟨0,0⟩, ⟨2,2⟩⟩)], []⟩ ⟨0,1⟩ ⟨1,1⟩ ⟨2,1⟩).interactions =
      match lookupAdj [(⟨1,1⟩, ⟨⟨0,0⟩, ⟨2,2⟩⟩)] ⟨1,1⟩ with
      | some stored =>
          if stored ≠ canonicalAdjacent ⟨0,1⟩ ⟨2,1⟩ then
            xySetInsert [] ⟨1,1⟩
          else []
      | none => []) ∧
    lookupAdj
        ((([scanEvent.insertEv ⟨5,5⟩] ++
            scanEvent.windowEv ⟨0,0⟩ ⟨1,1⟩ ⟨2,2⟩ ::
              [scanEvent.windowEv ⟨9,9⟩ ⟨1,1⟩ ⟨8,8⟩]).foldl
          eventStep ⟨[], []⟩).adjacents) ⟨1,1⟩ =
      some (canonicalAdjacent ⟨0,0⟩ ⟨2,2⟩) :=
  ⟨(interiorVertexAdjacencyRule.1 ⟨[(⟨1,1⟩, ⟨⟨0,0⟩, ⟨2,2⟩⟩)], []⟩
      ⟨0,1⟩ ⟨1,1⟩ ⟨2,1⟩ (by decide)).1,
    interiorVertexAdjacencyRule.2 [scanEvent.insertEv ⟨5,5⟩]
      [scanEvent.windowEv ⟨9,9⟩ ⟨1,1⟩ ⟨8,8⟩] ⟨0,0⟩ ⟨1,1⟩ ⟨2,2⟩ ⟨[], []⟩
      (by decide) (by decide) (by decide)⟩

/-! ## C3: the DCEL twin invariant -/

/-- The arena lists the half-edges in creation order: they form consecutive
twin pairs. `twinPairsFrom n hs` says the records of `hs` occupy arena
indices `n, n+1, ...` and pair up: each even-offset record's twin is its
successor, whose twin points back and whose `seq` is the reverse. -/
inductive twinPairsFrom : Nat → List halfEdgeRecord → Prop
  | nil (n : Nat) : twinPairsFrom n []
  | cons (n : Nat) (e1 e2 : halfEdgeRecord) (rest : List halfEdgeRecord)
      (h1 : e1.twin = n + 1) (h2 : e2.twin = n)
      (hseq : e2.seq = reverseSequence e1.seq)
      (hrest : twinPairsFrom (n + 2) rest) : twinPairsFrom n (e1 :: e2 :: rest)

/-- The arena invariant maintained by every Builder operation. -/
def pairsOK (hs : List halfEdgeRecord) : Prop := twinPairsFrom 0 hs

theorem twinPairsFrom_append {n : Nat} {hs : List halfEdgeRecord}
    (h : twinPairsFrom n hs) :
    ∀ {more : List halfEdgeRecord}, twinPairsFrom (n + hs.length) more →
      twinPairsFrom n (hs ++ more) := by
  induction h with
  | nil n => intro more hm; simpa using hm
  | cons n e1 e2 rest h1 h2 hseq hrest ih =>
      intro more hm
      refine twinPairsFrom.cons n e1 e2 (rest ++ more) h1 h2 hseq (ih ?_)
      have : n + 2 + rest.length = n + (e1 :: e2 :: rest).length := by
        simp; omega
      rw [this]
      exact hm

/-- Two arenas agree on twins and coordinate runs, record by record. -/
inductive twinSeqAgree : List halfEdgeRecord → List halfEdgeRecord → Prop
  | nil : twinSeqAgree [] []
  | cons (a b : halfEdgeRecord) (t1 t2 : List halfEdgeRecord)
      (htwin : b.twin = a.twin) (hseq : b.seq = a.seq)
      (ht : twinSeqAgree t1 t2) : twinSeqAgree (a :: t1) (b :: t2)

theorem twinSeqAgree_refl (hs : List halfEdgeRecord) : twinSeqAgree hs hs := by
  induction hs with
  | nil => exact .nil
  | cons a t ih => exact .cons a a t t rfl rfl ih

theorem twinSeqAgree_trans {a b c : List halfEdgeRecord}
    (h1 : twinSeqAgree a b) : twinSeqAgree b c → twinSeqAgree a c := by
  induction h1 generalizing c with
  | nil => intro h2; exact h2
  | cons x y t1 t2 htwin hseq ht ih =>
      intro h2
      cases h2 with
      | cons _ z _ t3 htwin2 hseq2 ht2 =>
          exact .cons x z t1 t3 (htwin2.trans htwin) (hseq2.trans hseq) (ih ht2)

theorem twinPairsFrom_of_agree {n : Nat} {hs : List halfEdgeRecord}
    (h : twinPairsFrom n hs) :
    ∀ {hs2 : List halfEdgeRecord}, twinSeqAgree hs hs2 → twinPairsFrom n hs2 := by
  induction h with
  | nil n =>
      intro hs2 ha
      cases ha
      exact .nil n
  | cons n e1 e2 rest h1 h2 hseq hrest ih =>
      intro hs2 ha
      cases ha with
      | cons _ b _ t2 htwin hseqb ht =>
          cases ht with
          | cons _ c _ t3 htwin2 hseqc ht2 =>
              refine twinPairsFrom.cons n b c t3 (htwin.trans h1)
                (htwin2.trans h2) ?_ (ih ht2)
              rw [hseqc, hseqb, hseq]

theorem twinSeqAgree_modifyEdge (hs : List halfEdgeRecord) (i : Nat)
    (f : halfEdgeRecord → halfEdgeRecord)
    (hf : ∀ e, (f e).twin = e.twin ∧ (f e).seq = e.seq) :
    twinSeqAgree hs (modifyEdge hs i f) := by
  induction hs generalizing i with
  | nil => exact .nil
  | cons a t ih =>
      cases i with
      | zero => exact .cons a (f a) t t (hf a).1 (hf a).2 (twinSeqAgree_refl t)
      | succ j => exact .cons a a t _ rfl rfl (ih j)

theorem twinSeqAgree_mapIdx (hs : List halfEdgeRecord)
    (f : Nat → halfEdgeRecord → halfEdgeRecord)
    (hf : ∀ i e, (f i e).twin = e.twin ∧ (f i e).seq = e.seq) :
    twinSeqAgree hs (hs.mapIdx f) := by
  induction hs generalizing f with
  | nil => exact .nil
  | cons a t ih =>
      rw [List.mapIdx_cons]
      exact .cons a (f 0 a) t _ (hf 0 a).1 (hf 0 a).2
        (ih _ (fun i e => hf (i + 1) e))

theorem pairsOK_append_pair (hs : List halfEdgeRecord)
    (h : pairsOK hs) (e1 e2 : halfEdgeRecord)
    (h1 : e1.twin = hs.length + 1) (h2 : e2.twin = hs.length)
    (hseq : e2.seq = reverseSequence e1.seq) : pairsOK (hs ++ [e1, e2]) := by
  refine twinPairsFrom_append h ?_
  rw [Nat.zero_add]
  exact twinPairsFrom.cons hs.length e1 e2 [] h1 h2 hseq
    (.nil (hs.length + 2))

theorem halfEdges_addMultiPoint (pts : List (Option XY)) :
    ∀ (d : doublyConnectedEdgeList) (op : operand),
      (addMultiPoint d pts op).halfEdges = d.halfEdges := by
  induction pts with
  | nil => intro d op; rfl
  | cons pt t ih =>
      intro d op
      show (addMultiPoint (addMultiPointStep op d pt) t op).halfEdges = _
      rw [ih]
      cases pt with
      | none => rfl
      | some xy =>
          unfold addMultiPointStep
          cases hl : lookupVertex d.vertices xy <;> simp [hl]

theorem halfEdges_addRingVertices (ring : Sequence) :
    ∀ (d : doublyConnectedEdgeList) (op : operand) (ia : List XY),
      (addRingVertices d op ia ring).halfEdges = d.halfEdges := by
  induction ring with
  | nil => intro d op ia; rfl
  | cons xy t ih =>
      intro d op ia
      have hfold : addRingVertices d op ia (xy :: t) =
          addRingVertices
            (if xySetMember ia xy then
              match lookupVertex d.vertices xy with
              | none => { d with vertices := insertVertex d.vertices xy (newArealVertex xy op) }
              | some _ => d
            else d) op ia t := rfl
      rw [hfold, ih]
      by_cases hmem : xySetMember ia xy = true
      · simp only [hmem, if_true]
        cases hl : lookupVertex d.vertices xy <;> simp [hl]
      · simp only [Bool.not_eq_true] at hmem
        simp [hmem]

theorem halfEdges_lineStringVertexStep (d : doublyConnectedEdgeList)
    (op : operand) (onBoundary : Bool) (xy : XY) :
    (lineStringVertexStep d op onBoundary xy).halfEdges = d.halfEdges := by
  unfold lineStringVertexStep
  cases lookupVertex d.vertices xy <;> rfl

theorem halfEdges_lineStringVertexLoop (l : List XY) :
    ∀ (op : operand) (ia : List XY) (closed isFirst : Bool)
      (d : doublyConnectedEdgeList),
      (lineStringVertexLoop op ia closed isFirst l d).halfEdges = d.halfEdges := by
  induction l with
  | nil => intro op ia closed isFirst d; rfl
  | cons xy t ih =>
      intro op ia closed isFirst d
      show (lineStringVertexLoop op ia closed false t _).halfEdges = _
      rw [ih]
      by_cases hmem : xySetMember ia xy = true
      · simp only [hmem, if_true, halfEdges_lineStringVertexStep]
      · simp only [Bool.not_eq_true] at hmem
        simp [hmem]

theorem pairsOK_lineStringSegmentStep (op : operand)
    (acc : doublyConnectedEdgeList × edgeSet) (segment : Sequence)
    (h : pairsOK acc.1.halfEdges) :
    pairsOK (lineStringSegmentStep op acc segment).1.halfEdges := by
  unfold lineStringSegmentStep
  by_cases hc : edgeSetContains acc.2 segment = true
  · simpa [hc] using h
  · simp only [Bool.not_eq_true] at hc
    simp only [hc]
    exact pairsOK_append_pair _ h _ _ rfl rfl rfl

theorem pairsOK_fixVertex (d : doublyConnectedEdgeList) (xy : XY)
    (h : pairsOK d.halfEdges) : pairsOK (fixVertex d xy).halfEdges := by
  unfold fixVertex
  cases lookupVertex d.vertices xy with
  | none => exact h
  | some v =>
      simp only
      generalize d.halfEdges = hs0 at *
      set outs := v.incidents
      set k := outs.length
      suffices hgen : ∀ (js : List Nat) (hs : List halfEdgeRecord),
          pairsOK hs →
          pairsOK (js.foldl
            (fun hs j =>
              let oj := outs.getD j 0
              let following := outs.getD ((j + 1) % k) 0
              let incoming := (hs.getD oj default).twin
              let hs := modifyEdge hs incoming (fun e => { e with next := following })
              modifyEdge hs following (fun e => { e with prev := incoming }))
            hs) by
        exact hgen (List.range k) hs0 h
      intro js
      induction js with
      | nil => intro hs hh; exact hh
      | cons j t ih =>
          intro hs hh
          rw [List.foldl_cons]
          refine ih _ ?_
          refine twinPairsFrom_of_agree hh ?_
          dsimp only
          refine twinSeqAgree_trans ?_
            (twinSeqAgree_modifyEdge _ _ _ (fun e => ⟨rfl, rfl⟩))
          exact twinSeqAgree_modifyEdge hs _ _ (fun e => ⟨rfl, rfl⟩)

theorem pairsOK_addGhostLine (d : doublyConnectedEdgeList)
    (segment reverseSegment : Sequence) (h : pairsOK d.halfEdges)
    (hrev : reverseSegment = reverseSequence segment) :
    pairsOK (addGhostLine d segment reverseSegment).halfEdges := by
  unfold addGhostLine
  refine pairsOK_fixVertex _ _ (pairsOK_fixVertex _ _ ?_)
  exact pairsOK_append_pair _ h _ _ rfl rfl hrev

theorem pairsOK_ghostSegmentStep (acc : doublyConnectedEdgeList × edgeSet)
    (segment : Sequence) (h : pairsOK acc.1.halfEdges) :
    pairsOK (ghostSegmentStep acc segment).1.halfEdges := by
  obtain ⟨d, edges⟩ := acc
  unfold ghostSegmentStep
  simp only
  have hpres : ∀ (d0 : doublyConnectedEdgeList) (xy : XY),
      pairsOK d0.halfEdges → pairsOK (ensureVertex d0 xy).halfEdges := by
    intro d0 xy h0
    unfold ensureVertex
    cases hl : lookupVertex d0.vertices xy <;> simpa [hl] using h0
  have h1 := hpres d (segment.headD default) h
  have h2 := hpres _ ((reverseSequence segment).headD default) h1
  by_cases hc : edgeSetContains edges segment = true
  · simpa [hc] using h2
  · simp only [Bool.not_eq_true] at hc
    simp only [hc]
    exact pairsOK_addGhostLine _ _ _ h2 rfl

theorem ringEdgeFold_pairs (op : operand) (base : Nat) (segs : List Sequence) :
    ∀ acc : List halfEdgeRecord × List (XY × vertexRecord),
      twinPairsFrom base acc.1 →
      twinPairsFrom base ((segs.foldl (ringEdgeStep op base) acc)).1 := by
  induction segs with
  | nil => intro acc h; exact h
  | cons seg t ih =>
      intro acc h
      rw [List.foldl_cons]
      refine ih _ ?_
      obtain ⟨ne, vs⟩ := acc
      unfold ringEdgeStep ringSegmentEdges
      dsimp only
      refine twinPairsFrom_append h ?_
      exact twinPairsFrom.cons (base + ne.length) _ _ [] rfl rfl rfl (.nil _)

theorem linkRingEdges_agree (base numEdges : Nat)
    (edges : List halfEdgeRecord) :
    twinSeqAgree edges (linkRingEdges base numEdges edges) := by
  unfold linkRingEdges
  refine twinSeqAgree_mapIdx edges _ ?_
  intro i e
  by_cases hi : i % 2 = 0 <;> simp [hi]

theorem pairsOK_addRingEdges (d : doublyConnectedEdgeList) (op : operand)
    (ia : List XY) (ring : Sequence) (h : pairsOK d.halfEdges) :
    pairsOK (addRingEdges d op ia ring).halfEdges := by
  unfold addRingEdges
  cases hfe : (builderSegments ring ia).foldl
      (ringEdgeStep op d.halfEdges.length) ([], d.vertices) with
  | mk ne vs =>
      have hne : twinPairsFrom d.halfEdges.length ne := by
        have hh := ringEdgeFold_pairs op d.halfEdges.length
          (builderSegments ring ia) ([], d.vertices) (.nil _)
        rw [hfe] at hh
        exact hh
      dsimp only
      rw [hfe]
      dsimp only
      refine twinPairsFrom_append h ?_
      rw [Nat.zero_add]
      exact twinPairsFrom_of_agree hne (linkRingEdges_agree _ _ ne)

theorem pairsOK_segmentFold (op : operand) (segs : List Sequence) :
    ∀ acc : doublyConnectedEdgeList × edgeSet, pairsOK acc.1.halfEdges →
      pairsOK ((segs.foldl (lineStringSegmentStep op) acc)).1.halfEdges := by
  induction segs with
  | nil => intro acc h; exact h
  | cons seg t ih =>
      intro acc h
      rw [List.foldl_cons]
      exact ih _ (pairsOK_lineStringSegmentStep op acc seg h)

theorem pairsOK_addMultiLineString (d : doublyConnectedEdgeList)
    (lss : List Sequence) (op : operand) (ia : List XY)
    (h : pairsOK d.halfEdges) :
    pairsOK (addMultiLineString d lss op ia).halfEdges := by
  unfold addMultiLineString
  dsimp only
  have hvert : ∀ (lss2 : List Sequence) (d2 : doublyConnectedEdgeList),
      (lss2.foldl
        (fun d ls =>
          match ls with
          | [] => d
          | xy :: rest =>
              lineStringVertexLoop op ia (lineStringIsClosed ls) true
                (xy :: rest) d) d2).halfEdges = d2.halfEdges := by
    intro lss2
    induction lss2 with
    | nil => intro d2; rfl
    | cons ls t ih =>
        intro d2
        rw [List.foldl_cons, ih]
        cases ls with
        | nil => rfl
        | cons xy rest => exact halfEdges_lineStringVertexLoop _ _ _ _ _ _
  have hedge : ∀ (lss2 : List Sequence)
      (acc : doublyConnectedEdgeList × edgeSet), pairsOK acc.1.halfEdges →
      pairsOK ((lss2.foldl
        (fun acc ls =>
          (builderSegments ls ia).foldl (lineStringSegmentStep op) acc)
        acc)).1.halfEdges := by
    intro lss2
    induction lss2 with
    | nil => intro acc hh; exact hh
    | cons ls t ih =>
        intro acc hh
        rw [List.foldl_cons]
        exact ih _ (pairsOK_segmentFold op _ acc hh)
  refine hedge lss _ ?_
  show pairsOK (_ : doublyConnectedEdgeList).halfEdges
  rw [hvert lss d]
  exact h

theorem pairsOK_addMultiPolygon (d : doublyConnectedEdgeList)
    (polys : List (List Sequence)) (op : operand) (ia : List XY)
    (h : pairsOK d.halfEdges) :
    pairsOK (addMultiPolygon d polys op ia).halfEdges := by
  unfold addMultiPolygon
  generalize forceCCW polys = ps
  unfold addMultiPolygonRings
  induction ps generalizing d with
  | nil => exact h
  | cons rings t ih =>
      rw [List.foldl_cons]
      refine ih _ ?_
      have hvert : ∀ (rs : List Sequence) (d2 : doublyConnectedEdgeList),
          (rs.foldl (fun d ring => addRingVertices d op ia ring) d2).halfEdges
            = d2.halfEdges := by
        intro rs
        induction rs with
        | nil => intro d2; rfl
        | cons r rt ihr =>
            intro d2
            rw [List.foldl_cons, ihr, halfEdges_addRingVertices]
      have hedge : ∀ (rs : List Sequence) (d2 : doublyConnectedEdgeList),
          pairsOK d2.halfEdges →
          pairsOK ((rs.foldl (fun d ring => addRingEdges d op ia ring) d2)).halfEdges := by
        intro rs
        induction rs with
        | nil => intro d2 hh; exact hh
        | cons r rt ihr =>
            intro d2 hh
            rw [List.foldl_cons]
            exact ihr _ (pairsOK_addRingEdges d2 op ia r hh)
      refine hedge _ _ ?_
      show pairsOK (_ : doublyConnectedEdgeList).halfEdges
      rw [hvert _ d]
      exact h

theorem pairsOK_addGhosts (d : doublyConnectedEdgeList) (mls : List Sequence)
    (op : operand) (ia : List XY) (h : pairsOK d.halfEdges) :
    pairsOK (addGhosts d mls op ia).halfEdges := by
  unfold addGhosts
  dsimp only
  have hseg : ∀ (segs : List Sequence) (acc : doublyConnectedEdgeList × edgeSet),
      pairsOK acc.1.halfEdges →
      pairsOK ((segs.foldl ghostSegmentStep acc)).1.halfEdges := by
    intro segs
    induction segs with
    | nil => intro acc hh; exact hh
    | cons seg t ih =>
        intro acc hh
        rw [List.foldl_cons]
        exact ih _ (pairsOK_ghostSegmentStep acc seg hh)
  have hfold : ∀ (lss : List Sequence) (acc : doublyConnectedEdgeList × edgeSet),
      pairsOK acc.1.halfEdges →
      pairsOK ((lss.foldl
        (fun acc ls => (builderSegments ls ia).foldl ghostSegmentStep acc)
        acc)).1.halfEdges := by
    intro lss
    induction lss with
    | nil => intro acc hh; exact hh
    | cons ls t ih =>
        intro acc hh
        rw [List.foldl_cons]
        exact ih _ (hseg _ acc hh)
  exact hfold mls _ h

mutual

theorem pairsOK_addGeometry (g : Geometry) :
    ∀ (d : doublyConnectedEdgeList) (op : operand) (ia : List XY),
      pairsOK d.halfEdges → pairsOK (addGeometry d g op ia).halfEdges :=
  match g with
  | .polygon rings => fun d op ia h => pairsOK_addMultiPolygon d [rings] op ia h
  | .multiPolygon polys => fun d op ia h => pairsOK_addMultiPolygon d polys op ia h
  | .lineString seq => fun d op ia h => pairsOK_addMultiLineString d [seq] op ia h
  | .multiLineString lss => fun d op ia h => pairsOK_addMultiLineString d lss op ia h
  | .point xy => fun d op ia h => by
      show pairsOK (addMultiPoint d [xy] op).halfEdges
      rw [halfEdges_addMultiPoint]
      exact h
  | .multiPoint pts => fun d op ia h => by
      show pairsOK (addMultiPoint d pts op).halfEdges
      rw [halfEdges_addMultiPoint]
      exact h
  | .geometryCollection gs => fun d op ia h =>
      pairsOK_addGeometryCollection gs d op ia h

theorem pairsOK_addGeometryCollection (gs : List Geometry) :
    ∀ (d : doublyConnectedEdgeList) (op : operand) (ia : List XY),
      pairsOK d.halfEdges →
      pairsOK (addGeometryCollection d gs op ia).halfEdges :=
  match gs with
  | [] => fun _ _ _ h => h
  | g :: rest => fun d op ia h =>
      pairsOK_addGeometryCollection rest (addGeometry d g op ia) op ia
        (pairsOK_addGeometry g d op ia h)

end

theorem pairsOK_runBuilder (ia : List XY) (ops : List builderOp) :
    pairsOK (runBuilder ia ops).halfEdges := by
  unfold runBuilder
  have hgen : ∀ (ops2 : List builderOp) (d : doublyConnectedEdgeList),
      pairsOK d.halfEdges →
      pairsOK ((ops2.foldl
        (fun d bop =>
          match bop with
          | .geom g op => addGeometry d g op ia
          | .ghosts mls op => addGhosts d mls op ia) d)).halfEdges := by
    intro ops2
    induction ops2 with
    | nil => intro d h; exact h
    | cons bop t ih =>
        intro d h
        rw [List.foldl_cons]
        refine ih _ ?_
        cases bop with
        | geom g op => exact pairsOK_addGeometry g d op ia h
        | ghosts mls op => exact pairsOK_addGhosts d mls op ia h
  exact hgen ops emptyDCEL (.nil 0)

theorem twinPairsFrom_getD {n : Nat} {hs : List halfEdgeRecord}
    (h : twinPairsFrom n hs) :
    ∀ i, i < hs.length →
      (i % 2 = 0 → (hs.getD i default).twin = n + i + 1 ∧ i + 1 < hs.length) ∧
      (i % 2 = 1 → (hs.getD i default).twin = n + i - 1 ∧
        (hs.getD i default).seq =
          reverseSequence ((hs.getD (i - 1) default).seq)) := by
  induction h with
  | nil n => intro i hi; simp at hi
  | cons n e1 e2 rest h1 h2 hseq hrest ih =>
      intro i hi
      match i with
      | 0 =>
          refine ⟨fun _ => ⟨by simpa using h1, by simp⟩, fun hodd => by simp at hodd⟩
      | 1 =>
          refine ⟨fun heven => by simp at heven, fun _ => ⟨by simpa using h2, ?_⟩⟩
          simpa using hseq
      | (j + 2) =>
          have hj : j < rest.length := by
            simp at hi
            omega
          have := ih j hj
          constructor
          · intro heven
            have heqj : j % 2 = 0 := by omega
            obtain ⟨ht, hlt⟩ := this.1 heqj
            refine ⟨?_, ?_⟩
            · rw [List.getD_cons_succ, List.getD_cons_succ, ht]
              omega
            · simp
              omega
          · intro hodd
            have heqj : j % 2 = 1 := by omega
            obtain ⟨ht, hsq⟩ := this.2 heqj
            have hjge : 1 ≤ j := by omega
            refine ⟨?_, ?_⟩
            · rw [List.getD_cons_succ, List.getD_cons_succ, ht]
              omega
            · rw [List.getD_cons_succ, List.getD_cons_succ, hsq]
              congr 1
              have hidx : j + 2 - 1 = (j - 1) + 2 := by omega
              rw [hidx, List.getD_cons_succ, List.getD_cons_succ]

/-- C3: in every DCEL produced by any sequence of Builder additions, every
half-edge at arena index `i` has a valid twin index; the twin's twin is `i`
again (`e.twin.twin == e`); and the twin's coordinate run is the reverse of
the edge's (`e.twin.seq == reverse(e.seq)`). -/
theorem dcelTwinInvariant (ia : List XY) (ops : List builderOp) (i : Nat)
    (hi : i < (runBuilder ia ops).halfEdges.length) :
    ((runBuilder ia ops).halfEdges.getD i default).twin <
        (runBuilder ia ops).halfEdges.length ∧
    ((runBuilder ia ops).halfEdges.getD
        (((runBuilder ia ops).halfEdges.getD i default).twin) default).twin
      = i ∧
    ((runBuilder ia ops).halfEdges.getD
        (((runBuilder ia ops).halfEdges.getD i default).twin) default).seq
      = reverseSequence (((runBuilder ia ops).halfEdges.getD i default).seq) := by
  have hp := pairsOK_runBuilder ia ops
  have hspec := twinPairsFrom_getD hp
  set hs := (runBuilder ia ops).halfEdges with hhs
  rcases Nat.even_or_odd i with he | ho
  · have heven : i % 2 = 0 := Nat.even_iff.mp he
    obtain ⟨ht, hlt⟩ := (hspec i hi).1 heven
    rw [Nat.zero_add] at ht
    have hodd1 : (i + 1) % 2 = 1 := by omega
    obtain ⟨ht2, hsq2⟩ := (hspec (i + 1) hlt).2 hodd1
    rw [Nat.zero_add] at ht2
    refine ⟨by rw [ht]; exact hlt, ?_, ?_⟩
    · rw [ht, ht2]
      omega
    · rw [ht]
      rw [hsq2]
      simp
  · have hoddi : i % 2 = 1 := Nat.odd_iff.mp ho
    obtain ⟨ht, hsq⟩ := (hspec i hi).2 hoddi
    rw [Nat.zero_add] at ht
    have hge : 1 ≤ i := by omega
    have hlt2 : i - 1 < hs.length := by omega
    have heven2 : (i - 1) % 2 = 0 := by omega
    obtain ⟨ht2, hlt3⟩ := (hspec (i - 1) hlt2).1 heven2
    rw [Nat.zero_add] at ht2
    refine ⟨by rw [ht]; omega, ?_, ?_⟩
    · rw [ht, ht2]
      omega
    · rw [ht, hsq]
      unfold reverseSequence
      simp

/-- Witness for C3 at a concrete input: the triangle polygon build, arena
index 0. -/
theorem dcelTwinInvariantWitness :
    0 < (runBuilder [⟨0,0⟩, ⟨1,0⟩, ⟨0,1⟩]
        [.geom (.polygon [[⟨0,0⟩, ⟨1,0⟩, ⟨0,1⟩, ⟨0,0⟩]]) 0]).halfEdges.length ∧
    (((runBuilder [⟨0,0⟩, ⟨1,0⟩, ⟨0,1⟩]
        [.geom (.polygon [[⟨0,0⟩, ⟨1,0⟩, ⟨0,1⟩, ⟨0,0⟩]]) 0]).halfEdges.getD 0
        default).twin <
      (runBuilder [⟨0,0⟩, ⟨1,0⟩, ⟨0,1⟩]
        [.geom (.polygon [[⟨0,0⟩, ⟨1,0⟩, ⟨0,1⟩, ⟨0,0⟩]]) 0]).halfEdges.length ∧
    ((runBuilder [⟨0,0⟩, ⟨1,0⟩, ⟨0,1⟩]
        [.geom (.polygon [[⟨0,0⟩, ⟨1,0⟩, ⟨0,1⟩, ⟨0,0⟩]]) 0]).halfEdges.getD
        (((runBuilder [⟨0,0⟩, ⟨1,0⟩, ⟨0,1⟩]
          [.geom (.polygon [[⟨0,0⟩, ⟨1,0⟩, ⟨0,1⟩, ⟨0,0⟩]]) 0]).halfEdges.getD 0
          default).twin) default).twin = 0 ∧
    ((runBuilder [⟨0,0⟩, ⟨1,0⟩, ⟨0,1⟩]
        [.geom (.polygon [[⟨0,0⟩, ⟨1,0⟩, ⟨0,1⟩, ⟨0,0⟩]]) 0]).halfEdges.getD
        (((runBuilder [⟨0,0⟩, ⟨1,0⟩, ⟨0,1⟩]
          [.geom (.polygon [[⟨0,0⟩, ⟨1,0⟩, ⟨0,1⟩, ⟨0,0⟩]]) 0]).halfEdges.getD 0
          default).twin) default).seq =
      reverseSequence (((runBuilder [⟨0,0⟩, ⟨1,0⟩, ⟨0,1⟩]
        [.geom (.polygon [[⟨0,0⟩, ⟨1,0⟩, ⟨0,1⟩, ⟨0,0⟩]]) 0]).halfEdges.getD 0
        default).seq)) :=
  ⟨by decide,
    dcelTwinInvariant [⟨0,0⟩, ⟨1,0⟩, ⟨0,1⟩]
      [.geom (.polygon [[⟨0,0⟩, ⟨1,0⟩, ⟨0,1⟩, ⟨0,0⟩]]) 0] 0 (by decide)⟩

/-! ## C5: the mod-2 boundary rule -/

theorem locationPair_get_set (lp : locationPair) (op : operand) (v : location) :
    (lp.set op v).get op = v := by
  unfold locationPair.set locationPair.get
  by_cases h : op.val = 0 <;> simp [h]

theorem lookupVertex_append_single (vs : List (XY × vertexRecord)) (k p : XY)
    (v : vertexRecord) :
    lookupVertex (vs ++ [(k, v)]) p =
      match lookupVertex vs p with
      | some w => some w
      | none => if k = p then some v else none := by
  induction vs with
  | nil => simp [lookupVertex]
  | cons kv t ih =>
      unfold lookupVertex
      by_cases hk : kv.1 = p <;> simp [hk, ih]

theorem lookupVertex_updateVertex (vs : List (XY × vertexRecord)) (k p : XY)
    (f : vertexRecord → vertexRecord) :
    lookupVertex (updateVertex vs k f) p =
      if k = p then (lookupVertex vs p).map f else lookupVertex vs p := by
  induction vs with
  | nil => simp [lookupVertex, updateVertex]
  | cons kv t ih =>
      obtain ⟨k0, v0⟩ := kv
      show lookupVertex
        ((if k0 = k then (k0, f v0) else (k0, v0)) :: updateVertex t k f) p = _
      by_cases hk : k0 = k
      · rw [if_pos hk]
        by_cases hp : k0 = p
        · have hkp : k = p := by rw [← hk]; exact hp
          simp [lookupVertex, hk, hp, hkp]
        · have hkp : ¬ k = p := by rw [← hk]; exact hp
          simp [lookupVertex, hk, hp, hkp, ih]
      · rw [if_neg hk]
        by_cases hp : k0 = p
        · have hkp : ¬ k = p := fun h => hk (by rw [h]; exact hp)
          simp [lookupVertex, hk, hp, hkp]
        · simp [lookupVertex, hk, hp, ih]

/-- The per-operand boundary flag at a coordinate, read as `false` when the
vertex does not exist yet. -/
def vertexBoundaryFlag (d : doublyConnectedEdgeList) (op : operand) (p : XY) :
    Bool :=
  ((lookupVertex d.vertices p).map
    (fun v => (v.locations.get op).boundary)).getD false

theorem lsVertexStep_lookup_ne (d : doublyConnectedEdgeList) (op : operand)
    (ob : Bool) (xy p : XY) (hne : xy ≠ p) :
    lookupVertex (lineStringVertexStep d op ob xy).vertices p =
      lookupVertex d.vertices p := by
  unfold lineStringVertexStep
  cases hl : lookupVertex d.vertices xy with
  | none =>
      simp only
      show lookupVertex (insertVertex d.vertices xy _) p = _
      unfold insertVertex
      rw [lookupVertex_append_single]
      cases lookupVertex d.vertices p <;> simp [hne]
  | some v =>
      simp only
      rw [lookupVertex_updateVertex]
      simp [hne]

theorem lsVertexStep_boundary_endpoint (d : doublyConnectedEdgeList)
    (op : operand) (p : XY) :
    vertexBoundaryFlag (lineStringVertexStep d op true p) op p =
      !(vertexBoundaryFlag d op p) := by
  unfold vertexBoundaryFlag lineStringVertexStep
  cases hl : lookupVertex d.vertices p with
  | none =>
      simp only
      show (((lookupVertex (insertVertex d.vertices p _) p).map _).getD false) = _
      unfold insertVertex
      rw [lookupVertex_append_single, hl]
      simp [locationPair_get_set]
  | some v =>
      simp only
      rw [lookupVertex_updateVertex]
      simp only [if_pos rfl, hl, Option.map_map, Option.map_some]
      by_cases hb : (v.locations.get op).boundary <;>
        simp [hb, locationPair_get_set]

theorem lsVertexStep_boundary_interior (d : doublyConnectedEdgeList)
    (op : operand) (p : XY) :
    vertexBoundaryFlag (lineStringVertexStep d op false p) op p =
      vertexBoundaryFlag d op p ∧
    (lookupVertex (lineStringVertexStep d op false p).vertices p).isSome = true := by
  unfold vertexBoundaryFlag lineStringVertexStep
  cases hl : lookupVertex d.vertices p with
  | none =>
      simp only
      constructor
      · show (((lookupVertex (insertVertex d.vertices p _) p).map _).getD false) = _
        unfold insertVertex
        rw [lookupVertex_append_single, hl]
        simp [locationPair_get_set]
      · show (lookupVertex (insertVertex d.vertices p _) p).isSome = true
        unfold insertVertex
        rw [lookupVertex_append_single, hl]
        simp
  | some v =>
      simp only
      rw [lookupVertex_updateVertex]
      simp only [if_pos rfl, hl, Option.map_map, Option.map_some]
      simp [locationPair_get_set]

theorem lsVertexStep_isSome_endpoint (d : doublyConnectedEdgeList)
    (op : operand) (p : XY) :
    (lookupVertex (lineStringVertexStep d op true p).vertices p).isSome = true := by
  unfold lineStringVertexStep
  cases hl : lookupVertex d.vertices p with
  | none =>
      simp only
      show (lookupVertex (insertVertex d.vertices p _) p).isSome = true
      unfold insertVertex
      rw [lookupVertex_append_single, hl]
      simp
  | some v =>
      simp only
      rw [lookupVertex_updateVertex]
      simp [hl]


theorem lsVertexLoop_tail (op : operand) (ia : List XY) (p : XY)
    (hmem : xySetMember ia p = true) :
    ∀ (l : List XY) (d : doublyConnectedEdgeList), l ≠ [] →
      (vertexBoundaryFlag (lineStringVertexLoop op ia false false l d) op p =
        if l.getLast? = some p then !(vertexBoundaryFlag d op p)
        else vertexBoundaryFlag d op p) ∧
      ((lookupVertex
          (lineStringVertexLoop op ia false false l d).vertices p).isSome =
        (decide (p ∈ l) || (lookupVertex d.vertices p).isSome)) := by
  intro l
  induction l with
  | nil => intro d h; exact absurd rfl h
  | cons x rest ih =>
      intro d _
      cases rest with
      | nil =>
          have hstep : lineStringVertexLoop op ia false false [x] d =
              (if xySetMember ia x = true then
                lineStringVertexStep d op true x else d) := rfl
          rw [hstep]
          by_cases hx : x = p
          · subst hx
            rw [if_pos hmem]
            refine ⟨?_, ?_⟩
            · rw [lsVertexStep_boundary_endpoint d op x]
              simp
            · rw [lsVertexStep_isSome_endpoint d op x]
              simp
          · have hpx : ¬ p = x := fun h => hx h.symm
            have hflag : vertexBoundaryFlag
                (if xySetMember ia x = true then
                  lineStringVertexStep d op true x else d) op p =
                vertexBoundaryFlag d op p := by
              by_cases hm : xySetMember ia x = true
              · rw [if_pos hm]
                unfold vertexBoundaryFlag
                rw [lsVertexStep_lookup_ne _ _ _ _ _ hx]
              · rw [if_neg hm]
            have hlook : lookupVertex
                ((if xySetMember ia x = true then
                  lineStringVertexStep d op true x else d)).vertices p =
                lookupVertex d.vertices p := by
              by_cases hm : xySetMember ia x = true
              · rw [if_pos hm, lsVertexStep_lookup_ne _ _ _ _ _ hx]
              · rw [if_neg hm]
            refine ⟨?_, ?_⟩
            · rw [hflag]
              simp [hx]
            · rw [hlook]
              simp [hpx]
      | cons y t =>
          have hstep : lineStringVertexLoop op ia false false (x :: y :: t) d =
              lineStringVertexLoop op ia false false (y :: t)
                (if xySetMember ia x = true then
                  lineStringVertexStep d op false x else d) := rfl
          rw [hstep]
          have hne : (y :: t) ≠ [] := by simp
          have hl : ((x :: y :: t : List XY).getLast? =
              (y :: t : List XY).getLast?) := by simp
          by_cases hx : x = p
          · subst hx
            rw [if_pos hmem]
            have hint := lsVertexStep_boundary_interior d op x
            have hi := ih (lineStringVertexStep d op false x) hne
            refine ⟨?_, ?_⟩
            · rw [hi.1, hl, hint.1]
            · rw [hi.2, hint.2]
              simp
          · have hpx : ¬ p = x := fun h => hx h.symm
            have hmm : decide (p ∈ (x :: y :: t : List XY)) =
                decide (p ∈ (y :: t : List XY)) := by
              simp [List.mem_cons, hpx]
            have hflag : vertexBoundaryFlag
                (if xySetMember ia x = true then
                  lineStringVertexStep d op false x else d) op p =
                vertexBoundaryFlag d op p := by
              by_cases hm : xySetMember ia x = true
              · rw [if_pos hm]
                unfold vertexBoundaryFlag
                rw [lsVertexStep_lookup_ne _ _ _ _ _ hx]
              · rw [if_neg hm]
            have hlook : lookupVertex
                ((if xySetMember ia x = true then
                  lineStringVertexStep d op false x else d)).vertices p =
                lookupVertex d.vertices p := by
              by_cases hm : xySetMember ia x = true
              · rw [if_pos hm, lsVertexStep_lookup_ne _ _ _ _ _ hx]
              · rw [if_neg hm]
            have hi := ih (if xySetMember ia x = true then
              lineStringVertexStep d op false x else d) hne
            refine ⟨?_, ?_⟩
            · rw [hi.1, hl, hflag]
            · rw [hi.2, hlook, hmm]

theorem getLast?_mem_list {α : Type} (l : List α) (a : α)
    (h : l.getLast? = some a) : a ∈ l := by
  induction l with
  | nil => simp at h
  | cons x t ih =>
      cases t with
      | nil =>
          simp at h
          simp [h]
      | cons y t2 =>
          rw [List.getLast?_cons_cons] at h
          exact List.mem_cons.mpr (Or.inr (ih h))

theorem lsVertexString_toggle (op : operand) (ia : List XY) (p : XY)
    (hmem : xySetMember ia p = true) (x y : XY) (t : List XY)
    (hnc : lineStringIsClosed (x :: y :: t) = false)
    (hend : x = p ∨ (y :: t).getLast? = some p)
    (d : doublyConnectedEdgeList) :
    (vertexBoundaryFlag (lineStringVertexLoop op ia false true (x :: y :: t) d)
        op p = !(vertexBoundaryFlag d op p)) ∧
    (lookupVertex (lineStringVertexLoop op ia false true (x :: y :: t)
        d).vertices p).isSome = true := by
  have hstep : lineStringVertexLoop op ia false true (x :: y :: t) d =
      lineStringVertexLoop op ia false false (y :: t)
        (if xySetMember ia x = true then
          lineStringVertexStep d op true x else d) := rfl
  rw [hstep]
  have hne : (y :: t) ≠ [] := by simp
  obtain ⟨lv, hlv⟩ : ∃ lv, (y :: t : List XY).getLast? = some lv := by
    cases hg : (y :: t : List XY).getLast? with
    | none => rw [List.getLast?_eq_none_iff] at hg; simp at hg
    | some lv => exact ⟨lv, rfl⟩
  have hxlv : x ≠ lv := by
    unfold lineStringIsClosed at hnc
    rw [List.getLast?_cons_cons, hlv] at hnc
    simp at hnc
    exact hnc
  by_cases hx : x = p
  · subst hx
    rw [if_pos hmem]
    have hgl : ¬ ((y :: t : List XY).getLast? = some x) := by
      rw [hlv]
      simp
      exact fun h => hxlv h.symm
    have hi := lsVertexLoop_tail op ia x hmem (y :: t)
      (lineStringVertexStep d op true x) hne
    refine ⟨?_, ?_⟩
    · rw [hi.1, if_neg hgl, lsVertexStep_boundary_endpoint]
    · rw [hi.2, lsVertexStep_isSome_endpoint]
      simp
  · have hgl : (y :: t : List XY).getLast? = some p := by
      rcases hend with h | h
      · exact absurd h hx
      · exact h
    have hpx : ¬ p = x := fun h => hx h.symm
    have hd1flag : vertexBoundaryFlag
        (if xySetMember ia x = true then
          lineStringVertexStep d op true x else d) op p =
        vertexBoundaryFlag d op p := by
      by_cases hm : xySetMember ia x = true
      · rw [if_pos hm]
        unfold vertexBoundaryFlag
        rw [lsVertexStep_lookup_ne _ _ _ _ _ hx]
      · rw [if_neg hm]
    have hi := lsVertexLoop_tail op ia p hmem (y :: t)
      (if xySetMember ia x = true then
        lineStringVertexStep d op true x else d) hne
    refine ⟨?_, ?_⟩
    · rw [hi.1, if_pos hgl, hd1flag]
    · rw [hi.2]
      have : p ∈ (y :: t : List XY) := getLast?_mem_list _ _ hgl
      simp [this]

/-- The body of `addMultiLineString`'s vertex pass for one member string. -/
def lineStringVertexPassBody (op : operand) (interactions : List XY)
    (d : doublyConnectedEdgeList) (ls : Sequence) : doublyConnectedEdgeList :=
  match ls with
  | [] => d
  | xy :: rest =>
      lineStringVertexLoop op interactions (lineStringIsClosed ls) true
        (xy :: rest) d

theorem bool_xor_not_left (a b : Bool) : ((!a).xor b) = !(a.xor b) := by
  cases a <;> cases b <;> rfl

theorem vertexPass_mod2 (op : operand) (ia : List XY) (p : XY)
    (hmem : xySetMember ia p = true) :
    ∀ (lss : List Sequence) (d : doublyConnectedEdgeList),
      (∀ ls ∈ lss, lineStringIsClosed ls = false ∧
        (ls.head? = some p ∨ ls.getLast? = some p)) →
      (vertexBoundaryFlag
          (lss.foldl (lineStringVertexPassBody op ia) d) op p =
        (vertexBoundaryFlag d op p).xor (decide (lss.length % 2 = 1))) ∧
      (lss ≠ [] →
        (lookupVertex
          ((lss.foldl (lineStringVertexPassBody op ia) d)).vertices p).isSome
          = true) := by
  intro lss
  induction lss with
  | nil =>
      intro d _
      refine ⟨by simp, fun h => absurd rfl h⟩
  | cons ls rest ih =>
      intro d hstr
      obtain ⟨hnc, hend⟩ := hstr ls (by simp)
      obtain ⟨x, y, t, rfl⟩ : ∃ x y t, ls = x :: y :: t := by
        match ls with
        | [] =>
            unfold lineStringIsClosed at hnc
            simp at hnc
        | [x] =>
            unfold lineStringIsClosed at hnc
            simp at hnc
        | x :: y :: t => exact ⟨x, y, t, rfl⟩
      have hbody : lineStringVertexPassBody op ia d (x :: y :: t) =
          lineStringVertexLoop op ia false true (x :: y :: t) d := by
        unfold lineStringVertexPassBody
        rw [hnc]
      have hendx : x = p ∨ (y :: t : List XY).getLast? = some p := by
        rcases hend with h | h
        · left
          simpa using h
        · right
          rw [← List.getLast?_cons_cons]
          exact h
      have hstring := lsVertexString_toggle op ia p hmem x y t hnc hendx d
      have hrest := ih (lineStringVertexPassBody op ia d (x :: y :: t))
        (fun ls2 h2 => hstr ls2 (by simp [h2]))
      rw [List.foldl_cons] at *
      constructor
      · rw [hrest.1, hbody, hstring.1]
        rw [bool_xor_not_left]
        have hlen : ((x :: y :: t) :: rest).length = rest.length + 1 := by
          simp
        have hp2 : (decide (((x :: y :: t) :: rest).length % 2 = 1)) =
            !(decide (rest.length % 2 = 1)) := by
          rw [hlen]
          by_cases hr : rest.length % 2 = 1
          · have h1 : ¬((rest.length + 1) % 2 = 1) := by omega
            simp [hr, h1]
          · have h1 : (rest.length + 1) % 2 = 1 := by omega
            simp [hr, h1]
        rw [hp2]
        cases vertexBoundaryFlag d op p <;>
          cases (decide (rest.length % 2 = 1)) <;> rfl
      · intro _
        cases hrest2 : rest with
        | nil =>
            simp only [List.foldl_nil]
            rw [hbody]
            exact hstring.2
        | cons r rt =>
            rw [← hrest2]
            exact hrest.2 (by simp [hrest2])

theorem lookup_locations_appendIncident (vs : List (XY × vertexRecord))
    (xy : XY) (idx : Nat) (p : XY) :
    ((lookupVertex (appendIncident vs xy idx) p).map (fun v => v.locations)) =
      ((lookupVertex vs p).map (fun v => v.locations)) := by
  unfold appendIncident
  rw [lookupVertex_updateVertex]
  by_cases h : xy = p
  · rw [if_pos h]
    cases lookupVertex vs p <;> rfl
  · rw [if_neg h]

theorem lookup_locations_lineStringSegmentStep (op : operand)
    (acc : doublyConnectedEdgeList × edgeSet) (segment : Sequence) (p : XY) :
    ((lookupVertex (lineStringSegmentStep op acc segment).1.vertices p).map
      (fun v => v.locations)) =
      ((lookupVertex acc.1.vertices p).map (fun v => v.locations)) := by
  obtain ⟨d, edges⟩ := acc
  unfold lineStringSegmentStep
  by_cases hc : edgeSetContains edges segment = true
  · simp [hc]
  · simp only [Bool.not_eq_true] at hc
    simp only [hc, Bool.false_eq_true, if_false]
    rw [lookup_locations_appendIncident, lookup_locations_appendIncident]

theorem lookup_locations_edgePass (op : operand) (ia : List XY) (p : XY)
    (lss : List Sequence) :
    ∀ (acc : doublyConnectedEdgeList × edgeSet),
      ((lookupVertex ((lss.foldl
        (fun acc ls =>
          (builderSegments ls ia).foldl (lineStringSegmentStep op) acc)
        acc)).1.vertices p).map (fun v => v.locations)) =
      ((lookupVertex acc.1.vertices p).map (fun v => v.locations)) := by
  have hseg : ∀ (segs : List Sequence) (acc : doublyConnectedEdgeList × edgeSet),
      ((lookupVertex ((segs.foldl (lineStringSegmentStep op) acc)).1.vertices
        p).map (fun v => v.locations)) =
      ((lookupVertex acc.1.vertices p).map (fun v => v.locations)) := by
    intro segs
    induction segs with
    | nil => intro acc; rfl
    | cons s t ih =>
        intro acc
        rw [List.foldl_cons, ih, lookup_locations_lineStringSegmentStep]
  induction lss with
  | nil => intro acc; rfl
  | cons ls t ih =>
      intro acc
      rw [List.foldl_cons, ih, hseg]

/-- C5: adding a MultiLineString whose `k` member strings are all non-closed
and all have `p` (an interaction point) among their endpoints produces a DCEL
vertex at `p` whose `locations[op].boundary` is true exactly when `k` is odd
(the OGC mod-2 rule). -/
theorem mod2BoundaryRule (lss : List Sequence) (op : operand) (ia : List XY)
    (p : XY) (hmem : xySetMember ia p = true) (hk : lss ≠ [])
    (hstr : ∀ ls ∈ lss, lineStringIsClosed ls = false ∧
      (ls.head? = some p ∨ ls.getLast? = some p)) :
    (lookupVertex (addMultiLineString emptyDCEL lss op ia).vertices p).map
      (fun v => (v.locations.get op).boundary) =
      some (decide (lss.length % 2 = 1)) := by
  unfold addMultiLineString
  dsimp only
  have hpass := vertexPass_mod2 op ia p hmem lss emptyDCEL hstr
  set d1 := lss.foldl (lineStringVertexPassBody op ia) emptyDCEL with hd1
  have hd1eq : lss.foldl
      (fun d ls =>
        match ls with
        | [] => d
        | xy :: rest =>
            lineStringVertexLoop op ia (lineStringIsClosed ls) true
              (xy :: rest) d) emptyDCEL = d1 := by
    rw [hd1]
    rfl
  rw [hd1eq]
  have hloc := lookup_locations_edgePass op ia p lss (d1, ([] : edgeSet))
  have hflag : vertexBoundaryFlag d1 op p = decide (lss.length % 2 = 1) := by
    rw [hpass.1]
    show ((false).xor _) = _
    cases (decide (lss.length % 2 = 1)) <;> rfl
  have hsome : (lookupVertex d1.vertices p).isSome = true := hpass.2 hk
  obtain ⟨v, hv⟩ : ∃ v, lookupVertex d1.vertices p = some v := by
    cases hvv : lookupVertex d1.vertices p with
    | none => rw [hvv] at hsome; simp at hsome
    | some v => exact ⟨v, rfl⟩
  have hbnd : (v.locations.get op).boundary = decide (lss.length % 2 = 1) := by
    unfold vertexBoundaryFlag at hflag
    rw [hv] at hflag
    simpa using hflag
  have hcompose : ∀ (o : Option vertexRecord),
      (o.map (fun v => (v.locations.get op).boundary)) =
        ((o.map (fun v => v.locations)).map (fun l => (l.get op).boundary)) := by
    intro o
    cases o <;> rfl
  rw [hcompose, hloc]
  show ((lookupVertex d1.vertices p).map (fun v => v.locations)).map _ = _
  rw [hv]
  simp [hbnd]

/-- Witness for C5 at a concrete input: three segments sharing the endpoint
`(0,0)` (odd count, so boundary). -/
theorem mod2BoundaryRuleWitness :
    (lookupVertex (addMultiLineString emptyDCEL
        [[⟨0,0⟩, ⟨1,0⟩], [⟨0,0⟩, ⟨0,1⟩], [⟨2,2⟩, ⟨0,0⟩]] 0
        [⟨0,0⟩, ⟨1,0⟩, ⟨0,1⟩, ⟨2,2⟩]).vertices ⟨0,0⟩).map
      (fun v => (v.locations.get 0).boundary) =
      some (decide (([[⟨0,0⟩, ⟨1,0⟩], [⟨0,0⟩, ⟨0,1⟩],
        [(⟨2,2⟩ : XY), ⟨0,0⟩]] : List Sequence).length % 2 = 1)) :=
  mod2BoundaryRule [[⟨0,0⟩, ⟨1,0⟩], [⟨0,0⟩, ⟨0,1⟩], [⟨2,2⟩, ⟨0,0⟩]] 0
    [⟨0,0⟩, ⟨1,0⟩, ⟨0,1⟩, ⟨2,2⟩] ⟨0,0⟩ (by decide) (by decide)
    (by decide)

/-! ## C1 (amended): location exclusivity under disjoint placements

The counterexample shows the exclusivity invariant fails in general: the
interior-vertex update sets `interior` without clearing `boundary`. It holds
whenever no coordinate receives, for the same operand, both a boundary-type
placement (endpoint of a non-closed line string, or a polygon-ring vertex)
and an interior-type placement (interior vertex of a non-closed line string,
any vertex of a closed line string, or a point). -/

theorem locationPair_get_set_ne (lp : locationPair) (op k : operand)
    (v : location) (hne : op ≠ k) : (lp.set op v).get k = lp.get k := by
  unfold locationPair.set locationPair.get
  by_cases h1 : op.val = 0 <;> by_cases h2 : k.val = 0
  · exact absurd (Fin.ext (h1.trans h2.symm)) hne
  · simp [h1, h2]
  · simp [h1, h2]
  · have hv1 : op.val = 1 := by omega
    have hv2 : k.val = 1 := by omega
    exact absurd (Fin.ext (hv1.trans hv2.symm)) hne

/-- The boundary-type placements of one line string: its endpoints when it is
not closed. -/
def lineStringBoundaryPlacements (seq : Sequence) : List XY :=
  if lineStringIsClosed seq then []
  else
    (match seq.head? with | some xy => [xy] | none => []) ++
    (match seq.getLast? with | some xy => [xy] | none => [])

/-- The interior-type placements of one line string: every coordinate when it
is closed, otherwise the coordinates at interior positions. -/
def lineStringInteriorPlacements (seq : Sequence) : List XY :=
  if lineStringIsClosed seq then seq else (seq.drop 1).dropLast

mutual

/-- The coordinates a geometry can flag as on-boundary for its operand:
endpoints of non-closed line strings and polygon-ring vertices. -/
def geomBoundaryPlacements : Geometry → List XY
  | .point _ => []
  | .multiPoint _ => []
  | .lineString seq => lineStringBoundaryPlacements seq
  | .multiLineString lss => lss.flatMap lineStringBoundaryPlacements
  | .polygon rings => rings.flatten
  | .multiPolygon polys => (polys.flatten).flatten
  | .geometryCollection gs => geomListBoundaryPlacements gs

def geomListBoundaryPlacements : List Geometry → List XY
  | [] => []
  | g :: rest => geomBoundaryPlacements g ++ geomListBoundaryPlacements rest

end

mutual

/-- The coordinates a geometry can flag as interior for its operand:
interior or closed line-string vertices and point coordinates. -/
def geomInteriorPlacements : Geometry → List XY
  | .point (some xy) => [xy]
  | .point none => []
  | .multiPoint pts => pts.flatMap (fun pt => match pt with
      | some xy => [xy]
      | none => [])
  | .lineString seq => lineStringInteriorPlacements seq
  | .multiLineString lss => lss.flatMap lineStringInteriorPlacements
  | .polygon _ => []
  | .multiPolygon _ => []
  | .geometryCollection gs => geomListInteriorPlacements gs

def geomListInteriorPlacements : List Geometry → List XY
  | [] => []
  | g :: rest => geomInteriorPlacements g ++ geomListInteriorPlacements rest

end

/-- Boundary-type placements of a whole Builder run, for operand `k`. -/
def opsBoundaryPlacements (k : operand) (ops : List builderOp) : List XY :=
  ops.flatMap (fun bop => match bop with
    | .geom g op => if op = k then geomBoundaryPlacements g else []
    | .ghosts _ _ => [])

/-- Interior-type placements of a whole Builder run, for operand `k`. -/
def opsInteriorPlacements (k : operand) (ops : List builderOp) : List XY :=
  ops.flatMap (fun bop => match bop with
    | .geom g op => if op = k then geomInteriorPlacements g else []
    | .ghosts _ _ => [])

/-- The invariant: every existing vertex has exclusive location flags for
operand `k`, and a set boundary flag only at a boundary-placed coordinate. -/
def vertexLocInv (k : operand) (B : List XY) (d : doublyConnectedEdgeList) :
    Prop :=
  ∀ xy v, lookupVertex d.vertices xy = some v →
    ((v.locations.get k).boundary = true → xy ∈ B) ∧
    ¬((v.locations.get k).boundary = true ∧ (v.locations.get k).interior = true)

theorem locationPair_get_default (k : operand) :
    (default : locationPair).get k = ⟨false, false⟩ := by
  unfold locationPair.get
  by_cases h : k.val = 0 <;> simp [h] <;> rfl

theorem vertexLocInv_insert (k : operand) (B : List XY)
    (d : doublyConnectedEdgeList) (xy : XY) (vr : vertexRecord)
    (hInv : vertexLocInv k B d)
    (hvr : (((vr.locations.get k).boundary = true → xy ∈ B) ∧
      ¬((vr.locations.get k).boundary = true ∧
        (vr.locations.get k).interior = true))) :
    vertexLocInv k B { d with vertices := insertVertex d.vertices xy vr } := by
  intro q v hq
  unfold insertVertex at hq
  rw [lookupVertex_append_single] at hq
  cases hl : lookupVertex d.vertices q with
  | some w =>
      rw [hl] at hq
      simp at hq
      subst hq
      exact hInv q w hl
  | none =>
      rw [hl] at hq
      by_cases hxy : xy = q
      · rw [if_pos hxy] at hq
        simp at hq
        subst hq
        subst hxy
        exact hvr
      · rw [if_neg hxy] at hq
        cases hq

theorem vertexLocInv_update (k : operand) (B : List XY)
    (d : doublyConnectedEdgeList) (xy : XY) (f : vertexRecord → vertexRecord)
    (hInv : vertexLocInv k B d)
    (hf : ∀ v,
      ((((v.locations.get k).boundary = true → xy ∈ B) ∧
        ¬((v.locations.get k).boundary = true ∧
          (v.locations.get k).interior = true))) →
      ((((f v).locations.get k).boundary = true → xy ∈ B) ∧
        ¬(((f v).locations.get k).boundary = true ∧
          ((f v).locations.get k).interior = true))) :
    vertexLocInv k B { d with vertices := updateVertex d.vertices xy f } := by
  intro q v hq
  have hq2 : lookupVertex (updateVertex d.vertices xy f) q = some v := hq
  clear hq
  rw [lookupVertex_updateVertex] at hq2
  by_cases hxy : xy = q
  · rw [if_pos hxy] at hq2
    cases hl : lookupVertex d.vertices q with
    | none => rw [hl] at hq2; cases hq2
    | some w =>
        rw [hl] at hq2
        simp at hq2
        subst hq2
        subst hxy
        exact hf w (hInv _ w hl)
  · rw [if_neg hxy] at hq2
    exact hInv q v hq2

theorem vertexLocInv_ensureVertex (k : operand) (B : List XY)
    (d : doublyConnectedEdgeList) (xy : XY) (hInv : vertexLocInv k B d) :
    vertexLocInv k B (ensureVertex d xy) := by
  unfold ensureVertex
  cases hl : lookupVertex d.vertices xy with
  | some v => exact hInv
  | none =>
      refine vertexLocInv_insert k B d xy _ hInv ?_
      rw [locationPair_get_default]
      simp

theorem vertexLocInv_halfEdgesOnly (k : operand) (B : List XY)
    (d d2 : doublyConnectedEdgeList) (hv : d2.vertices = d.vertices)
    (hInv : vertexLocInv k B d) : vertexLocInv k B d2 := by
  intro q v hq
  rw [hv] at hq
  exact hInv q v hq

theorem vertexLocInv_of_locations_eq (k : operand) (B : List XY)
    (d d2 : doublyConnectedEdgeList)
    (hloc : ∀ q, ((lookupVertex d2.vertices q).map (fun v => v.locations)) =
      ((lookupVertex d.vertices q).map (fun v => v.locations)))
    (hInv : vertexLocInv k B d) : vertexLocInv k B d2 := by
  intro q v hq
  have h2 := hloc q
  rw [hq] at h2
  cases hl : lookupVertex d.vertices q with
  | none => rw [hl] at h2; cases h2
  | some w =>
      rw [hl] at h2
      simp at h2
      rw [h2]
      exact hInv q w hl

theorem vertexLocInv_fixVertex (k : operand) (B : List XY)
    (d : doublyConnectedEdgeList) (xy : XY) (hInv : vertexLocInv k B d) :
    vertexLocInv k B (fixVertex d xy) := by
  unfold fixVertex
  cases lookupVertex d.vertices xy with
  | none => exact hInv
  | some v => exact vertexLocInv_halfEdgesOnly k B d _ rfl hInv

theorem vertexLocInv_appendIncident (k : operand) (B : List XY)
    (d : doublyConnectedEdgeList) (xy : XY) (idx : Nat)
    (hInv : vertexLocInv k B d) :
    vertexLocInv k B { d with vertices := appendIncident d.vertices xy idx } := by
  refine vertexLocInv_of_locations_eq k B d _ ?_ hInv
  intro q
  exact lookup_locations_appendIncident d.vertices xy idx q

theorem vertexLocInv_lsVertexStep (k : operand) (B : List XY)
    (d : doublyConnectedEdgeList) (op : operand) (ob : Bool) (xy : XY)
    (hInv : vertexLocInv k B d)
    (hcase : op = k → (if ob then xy ∈ B else xy ∉ B)) :
    vertexLocInv k B (lineStringVertexStep d op ob xy) := by
  cases ob with
  | true =>
      have hc : op = k → xy ∈ B := fun hop => by simpa using hcase hop
      unfold lineStringVertexStep
      cases hl : lookupVertex d.vertices xy with
      | none =>
          refine vertexLocInv_insert k B d xy _ hInv ?_
          have hlocs : ((if (true : Bool) then
              locationPair.set default op ⟨false, true⟩
            else locationPair.set default op ⟨true, false⟩) : locationPair) =
              locationPair.set default op ⟨false, true⟩ := rfl
          show ((((if (true : Bool) then
              locationPair.set default op ⟨false, true⟩
            else locationPair.set default op ⟨true, false⟩).get k).boundary
              = true → xy ∈ B) ∧ _)
          rw [hlocs]
          by_cases hop : op = k
          · subst hop
            rw [locationPair_get_set]
            exact ⟨fun _ => hc rfl, by simp⟩
          · rw [locationPair_get_set_ne _ _ _ _ hop, locationPair_get_default]
            simp
      | some v0 =>
          refine vertexLocInv_update k B d xy _ hInv ?_
          intro v2 hv2
          by_cases hop : op = k
          · subst hop
            rw [locationPair_get_set]
            by_cases hb : (v0.locations.get op).boundary = true
            · rw [if_pos hb]
              simp
            · rw [if_neg hb]
              exact ⟨fun _ => hc rfl, by simp⟩
          · rw [locationPair_get_set_ne _ _ _ _ hop]
            exact hv2
  | false =>
      have hc : op = k → xy ∉ B := fun hop => by simpa using hcase hop
      unfold lineStringVertexStep
      cases hl : lookupVertex d.vertices xy with
      | none =>
          refine vertexLocInv_insert k B d xy _ hInv ?_
          have hlocs : ((if (false : Bool) then
              locationPair.set default op ⟨false, true⟩
            else locationPair.set default op ⟨true, false⟩) : locationPair) =
              locationPair.set default op ⟨true, false⟩ := rfl
          show ((((if (false : Bool) then
              locationPair.set default op ⟨false, true⟩
            else locationPair.set default op ⟨true, false⟩).get k).boundary
              = true → xy ∈ B) ∧ _)
          rw [hlocs]
          by_cases hop : op = k
          · subst hop
            rw [locationPair_get_set]
            simp
          · rw [locationPair_get_set_ne _ _ _ _ hop, locationPair_get_default]
            simp
      | some v0 =>
          refine vertexLocInv_update k B d xy _ hInv ?_
          intro v2 hv2
          by_cases hop : op = k
          · have hv0 := hInv xy v0 hl
            subst hop
            rw [locationPair_get_set]
            constructor
            · intro hb
              simp at hb
              exact absurd (hv0.1 hb) (hc rfl)
            · intro hbi
              simp at hbi
              exact absurd (hv0.1 hbi) (hc rfl)
          · rw [locationPair_get_set_ne _ _ _ _ hop]
            exact hv2

theorem vertexLocInv_lsVertexLoop (k : operand) (B : List XY) (op : operand)
    (ia : List XY) (closed : Bool) :
    ∀ (l : List XY) (isFirst : Bool) (d : doublyConnectedEdgeList),
      vertexLocInv k B d →
      (op = k → closed = false → isFirst = true →
        ∀ x, l.head? = some x → x ∈ B) →
      (op = k → closed = false → ∀ x, l.getLast? = some x → x ∈ B) →
      (op = k → closed = false →
        ∀ x ∈ (if isFirst then (l.drop 1).dropLast else l.dropLast), x ∉ B) →
      (op = k → closed = true → ∀ x ∈ l, x ∉ B) →
      vertexLocInv k B (lineStringVertexLoop op ia closed isFirst l d) := by
  intro l
  induction l with
  | nil => intro isFirst d hInv _ _ _ _; exact hInv
  | cons x rest ih =>
      intro isFirst d hInv hhead hlast hmid hclosed
      have hstep : lineStringVertexLoop op ia closed isFirst (x :: rest) d =
          lineStringVertexLoop op ia closed false rest
            (if xySetMember ia x = true then
              lineStringVertexStep d op (((isFirst || rest.isEmpty) && !closed)) x
            else d) := rfl
      rw [hstep]
      have hd2 : vertexLocInv k B
          (if xySetMember ia x = true then
            lineStringVertexStep d op (((isFirst || rest.isEmpty) && !closed)) x
          else d) := by
        by_cases hm : xySetMember ia x = true
        · rw [if_pos hm]
          refine vertexLocInv_lsVertexStep k B d op _ x hInv ?_
          intro hop
          by_cases hcl : closed = true
          · subst hcl
            simp only [Bool.not_true, Bool.and_false]
            simp only [Bool.false_eq_true, if_false]
            exact hclosed hop rfl x (by simp)
          · simp only [Bool.not_eq_true] at hcl
            subst hcl
            simp only [Bool.not_false, Bool.and_true]
            by_cases hfst : isFirst = true
            · subst hfst
              simp only [Bool.true_or, if_pos]
              exact hhead hop rfl rfl x (by simp)
            · simp only [Bool.not_eq_true] at hfst
              subst hfst
              simp only [Bool.false_or]
              cases hrest : rest with
              | nil =>
                  simp only [List.isEmpty_nil, if_pos]
                  refine hlast hop rfl x ?_
                  rw [hrest]
                  rfl
              | cons y t =>
                  simp only [List.isEmpty_cons, Bool.false_eq_true, if_false]
                  refine hmid hop rfl x ?_
                  simp only [Bool.false_eq_true, if_false]
                  rw [hrest]
                  rw [List.dropLast_cons_of_ne_nil (by simp)]
                  simp
        · rw [if_neg hm]
          exact hInv
      refine ih false _ hd2 ?_ ?_ ?_ ?_
      · intro _ _ h
        cases h
      · intro hop hcl y hy
        refine hlast hop hcl y ?_
        cases hrest : rest with
        | nil => rw [hrest] at hy; cases hy
        | cons z t =>
            rw [hrest] at hy
            rw [show ((x :: z :: t : List XY).getLast? = (z :: t : List XY).getLast?)
              from List.getLast?_cons_cons]
            exact hy
      · intro hop hcl y hy
        simp only [Bool.false_eq_true, if_false] at hy
        refine hmid hop hcl y ?_
        by_cases hfst : isFirst = true
        · subst hfst
          simp only [if_pos rfl]
          simpa using hy
        · simp only [Bool.not_eq_true] at hfst
          subst hfst
          simp only [Bool.false_eq_true, if_false]
          cases hrest : rest with
          | nil => rw [hrest] at hy; cases hy
          | cons z t =>
              rw [hrest] at hy
              rw [List.dropLast_cons_of_ne_nil (by simp)]
              rw [← hrest] at hy
              exact List.mem_cons.mpr (Or.inr (hrest ▸ hy))
      · intro hop hcl y hy
        exact hclosed hop hcl y (by simp [hy])

theorem lookup_locations_ringEdgeFold (op : operand) (base : Nat)
    (segs : List Sequence) :
    ∀ (acc : List halfEdgeRecord × List (XY × vertexRecord)) (q : XY),
      ((lookupVertex ((segs.foldl (ringEdgeStep op base) acc)).2 q).map
        (fun v => v.locations)) =
      ((lookupVertex acc.2 q).map (fun v => v.locations)) := by
  induction segs with
  | nil => intro acc q; rfl
  | cons seg t ih =>
      intro acc q
      rw [List.foldl_cons, ih]
      obtain ⟨ne, vs⟩ := acc
      unfold ringEdgeStep
      dsimp only
      rw [lookup_locations_appendIncident, lookup_locations_appendIncident]

theorem vertexLocInv_addRingVertices (k : operand) (B : List XY)
    (ring : Sequence) :
    ∀ (d : doublyConnectedEdgeList) (op : operand) (ia : List XY),
      vertexLocInv k B d → (op = k → ∀ x ∈ ring, x ∈ B) →
      vertexLocInv k B (addRingVertices d op ia ring) := by
  induction ring with
  | nil => intro d op ia hInv _; exact hInv
  | cons xy t ih =>
      intro d op ia hInv hB
      have hfold : addRingVertices d op ia (xy :: t) =
          addRingVertices
            (if xySetMember ia xy then
              match lookupVertex d.vertices xy with
              | none => { d with vertices := insertVertex d.vertices xy (newArealVertex xy op) }
              | some _ => d
            else d) op ia t := rfl
      rw [hfold]
      refine ih _ op ia ?_ (fun hop x hx => hB hop x (by simp [hx]))
      by_cases hm : xySetMember ia xy = true
      · rw [if_pos hm]
        cases hl : lookupVertex d.vertices xy with
        | some v => exact hInv
        | none =>
            refine vertexLocInv_insert k B d xy _ hInv ?_
            have hna : (newArealVertex xy op).locations =
                newLocationsOnBoundary op := rfl
            rw [hna]
            unfold newLocationsOnBoundary
            by_cases hop : op = k
            · subst hop
              rw [locationPair_get_set]
              exact ⟨fun _ => hB rfl xy (by simp), by simp⟩
            · rw [locationPair_get_set_ne _ _ _ _ hop, locationPair_get_default]
              simp
      · rw [if_neg hm]
        exact hInv

theorem vertexLocInv_addRingEdges (k : operand) (B : List XY)
    (d : doublyConnectedEdgeList) (op : operand) (ia : List XY)
    (ring : Sequence) (hInv : vertexLocInv k B d) :
    vertexLocInv k B (addRingEdges d op ia ring) := by
  unfold addRingEdges
  cases hfe : (builderSegments ring ia).foldl
      (ringEdgeStep op d.halfEdges.length) ([], d.vertices) with
  | mk ne vs =>
      dsimp only
      rw [hfe]
      dsimp only
      refine vertexLocInv_of_locations_eq k B d _ ?_ hInv
      intro q
      have := lookup_locations_ringEdgeFold op d.halfEdges.length
        (builderSegments ring ia) ([], d.vertices) q
      rw [hfe] at this
      exact this

theorem mem_forceCCWRing (b : Bool) (r : Sequence) (x : XY)
    (h : x ∈ forceCCWRing b r) : x ∈ r := by
  unfold forceCCWRing at h
  by_cases hb : b = true <;> simp [hb] at h <;>
    [skip; skip] <;> first
      | (revert h; split <;> intro h <;> simpa [reverseSequence] using h)
      | exact h

theorem mem_forceCCWPolygon (rp : Sequence) (rs : List Sequence)
    (h : rp ∈ forceCCWPolygon rs) : ∃ r ∈ rs, ∃ b, rp = forceCCWRing b r := by
  cases rs with
  | nil => cases h
  | cons ext holes =>
      unfold forceCCWPolygon at h
      rcases List.mem_cons.mp h with heq | hmem
      · exact ⟨ext, by simp, true, heq⟩
      · obtain ⟨r, hr, heq⟩ := List.mem_map.mp hmem
        exact ⟨r, by simp [hr], false, heq.symm⟩

theorem vertexLocInv_addMultiPolygon (k : operand) (B : List XY)
    (d : doublyConnectedEdgeList) (polys : List (List Sequence))
    (op : operand) (ia : List XY) (hInv : vertexLocInv k B d)
    (hB : op = k → ∀ x ∈ (polys.flatten).flatten, x ∈ B) :
    vertexLocInv k B (addMultiPolygon d polys op ia) := by
  unfold addMultiPolygon addMultiPolygonRings
  have hv : ∀ (rl : List Sequence), (op = k → ∀ r ∈ rl, ∀ x ∈ r, x ∈ B) →
      ∀ d3, vertexLocInv k B d3 →
      vertexLocInv k B
        (rl.foldl (fun d ring => addRingVertices d op ia ring) d3) := by
    intro rl hrl
    induction rl with
    | nil => intro d3 h3; exact h3
    | cons r rt ihr =>
        intro d3 h3
        rw [List.foldl_cons]
        refine ihr (fun hop r2 hr2 x hx => hrl hop r2 (by simp [hr2]) x hx) _ ?_
        exact vertexLocInv_addRingVertices k B r d3 op ia h3
          (fun hop x hx => hrl hop r (by simp) x hx)
  have he : ∀ (rl : List Sequence) (d3 : doublyConnectedEdgeList),
      vertexLocInv k B d3 →
      vertexLocInv k B
        (rl.foldl (fun d ring => addRingEdges d op ia ring) d3) := by
    intro rl
    induction rl with
    | nil => intro d3 h3; exact h3
    | cons r rt ihr =>
        intro d3 h3
        rw [List.foldl_cons]
        exact ihr _ (vertexLocInv_addRingEdges k B d3 op ia r h3)
  have hpoly : ∀ (ps : List (List Sequence)),
      (op = k → ∀ poly ∈ ps, ∀ r ∈ poly, ∀ x ∈ r, x ∈ B) →
      ∀ d2, vertexLocInv k B d2 →
      vertexLocInv k B (ps.foldl
        (fun d rings =>
          let d := rings.foldl (fun d ring => addRingVertices d op ia ring) d
          rings.foldl (fun d ring => addRingEdges d op ia ring) d) d2) := by
    intro ps hps
    induction ps with
    | nil => intro d2 h2; exact h2
    | cons rings t ih =>
        intro d2 h2
        rw [List.foldl_cons]
        refine ih (fun hop poly hp r hr x hx =>
          hps hop poly (by simp [hp]) r hr x hx) _ ?_
        dsimp only
        refine he _ _ ?_
        exact hv _ (fun hop r hr x hx => hps hop rings (by simp) r hr x hx) _ h2
  refine hpoly (forceCCW polys) ?_ d hInv
  intro hop poly hpoly2 r hr x hx
  unfold forceCCW at hpoly2
  obtain ⟨rs, hrs, hrseq⟩ := List.mem_map.mp hpoly2
  subst hrseq
  obtain ⟨r0, hr0, b, hb⟩ := mem_forceCCWPolygon r rs hr
  subst hb
  have hxr0 : x ∈ r0 := mem_forceCCWRing b r0 x hx
  refine hB hop x ?_
  rw [List.mem_flatten]
  refine ⟨r0, ?_, hxr0⟩
  rw [List.mem_flatten]
  exact ⟨rs, hrs, hr0⟩

theorem vertexLocInv_addMultiLineString (k : operand) (B : List XY)
    (d : doublyConnectedEdgeList) (lss : List Sequence) (op : operand)
    (ia : List XY) (hInv : vertexLocInv k B d)
    (hB : op = k → ∀ x ∈ lss.flatMap lineStringBoundaryPlacements, x ∈ B)
    (hI : op = k → ∀ x ∈ lss.flatMap lineStringInteriorPlacements, x ∉ B) :
    vertexLocInv k B (addMultiLineString d lss op ia) := by
  unfold addMultiLineString
  dsimp only
  have hpass : ∀ (ls2 : List Sequence) (d2 : doublyConnectedEdgeList),
      vertexLocInv k B d2 →
      (op = k → ∀ x ∈ ls2.flatMap lineStringBoundaryPlacements, x ∈ B) →
      (op = k → ∀ x ∈ ls2.flatMap lineStringInteriorPlacements, x ∉ B) →
      vertexLocInv k B (ls2.foldl
        (fun d ls =>
          match ls with
          | [] => d
          | xy :: rest =>
              lineStringVertexLoop op ia (lineStringIsClosed ls) true
                (xy :: rest) d) d2) := by
    intro ls2
    induction ls2 with
    | nil => intro d2 h2 _ _; exact h2
    | cons ls t ih =>
        intro d2 h2 hB2 hI2
        rw [List.foldl_cons]
        refine ih _ ?_ (fun hop x hx => hB2 hop x (by simp [hx]))
          (fun hop x hx => hI2 hop x (by simp [hx]))
        cases hls : ls with
        | nil => exact h2
        | cons xy rest =>
            refine vertexLocInv_lsVertexLoop k B op ia
              (lineStringIsClosed (xy :: rest)) (xy :: rest) true d2 h2
              ?_ ?_ ?_ ?_
            · intro hop hcl _ x hx
              refine hB2 hop x ?_
              simp only [List.flatMap_cons, List.mem_append]
              left
              rw [hls]
              unfold lineStringBoundaryPlacements
              rw [hcl]
              simp only [Bool.false_eq_true, if_false]
              simp at hx
              simp [hx]
            · intro hop hcl x hx
              refine hB2 hop x ?_
              simp only [List.flatMap_cons, List.mem_append]
              left
              rw [hls]
              unfold lineStringBoundaryPlacements
              rw [hcl]
              simp only [Bool.false_eq_true, if_false]
              rw [List.mem_append]
              right
              rw [hx]
              simp
            · intro hop hcl x hx
              refine hI2 hop x ?_
              simp only [List.flatMap_cons, List.mem_append]
              left
              rw [hls]
              unfold lineStringInteriorPlacements
              rw [hcl]
              simp only [Bool.false_eq_true, if_false]
              simp only [if_pos rfl] at hx
              simpa using hx
            · intro hop hcl x hx
              refine hI2 hop x ?_
              simp only [List.flatMap_cons, List.mem_append]
              left
              rw [hls]
              unfold lineStringInteriorPlacements
              rw [hcl]
              simp only [if_pos rfl]
              exact hx
  refine vertexLocInv_of_locations_eq k B _ _ ?_ (hpass lss d hInv hB hI)
  intro q
  exact lookup_locations_edgePass op ia q lss _

theorem vertexLocInv_addMultiPointStep (k : operand) (B : List XY)
    (d : doublyConnectedEdgeList) (op : operand) (pt : Option XY)
    (hInv : vertexLocInv k B d)
    (hI : op = k → ∀ x, pt = some x → x ∉ B) :
    vertexLocInv k B (addMultiPointStep op d pt) := by
  cases pt with
  | none => exact hInv
  | some xy =>
      have hnB : op = k → xy ∉ B := fun hop => hI hop xy rfl
      unfold addMultiPointStep
      dsimp only
      show vertexLocInv k B
        { ensureVertex d xy with
          vertices := updateVertex (ensureVertex d xy).vertices xy
            (fun v =>
              { v with
                src := v.src.set op true
                locations := v.locations.set op
                  { v.locations.get op with interior := true } }) }
      refine vertexLocInv_update k B (ensureVertex d xy) xy _
        (vertexLocInv_ensureVertex k B d xy hInv) ?_
      intro v2 hv2
      by_cases hop : op = k
      · subst hop
        rw [locationPair_get_set]
        constructor
        · intro hb
          simp at hb
          exact absurd (hv2.1 hb) (hnB rfl)
        · intro hbi
          simp at hbi
          exact absurd (hv2.1 hbi) (hnB rfl)
      · rw [locationPair_get_set_ne _ _ _ _ hop]
        exact hv2

theorem vertexLocInv_addMultiPoint (k : operand) (B : List XY)
    (pts : List (Option XY)) :
    ∀ (d : doublyConnectedEdgeList) (op : operand),
      vertexLocInv k B d →
      (op = k → ∀ x ∈ pts.flatMap (fun pt => match pt with
        | some xy => [xy]
        | none => []), x ∉ B) →
      vertexLocInv k B (addMultiPoint d pts op) := by
  induction pts with
  | nil => intro d op hInv _; exact hInv
  | cons pt t ih =>
      intro d op hInv hI
      show vertexLocInv k B (addMultiPoint (addMultiPointStep op d pt) t op)
      refine ih _ op ?_ (fun hop x hx => hI hop x (by simp [hx]))
      refine vertexLocInv_addMultiPointStep k B d op pt hInv ?_
      intro hop x hx
      refine hI hop x ?_
      rw [hx]
      simp

theorem vertexLocInv_addGhostLine (k : operand) (B : List XY)
    (d : doublyConnectedEdgeList) (segment reverseSegment : Sequence)
    (hInv : vertexLocInv k B d) :
    vertexLocInv k B (addGhostLine d segment reverseSegment) := by
  unfold addGhostLine
  refine vertexLocInv_fixVertex k B _ _ (vertexLocInv_fixVertex k B _ _ ?_)
  dsimp only
  refine vertexLocInv_of_locations_eq k B d _ ?_ hInv
  intro q
  show ((lookupVertex
      (appendIncident
        (appendIncident d.vertices (segment.headD default) d.halfEdges.length)
        (reverseSegment.headD default) (d.halfEdges.length + 1)) q).map
    (fun v => v.locations)) =
    ((lookupVertex d.vertices q).map (fun v => v.locations))
  rw [lookup_locations_appendIncident, lookup_locations_appendIncident]

theorem vertexLocInv_addGhosts (k : operand) (B : List XY)
    (d : doublyConnectedEdgeList) (mls : List Sequence) (op : operand)
    (ia : List XY) (hInv : vertexLocInv k B d) :
    vertexLocInv k B (addGhosts d mls op ia) := by
  unfold addGhosts
  dsimp only
  have hstep : ∀ (acc : doublyConnectedEdgeList × edgeSet) (seg : Sequence),
      vertexLocInv k B acc.1 →
      vertexLocInv k B (ghostSegmentStep acc seg).1 := by
    intro acc seg hacc
    obtain ⟨d0, edges⟩ := acc
    unfold ghostSegmentStep
    dsimp only
    have h1 := vertexLocInv_ensureVertex k B d0 (seg.headD default) hacc
    have h2 := vertexLocInv_ensureVertex k B _
      ((reverseSequence seg).headD default) h1
    by_cases hc : edgeSetContains edges seg = true
    · rw [if_pos hc]
      exact h2
    · rw [if_neg hc]
      exact vertexLocInv_addGhostLine k B _ _ _ h2
  have hseg : ∀ (segs : List Sequence) (acc : doublyConnectedEdgeList × edgeSet),
      vertexLocInv k B acc.1 →
      vertexLocInv k B ((segs.foldl ghostSegmentStep acc)).1 := by
    intro segs
    induction segs with
    | nil => intro acc h; exact h
    | cons s t ih =>
        intro acc h
        rw [List.foldl_cons]
        exact ih _ (hstep acc s h)
  have hfold : ∀ (lss : List Sequence) (acc : doublyConnectedEdgeList × edgeSet),
      vertexLocInv k B acc.1 →
      vertexLocInv k B ((lss.foldl
        (fun acc ls => (builderSegments ls ia).foldl ghostSegmentStep acc)
        acc)).1 := by
    intro lss
    induction lss with
    | nil => intro acc h; exact h
    | cons ls t ih =>
        intro acc h
        rw [List.foldl_cons]
        exact ih _ (hseg _ acc h)
  exact hfold mls _ hInv

mutual

theorem vertexLocInv_addGeometry (k : operand) (B : List XY) (g : Geometry) :
    ∀ (d : doublyConnectedEdgeList) (op : operand) (ia : List XY),
      vertexLocInv k B d →
      (op = k → ∀ x ∈ geomBoundaryPlacements g, x ∈ B) →
      (op = k → ∀ x ∈ geomInteriorPlacements g, x ∉ B) →
      vertexLocInv k B (addGeometry d g op ia) :=
  match g with
  | .polygon rings => fun d op ia hInv hB _ => by
      show vertexLocInv k B (addMultiPolygon d [rings] op ia)
      refine vertexLocInv_addMultiPolygon k B d [rings] op ia hInv ?_
      intro hop x hx
      refine hB hop x ?_
      show x ∈ rings.flatten
      simpa using hx
  | .multiPolygon polys => fun d op ia hInv hB _ => by
      show vertexLocInv k B (addMultiPolygon d polys op ia)
      exact vertexLocInv_addMultiPolygon k B d polys op ia hInv hB
  | .lineString seq => fun d op ia hInv hB hI => by
      show vertexLocInv k B (addMultiLineString d [seq] op ia)
      refine vertexLocInv_addMultiLineString k B d [seq] op ia hInv ?_ ?_
      · intro hop x hx
        exact hB hop x (by simpa using hx)
      · intro hop x hx
        exact hI hop x (by simpa using hx)
  | .multiLineString lss => fun d op ia hInv hB hI => by
      show vertexLocInv k B (addMultiLineString d lss op ia)
      exact vertexLocInv_addMultiLineString k B d lss op ia hInv hB hI
  | .point xy => fun d op ia hInv _ hI => by
      show vertexLocInv k B (addMultiPoint d [xy] op)
      refine vertexLocInv_addMultiPoint k B [xy] d op hInv ?_
      intro hop x hx
      refine hI hop x ?_
      cases xy with
      | none => simp at hx
      | some q =>
          show x ∈ [q]
          simpa using hx
  | .multiPoint pts => fun d op ia hInv _ hI => by
      show vertexLocInv k B (addMultiPoint d pts op)
      exact vertexLocInv_addMultiPoint k B pts d op hInv hI
  | .geometryCollection gs => fun d op ia hInv hB hI =>
      vertexLocInv_addGeometryCollection k B gs d op ia hInv hB hI

theorem vertexLocInv_addGeometryCollection (k : operand) (B : List XY)
    (gs : List Geometry) :
    ∀ (d : doublyConnectedEdgeList) (op : operand) (ia : List XY),
      vertexLocInv k B d →
      (op = k → ∀ x ∈ geomListBoundaryPlacements gs, x ∈ B) →
      (op = k → ∀ x ∈ geomListInteriorPlacements gs, x ∉ B) →
      vertexLocInv k B (addGeometryCollection d gs op ia) :=
  match gs with
  | [] => fun _ _ _ h _ _ => h
  | g :: rest => fun d op ia hInv hB hI => by
      show vertexLocInv k B
        (addGeometryCollection (addGeometry d g op ia) rest op ia)
      refine vertexLocInv_addGeometryCollection k B rest _ op ia ?_ ?_ ?_
      · refine vertexLocInv_addGeometry k B g d op ia hInv ?_ ?_
        · intro hop x hx
          refine hB hop x ?_
          show x ∈ geomBoundaryPlacements g ++ geomListBoundaryPlacements rest
          exact List.mem_append_left _ hx
        · intro hop x hx
          refine hI hop x ?_
          show x ∈ geomInteriorPlacements g ++ geomListInteriorPlacements rest
          exact List.mem_append_left _ hx
      · intro hop x hx
        refine hB hop x ?_
        show x ∈ geomBoundaryPlacements g ++ geomListBoundaryPlacements rest
        exact List.mem_append_right _ hx
      · intro hop x hx
        refine hI hop x ?_
        show x ∈ geomInteriorPlacements g ++ geomListInteriorPlacements rest
        exact List.mem_append_right _ hx

end

/-- C1, amended: in general a built DCEL vertex can have both location flags
true for an operand (see the counterexample: the interior-vertex update sets
`interior` without clearing `boundary`). Exclusivity does hold for operand `k`
whenever no coordinate receives, for `k`, both a boundary-type placement
(endpoint of a non-closed line string or polygon-ring vertex) and an
interior-type placement (interior vertex of a non-closed line string, vertex
of a closed line string, or point). -/
theorem locationExclusivityAmendedThm (ia : List XY) (ops : List builderOp)
    (k : operand)
    (hdisj : ∀ xy ∈ opsBoundaryPlacements k ops,
      xy ∉ opsInteriorPlacements k ops) :
    ∀ xy v, lookupVertex (runBuilder ia ops).vertices xy = some v →
      ¬((v.locations.get k).boundary = true ∧
        (v.locations.get k).interior = true) := by
  have hInv : vertexLocInv k (opsBoundaryPlacements k ops) (runBuilder ia ops) := by
    unfold runBuilder
    have hgen : ∀ (ops2 : List builderOp), (∀ bop ∈ ops2, bop ∈ ops) →
        ∀ d, vertexLocInv k (opsBoundaryPlacements k ops) d →
        vertexLocInv k (opsBoundaryPlacements k ops)
          ((ops2.foldl
            (fun d bop =>
              match bop with
              | .geom g op => addGeometry d g op ia
              | .ghosts mls op => addGhosts d mls op ia) d)) := by
      intro ops2
      induction ops2 with
      | nil => intro _ d h; exact h
      | cons bop t ih =>
          intro hmem d h
          rw [List.foldl_cons]
          refine ih (fun b hb => hmem b (by simp [hb])) _ ?_
          cases bop with
          | ghosts mls op => exact vertexLocInv_addGhosts k _ d mls op ia h
          | geom g op =>
              refine vertexLocInv_addGeometry k _ g d op ia h ?_ ?_
              · intro hop x hx
                unfold opsBoundaryPlacements
                rw [List.mem_flatMap]
                refine ⟨.geom g op, hmem _ (by simp), ?_⟩
                simp only [hop, if_pos rfl]
                exact hx
              · intro hop x hx
                intro hxB
                refine hdisj x hxB ?_
                unfold opsInteriorPlacements
                rw [List.mem_flatMap]
                refine ⟨.geom g op, hmem _ (by simp), ?_⟩
                simp only [hop, if_pos rfl]
                exact hx
    refine hgen ops (fun b hb => hb) emptyDCEL ?_
    intro xy v hv
    cases hv
  intro xy v hv
  exact (hInv xy v hv).2

/-- Witness for the amended C1: a triangle-polygon build (ring coordinates
are boundary placements; there are no interior placements, so the
disjointness hypothesis holds). -/
theorem locationExclusivityAmendedWitness :
    (∀ xy ∈ opsBoundaryPlacements 0
        [.geom (.polygon [[⟨0,0⟩, ⟨1,0⟩, ⟨0,1⟩, ⟨0,0⟩]]) 0],
      xy ∉ opsInteriorPlacements 0
        [.geom (.polygon [[⟨0,0⟩, ⟨1,0⟩, ⟨0,1⟩, ⟨0,0⟩]]) 0]) ∧
    (∀ xy v, lookupVertex (runBuilder [⟨0,0⟩, ⟨1,0⟩, ⟨0,1⟩]
        [.geom (.polygon [[⟨0,0⟩, ⟨1,0⟩, ⟨0,1⟩, ⟨0,0⟩]]) 0]).vertices xy
        = some v →
      ¬((v.locations.get 0).boundary = true ∧
        (v.locations.get 0).interior = true)) :=
  ⟨by decide,
    locationExclusivityAmendedThm [⟨0,0⟩, ⟨1,0⟩, ⟨0,1⟩]
      [.geom (.polygon [[⟨0,0⟩, ⟨1,0⟩, ⟨0,1⟩, ⟨0,0⟩]]) 0] 0 (by decide)⟩

/-! ## C4: the DCEL built from a single CCW triangle -/

/-- With all three corners interacting, the segmentation of the triangle ring
`[a, b, c, a]` is one segment per ring edge (no distinctness needed: the scan
only asks whether coordinates are in the interaction set). -/
theorem triangleRingSegments (a b c : XY) :
    builderSegments [a, b, c, a] [a, b, c] = [[a, b], [b, c], [c, a]] := by
  have hmb : xySetMember [a, b, c] b = true := by simp [xySetMember]
  have hmc : xySetMember [a, b, c] c = true := by simp [xySetMember]
  have hma : xySetMember [a, b, c] a = true := by simp [xySetMember]
  simp [builderSegments, nonInteractingSegments, nonInteractingSegmentsLoop,
    findSegmentEnd, List.findIdx?_cons, hma, hmb, hmc]

/-- The shoelace sum of the triangle ring equals the cross product. -/
theorem triangleSignedArea (a b c : XY) :
    signedAreaTwice [a, b, c, a] = crossProd a b c := by
  simp [signedAreaTwice, crossProd]
  ring

/-- C4: building a DCEL from a single polygon whose exterior ring is the CCW
triangle `[a, b, c, a]` (corners distinct, `orientation a b c = leftTurn`),
with all three corners in the interaction set, no ghost lines and operand 0,
yields exactly 3 vertices and 6 half-edges; the `next` pointers are
`[2, 5, 4, 1, 0, 3]`, i.e. two disjoint 3-cycles `0 → 2 → 4 → 0` (the internal
edges) and `1 → 5 → 3 → 1` (the external edges); and `srcFace[0]` is true on
every internal (even-index) half-edge and false on every external (odd-index)
one. -/
theorem ccwTriangleDCELStructure (a b c : XY) (hab : a ≠ b) (hac : a ≠ c)
    (hbc : b ≠ c) (hccw : orientation a b c = leftTurn) :
    (newDCELFromGeometry (.polygon [[a, b, c, a]]) [] 0 [a, b, c]).vertices.length
      = 3 ∧
    (newDCELFromGeometry (.polygon [[a, b, c, a]]) [] 0 [a, b, c]).halfEdges.length
      = 6 ∧
    (newDCELFromGeometry (.polygon [[a, b, c, a]]) [] 0 [a, b, c]).halfEdges.map
      (fun e => e.next) = [2, 5, 4, 1, 0, 3] ∧
    (newDCELFromGeometry (.polygon [[a, b, c, a]]) [] 0 [a, b, c]).halfEdges.map
      (fun e => e.srcFace.get 0) = [true, false, true, false, true, false] := by
  have hba : b ≠ a := hab.symm
  have hca : c ≠ a := hac.symm
  have hcb : c ≠ b := hbc.symm
  have hpos : crossProd a b c > 0 := by
    by_contra h
    unfold orientation at hccw
    rw [if_neg h] at hccw
    split at hccw <;> simp at hccw
  have hforce : forceCCW [[[a, b, c, a]]] = [[[a, b, c, a]]] := by
    have hring : forceCCWRing true [a, b, c, a] = [a, b, c, a] := by
      show (if signedAreaTwice [a, b, c, a] < 0 then
        reverseSequence [a, b, c, a] else [a, b, c, a]) = [a, b, c, a]
      rw [triangleSignedArea, if_neg (by omega)]
    simp [forceCCW, forceCCWPolygon, hring]
  have hd : newDCELFromGeometry (.polygon [[a, b, c, a]]) [] 0 [a, b, c]
      = addRingEdges (addRingVertices emptyDCEL 0 [a, b, c] [a, b, c, a])
          0 [a, b, c] [a, b, c, a] := by
    show addMultiPolygonRings emptyDCEL (forceCCW [[[a, b, c, a]]]) 0 [a, b, c]
      = _
    rw [hforce]
    rfl
  have hvs : addRingVertices emptyDCEL 0 [a, b, c] [a, b, c, a]
      = ⟨[], [(a, newArealVertex a 0), (b, newArealVertex b 0),
              (c, newArealVertex c 0)]⟩ := by
    simp [addRingVertices, xySetMember, lookupVertex, insertVertex, emptyDCEL,
      hab, hac, hbc, hba, hca, hcb]
  rw [hd, hvs]
  have hseg := triangleRingSegments a b c
  refine ⟨?_, ?_, ?_, ?_⟩ <;>
    simp [addRingEdges, hseg, ringEdgeStep, ringSegmentEdges, reverseSequence,
      appendIncident, updateVertex, linkRingEdges, List.mapIdx_cons,
      hab, hac, hbc, hba, hca, hcb, boolPair.set, boolPair.get,
      Inhabited.default]

/-- Witness for C4 at the concrete CCW triangle `(0,0), (1,0), (0,1)`. -/
theorem ccwTriangleDCELStructureWitness :
    ((⟨0, 0⟩ : XY) ≠ ⟨1, 0⟩ ∧ (⟨0, 0⟩ : XY) ≠ ⟨0, 1⟩ ∧
     (⟨1, 0⟩ : XY) ≠ ⟨0, 1⟩ ∧
     orientation ⟨0, 0⟩ ⟨1, 0⟩ ⟨0, 1⟩ = leftTurn) ∧
    ((newDCELFromGeometry
        (.polygon [[⟨0, 0⟩, ⟨1, 0⟩, ⟨0, 1⟩, ⟨0, 0⟩]]) [] 0
        [⟨0, 0⟩, ⟨1, 0⟩, ⟨0, 1⟩]).vertices.length = 3 ∧
     (newDCELFromGeometry
        (.polygon [[⟨0, 0⟩, ⟨1, 0⟩, ⟨0, 1⟩, ⟨0, 0⟩]]) [] 0
        [⟨0, 0⟩, ⟨1, 0⟩, ⟨0, 1⟩]).halfEdges.length = 6 ∧
     (newDCELFromGeometry
        (.polygon [[⟨0, 0⟩, ⟨1, 0⟩, ⟨0, 1⟩, ⟨0, 0⟩]]) [] 0
        [⟨0, 0⟩, ⟨1, 0⟩, ⟨0, 1⟩]).halfEdges.map
        (fun e => e.next) = [2, 5, 4, 1, 0, 3] ∧
     (newDCELFromGeometry
        (.polygon [[⟨0, 0⟩, ⟨1, 0⟩, ⟨0, 1⟩, ⟨0, 0⟩]]) [] 0
        [⟨0, 0⟩, ⟨1, 0⟩, ⟨0, 1⟩]).halfEdges.map
        (fun e => e.srcFace.get 0) = [true, false, true, false, true, false]) :=
  ⟨⟨by decide, by decide, by decide, by decide⟩,
    ccwTriangleDCELStructure ⟨0, 0⟩ ⟨1, 0⟩ ⟨0, 1⟩ (by decide) (by decide)
      (by decide) (by decide)⟩

/-! ## C7: totality of `convexHull` -/

/-- Panics reachable from `convexHull`: an out-of-range slice index, or the
two `err != nil` branches guarding ring and polygon construction. -/
inductive hullPanic where
  | indexOutOfRange
  | invalidRing
  | invalidPolygon
deriving DecidableEq, Repr

mutual

/-- Modelled from the spec: Go `Geometry.IsEmpty`. A point is empty when it
has no coordinate, a line string when it has no coordinates, a polygon when
its exterior ring is empty, multis when all members are empty, a collection
when all children are empty. The accessor is outside the supplied sources. -/
def geometryIsEmpty : Geometry → Bool
  | .point xy => xy.isNone
  | .lineString seq => seq.isEmpty
  | .polygon rings => (rings.headD []).isEmpty
  | .multiPoint pts => pts.all (fun pt => pt.isNone)
  | .multiLineString lss => lss.all (fun seq => seq.isEmpty)
  | .multiPolygon polys => polys.all (fun rings => (rings.headD []).isEmpty)
  | .geometryCollection gs => geometryListIsEmpty gs

def geometryListIsEmpty : List Geometry → Bool
  | [] => true
  | g :: rest => geometryIsEmpty g && geometryListIsEmpty rest

end

mutual

/-- `convexHullPointSet`: recursive descent collecting coordinates. Polygons
and multi-polygons contribute their exterior rings only; empty points
contribute nothing. -/
def convexHullPointSet : Geometry → List XY
  | .geometryCollection gs => convexHullPointSetList gs
  | .point none => []
  | .point (some xy) => [xy]
  | .lineString seq => seq
  | .polygon rings => rings.headD []
  | .multiPoint pts => pts.filterMap id
  | .multiLineString lss => lss.flatten
  | .multiPolygon polys => polys.flatMap (fun rings => rings.headD [])

def convexHullPointSetList : List Geometry → List XY
  | [] => []
  | g :: rest => convexHullPointSet g ++ convexHullPointSetList rest

end

/-- `hasAtLeast2DistinctPoints`: false on lists of fewer than two points,
otherwise whether some later point differs from the first. -/
def hasAtLeast2DistinctPoints : List XY → Bool
  | [] => false
  | p0 :: rest => rest.any (fun p => p != p0)

/-- The comparator closure passed to `sort.Slice` by `monotoneChain`:
lexicographic strict less-than on (X, Y). -/
def xyLess (p q : XY) : Bool :=
  if p.x != q.x then p.x < q.x else p.y < q.y

/-- The non-strict order induced by the comparator: `p` sorts no later than
`q` when the comparator does not place `q` strictly before `p`. -/
def xyLe (p q : XY) : Prop := xyLess q p = false

instance (p q : XY) : Decidable (xyLe p q) := by
  unfold xyLe
  infer_instance

/-- The `sort.Slice` call of `monotoneChain`. Elements equal under the strict
comparator are identical XY values, so the sorted sequence is unique and any
correct sort with the complementary non-strict order realises it. -/
def sortPoints (pts : List XY) : List XY :=
  pts.insertionSort xyLe

/-- The pop-then-push inner loop of each hull scan of `monotoneChain`: while
the stack holds at least two points and its top two points together with `p`
do not make a strict left turn, pop; finally push `p`. The stack's head is
its top (Go appends and pops at the slice's end). -/
def hullScanStep : List XY → XY → List XY
  | b :: a :: rest, p =>
      if orientation a b p != leftTurn then hullScanStep (a :: rest) p
      else p :: b :: a :: rest
  | s, p => p :: s

/-- `monotoneChain`: sort, scan left-to-right for the lower hull, scan
right-to-left for the upper hull, and join the two, dropping the duplicated
seam point at the start of the upper hull. -/
def monotoneChain (pts : List XY) : List XY :=
  let sorted := sortPoints pts
  let lower := (sorted.foldl hullScanStep []).reverse
  let upper := (sorted.reverse.foldl hullScanStep []).reverse
  lower ++ upper.drop 1

/-- `isLinearHull`: on an odd-length hull whose points just before and after
the midpoint coincide, the scan went out and back along one line; yield the
first half. Go's negative slice index on a length-1 hull surfaces as the
panic value. -/
def isLinearHull (hull : List XY) : Except hullPanic (Option (List XY)) :=
  if hull.length % 2 = 0 then .ok none
  else
    match hull[hull.length / 2 - 1]?, hull[hull.length / 2 + 1]? with
    | some p, some q =>
        if p != q then .ok none
        else .ok (some (hull.take (hull.length / 2 + 1)))
    | _, _ => .error .indexOutOfRange

/-- Modelled from the spec: `NewLineString` accepts the empty sequence and any
sequence with at least two distinct points (the constructor is outside the
supplied sources). -/
def lineStringValid (seq : Sequence) : Bool :=
  seq.isEmpty || hasAtLeast2DistinctPoints seq

/-- Modelled from the spec: `NewPolygonFromRings` on a single ring requires
the ring to be closed (first == last) and to have at least four coordinates
(a triangle plus the closing repeat); the constructor is outside the supplied
sources. -/
def singleRingPolygonValid (ring : Sequence) : Bool :=
  lineStringIsClosed ring && decide (4 ≤ ring.length)

namespace geom

/-- `convexHull`. Empty input is returned as-is (`Force2D` is the identity in
the XY-only embedding); fewer than two distinct collected points yield a
point; a linear hull yields the two-point line string; otherwise the chain is
built into a single-ring polygon, with the `err != nil` panics surfaced as
`Except.error`. -/
def convexHull (g : Geometry) : Except hullPanic Geometry :=
  if geometryIsEmpty g then .ok g
  else
    let pts := convexHullPointSet g
    if hasAtLeast2DistinctPoints pts then
      let hull := monotoneChain pts
      match isLinearHull hull with
      | .error e => .error e
      | .ok (some half) =>
          .ok (.lineString [half.headD default, half.getLastD default])
      | .ok none =>
          if lineStringValid hull then
            if singleRingPolygonValid hull then .ok (.polygon [hull])
            else .error .invalidPolygon
          else .error .invalidRing
    else
      match pts with
      | [] => .error .indexOutOfRange
      | p0 :: _ => .ok (.point (some p0))

end geom

example :
    geom.convexHull (.multiPoint [some ⟨0,0⟩, some ⟨1,1⟩]) =
      .ok (.lineString [⟨0,0⟩, ⟨1,1⟩]) := by rfl

example :
    geom.convexHull (.multiPoint [some ⟨0,0⟩, some ⟨1,0⟩, some ⟨2,0⟩,
      some ⟨3,0⟩]) = .ok (.lineString [⟨0,0⟩, ⟨3,0⟩]) := by rfl

example :
    geom.convexHull (.multiPoint [some ⟨0,0⟩, some ⟨1,0⟩, some ⟨1,1⟩,
      some ⟨0,1⟩]) =
      .ok (.polygon [[⟨0,0⟩, ⟨1,0⟩, ⟨1,1⟩, ⟨0,1⟩, ⟨0,0⟩]]) := by rfl

theorem xyLess_iff (p q : XY) :
    xyLess p q = true ↔ (p.x < q.x ∨ (p.x = q.x ∧ p.y < q.y)) := by
  unfold xyLess
  by_cases h : p.x = q.x <;> simp [h] <;> omega

theorem xyLe_iff (p q : XY) :
    xyLe p q ↔ (p.x < q.x ∨ (p.x = q.x ∧ p.y ≤ q.y)) := by
  unfold xyLe
  rw [Bool.eq_false_iff]
  simp only [ne_eq, xyLess_iff]
  omega

theorem xyLe_refl (p : XY) : xyLe p p := by
  rw [xyLe_iff]
  omega

theorem xyLe_antisymm {p q : XY} (h1 : xyLe p q) (h2 : xyLe q p) : p = q := by
  rw [xyLe_iff] at h1 h2
  cases p
  cases q
  simp only [XY.mk.injEq]
  simp only at h1 h2
  omega

instance : IsTotal XY xyLe :=
  ⟨by
    intro a b
    rw [xyLe_iff, xyLe_iff]
    omega⟩

instance : IsTrans XY xyLe :=
  ⟨by
    intro a b c h1 h2
    rw [xyLe_iff] at h1 h2 ⊢
    omega⟩

theorem sortPoints_perm (pts : List XY) : (sortPoints pts).Perm pts :=
  List.perm_insertionSort xyLe pts

theorem sortPoints_sorted (pts : List XY) : List.Sorted xyLe (sortPoints pts) :=
  List.sorted_insertionSort xyLe pts

/-- In a sorted list every element is `xyLe` its last element. -/
theorem sorted_le_getLast :
    ∀ (l : List XY) (z : XY), List.Sorted xyLe l → l.getLast? = some z →
      ∀ x ∈ l, xyLe x z
  | [], _, _, hz, _, hx => by cases hz
  | [a], z, _, hz, x, hx => by
      simp at hz hx
      subst hz hx
      exact xyLe_refl x
  | a :: b :: t, z, hs, hz, x, hx => by
      rw [List.getLast?_cons_cons] at hz
      rcases List.mem_cons.mp hx with hxa | hxbt
      · subst hxa
        have hzmem : z ∈ b :: t := getLast?_mem_list _ _ hz
        exact (List.sorted_cons.mp hs).1 z hzmem
      · exact sorted_le_getLast (b :: t) z (List.sorted_cons.mp hs).2 hz x hxbt

/-- A sorted list whose first and last elements coincide is constant. -/
theorem sorted_const_of_head_eq_getLast (l : List XY) (h : XY)
    (hs : List.Sorted xyLe l) (hh : l.head? = some h)
    (hl : l.getLast? = some h) : ∀ x ∈ l, x = h := by
  cases l with
  | nil => cases hh
  | cons a t =>
      have ha : a = h := by simpa using hh
      subst ha
      intro x hx
      have hle : xyLe x a := sorted_le_getLast _ _ hs hl x hx
      have hge : xyLe a x := by
        rcases List.mem_cons.mp hx with h1 | h2
        · subst h1; exact xyLe_refl x
        · exact (List.sorted_cons.mp hs).1 x h2
      exact xyLe_antisymm hle hge

/-- Unpacking `hasAtLeast2DistinctPoints`. -/
theorem hasAtLeast2_unpack (pts : List XY)
    (h : hasAtLeast2DistinctPoints pts = true) :
    ∃ p0 rest, pts = p0 :: rest ∧ ∃ q ∈ rest, q ≠ p0 := by
  cases pts with
  | nil => cases h
  | cons p0 rest =>
      refine ⟨p0, rest, rfl, ?_⟩
      have := List.any_eq_true.mp h
      rcases this with ⟨q, hq, hne⟩
      exact ⟨q, hq, by simpa using hne⟩

/-- Packing `hasAtLeast2DistinctPoints`: a member of the tail differing from
the head suffices. -/
theorem hasAtLeast2_pack (p0 : XY) (rest : List XY) (q : XY) (hq : q ∈ rest)
    (hne : q ≠ p0) : hasAtLeast2DistinctPoints (p0 :: rest) = true := by
  show rest.any (fun p => p != p0) = true
  exact List.any_eq_true.mpr ⟨q, hq, by simpa using hne⟩

mutual

/-- A non-empty geometry collects a non-empty point set. -/
theorem convexHullPointSet_ne_nil (g : Geometry) :
    geometryIsEmpty g = false → convexHullPointSet g ≠ [] :=
  match g with
  | .point none => fun he => by cases he
  | .point (some xy) => fun _ => by simp [convexHullPointSet]
  | .lineString seq => fun he => by
      show seq ≠ []
      simpa [geometryIsEmpty] using he
  | .polygon rings => fun he => by
      show rings.headD [] ≠ []
      simpa [geometryIsEmpty] using he
  | .multiPoint pts => fun he => by
      show pts.filterMap id ≠ []
      have : ∃ pt ∈ pts, ¬pt.isNone = true := by
        simpa [geometryIsEmpty, List.all_eq_true] using he
      rcases this with ⟨pt, hpt, hne⟩
      cases pt with
      | none => simp at hne
      | some xy =>
          exact List.ne_nil_of_mem (List.mem_filterMap.mpr ⟨some xy, hpt, rfl⟩)
  | .multiLineString lss => fun he => by
      show lss.flatten ≠ []
      have : ∃ seq ∈ lss, ¬seq.isEmpty = true := by
        simpa [geometryIsEmpty, List.all_eq_true] using he
      rcases this with ⟨seq, hseq, hne⟩
      rcases seq with _ | ⟨x, t⟩
      · simp at hne
      · exact List.ne_nil_of_mem
          (List.mem_flatten.mpr ⟨x :: t, hseq, List.mem_cons_self x t⟩)
  | .multiPolygon polys => fun he => by
      show polys.flatMap (fun rings => rings.headD []) ≠ []
      have : ∃ rings ∈ polys, ¬(rings.headD []).isEmpty = true := by
        simpa [geometryIsEmpty, List.all_eq_true] using he
      rcases this with ⟨rings, hr, hne⟩
      rcases hext : rings.headD [] with _ | ⟨x, t⟩
      · rw [hext] at hne; simp at hne
      · have hx : x ∈ polys.flatMap (fun rings => rings.headD []) :=
          List.mem_flatMap.mpr ⟨rings, hr, by rw [hext]; exact List.mem_cons_self x t⟩
        exact List.ne_nil_of_mem hx
  | .geometryCollection gs => fun he =>
      convexHullPointSetList_ne_nil gs (by simpa [geometryIsEmpty] using he)

theorem convexHullPointSetList_ne_nil (gs : List Geometry) :
    geometryListIsEmpty gs = false → convexHullPointSetList gs ≠ [] :=
  match gs with
  | [] => fun he => by cases he
  | g :: rest => fun he => by
      show convexHullPointSet g ++ convexHullPointSetList rest ≠ []
      have : geometryIsEmpty g = false ∨ geometryListIsEmpty rest = false := by
        have hand : (geometryIsEmpty g && geometryListIsEmpty rest) = false := he
        rcases Bool.and_eq_false_iff.mp hand with h | h
        · exact Or.inl h
        · exact Or.inr h
      rcases this with h | h
      · have := convexHullPointSet_ne_nil g h
        intro hc
        exact this (List.append_eq_nil.mp hc).1
      · have := convexHullPointSetList_ne_nil rest h
        intro hc
        exact this (List.append_eq_nil.mp hc).2

end

/-- A hull scan step always ends by pushing the new point. -/
theorem hullScanStep_head :
    ∀ (s : List XY) (p : XY), (hullScanStep s p).head? = some p
  | [], _ => rfl
  | [_], _ => rfl
  | b :: a :: rest, p => by
      show (if orientation a b p != leftTurn then hullScanStep (a :: rest) p
        else p :: b :: a :: rest).head? = some p
      split
      · exact hullScanStep_head (a :: rest) p
      · rfl

/-- On a non-empty stack, a hull scan step keeps the bottom element and leaves
at least two elements. -/
theorem hullScanStep_of_ne_nil :
    ∀ (s : List XY) (p : XY), s ≠ [] →
      2 ≤ (hullScanStep s p).length ∧ (hullScanStep s p).getLast? = s.getLast?
  | [], _, h => absurd rfl h
  | [a], p, _ => by
      show 2 ≤ ([p, a] : List XY).length ∧ ([p, a] : List XY).getLast? = [a].getLast?
      exact ⟨by simp, by simp⟩
  | b :: a :: rest, p, _ => by
      show 2 ≤ (if orientation a b p != leftTurn then hullScanStep (a :: rest) p
          else p :: b :: a :: rest).length ∧
        (if orientation a b p != leftTurn then hullScanStep (a :: rest) p
          else p :: b :: a :: rest).getLast? = (b :: a :: rest).getLast?
      split
      · have := hullScanStep_of_ne_nil (a :: rest) p (by simp)
        exact ⟨this.1, by rw [this.2, List.getLast?_cons_cons]⟩
      · exact ⟨by simp, by rw [List.getLast?_cons_cons]⟩

/-- The fold of hull scan steps over a non-empty starting stack: the result is
non-empty, keeps the starting stack's bottom, and once at least one point has
been processed it has at least two elements and its top is the last point. -/
theorem hullFold_facts (xs : List XY) :
    ∀ (s : List XY), s ≠ [] →
      (xs.foldl hullScanStep s) ≠ [] ∧
      (xs.foldl hullScanStep s).getLast? = s.getLast? ∧
      (xs ≠ [] → 2 ≤ (xs.foldl hullScanStep s).length ∧
        (xs.foldl hullScanStep s).head? = xs.getLast?) := by
  induction xs with
  | nil =>
      intro s hs
      exact ⟨hs, rfl, fun h => absurd rfl h⟩
  | cons x xs ih =>
      intro s hs
      rw [List.foldl_cons]
      have hstep := hullScanStep_of_ne_nil s x hs
      have hhead := hullScanStep_head s x
      have hne : hullScanStep s x ≠ [] := by
        intro hc
        rw [hc] at hhead
        cases hhead
      have := ih (hullScanStep s x) hne
      refine ⟨this.1, by rw [this.2.1, hstep.2], fun _ => ?_⟩
      cases xs with
      | nil =>
          refine ⟨by simpa using hstep.1, ?_⟩
          show (hullScanStep s x).head? = some x
          exact hhead
      | cons y ys =>
          have h4 := this.2.2 (by simp)
          refine ⟨h4.1, ?_⟩
          rw [h4.2, List.getLast?_cons_cons]

theorem getLast?_drop_one {α : Type} (u : List α) (h : 2 ≤ u.length) :
    (u.drop 1).getLast? = u.getLast? := by
  match u, h with
  | a :: b :: t, _ =>
      show (b :: t).getLast? = (a :: b :: t).getLast?
      rw [List.getLast?_cons_cons]

/-- The chain of `monotoneChain` on a point set with two distinct points: at
least 3 points, closed (its first and last points coincide), and itself a
sequence with two distinct points. -/
theorem monotoneChain_facts (pts : List XY)
    (h2 : hasAtLeast2DistinctPoints pts = true) :
    3 ≤ (monotoneChain pts).length ∧
    (monotoneChain pts).head? = (monotoneChain pts).getLast? ∧
    hasAtLeast2DistinctPoints (monotoneChain pts) = true := by
  obtain ⟨p0, rest, hpts, q, hq, hqne⟩ := hasAtLeast2_unpack pts h2
  have hperm := sortPoints_perm pts
  have hlen : 2 ≤ (sortPoints pts).length := by
    rw [hperm.length_eq, hpts]
    have hr : 0 < rest.length := List.length_pos.mpr (List.ne_nil_of_mem hq)
    simp
    omega
  rcases hst : sortPoints pts with _ | ⟨s0, _ | ⟨s1, srest⟩⟩
  · rw [hst] at hlen; cases hlen
  · rw [hst] at hlen; simp at hlen
  rcases hrev : (sortPoints pts).reverse with _ | ⟨z, ys⟩
  · have : (sortPoints pts).length = 0 := by
      rw [← List.length_reverse, hrev]
      rfl
    omega
  have hzsortLast : (sortPoints pts).getLast? = some z := by
    rw [← List.head?_reverse, hrev]
    rfl
  have hz : (s1 :: srest).getLast? = some z := by
    have h1 := hzsortLast
    rw [hst, List.getLast?_cons_cons] at h1
    exact h1
  have hs0z : s0 ≠ z := by
    intro heq
    have hconst := sorted_const_of_head_eq_getLast (sortPoints pts) s0
      (sortPoints_sorted pts) (by rw [hst]; rfl) (by rw [hzsortLast, heq])
    have hp0 : p0 = s0 :=
      hconst p0 (hperm.mem_iff.mpr (by rw [hpts]; exact List.mem_cons_self _ _))
    have hqeq : q = s0 :=
      hconst q (hperm.mem_iff.mpr (by rw [hpts]; exact List.mem_cons_of_mem _ hq))
    exact hqne (hqeq.trans hp0.symm)
  have hMC : monotoneChain pts =
      ((sortPoints pts).foldl hullScanStep []).reverse ++
        (((sortPoints pts).reverse.foldl hullScanStep []).reverse).drop 1 := rfl
  -- lower scan
  have hrfold : (sortPoints pts).foldl hullScanStep [] =
      (s1 :: srest).foldl hullScanStep [s0] := by
    rw [hst, List.foldl_cons]
    rfl
  have hrfacts := hullFold_facts (s1 :: srest) [s0] (by simp)
  have hr4 := hrfacts.2.2 (by simp)
  have hlowhead : ((sortPoints pts).foldl hullScanStep []).reverse.head? =
      some s0 := by
    rw [List.head?_reverse, hrfold, hrfacts.2.1]
    rfl
  have hlowlast : ((sortPoints pts).foldl hullScanStep []).reverse.getLast? =
      some z := by
    rw [List.getLast?_reverse, hrfold, hr4.2, hz]
  have hlowlen : 2 ≤ ((sortPoints pts).foldl hullScanStep []).reverse.length := by
    rw [List.length_reverse, hrfold]
    exact hr4.1
  -- upper scan
  have hys : ys ≠ [] := by
    intro hc
    have : (sortPoints pts).length = 1 := by
      rw [← List.length_reverse, hrev, hc]
      rfl
    omega
  have hysLast : ys.getLast? = some s0 := by
    have h1 : (z :: ys).getLast? = some s0 := by
      rw [← hrev, List.getLast?_reverse, hst]
      rfl
    cases ys with
    | nil => exact absurd rfl hys
    | cons y ys2 => rw [← h1, List.getLast?_cons_cons]
  have hufold : (sortPoints pts).reverse.foldl hullScanStep [] =
      ys.foldl hullScanStep [z] := by
    rw [hrev, List.foldl_cons]
    rfl
  have hufacts := hullFold_facts ys [z] (by simp)
  have hu4 := hufacts.2.2 hys
  have hupphead : ((sortPoints pts).reverse.foldl hullScanStep []).reverse.head? =
      some z := by
    rw [List.head?_reverse, hufold, hufacts.2.1]
    rfl
  have hupplast : ((sortPoints pts).reverse.foldl hullScanStep []).reverse.getLast? =
      some s0 := by
    rw [List.getLast?_reverse, hufold, hu4.2, hysLast]
  have hupplen : 2 ≤ ((sortPoints pts).reverse.foldl hullScanStep []).reverse.length := by
    rw [List.length_reverse, hufold]
    exact hu4.1
  -- assemble
  set lower := ((sortPoints pts).foldl hullScanStep []).reverse with hlowdef
  set upper := ((sortPoints pts).reverse.foldl hullScanStep []).reverse with huppdef
  have hdropne : upper.drop 1 ≠ [] := by
    intro hc
    have : upper.length - 1 = 0 := by
      rw [← List.length_drop, hc]
      rfl
    omega
  have hhullhead : (monotoneChain pts).head? = some s0 := by
    rw [hMC]
    cases hlow : lower with
    | nil => rw [hlow] at hlowhead; cases hlowhead
    | cons a t =>
        rw [hlow] at hlowhead
        simpa using hlowhead
  have hhulllast : (monotoneChain pts).getLast? = some s0 := by
    rw [hMC, List.getLast?_append, getLast?_drop_one upper hupplen, hupplast]
    rfl
  have hhulllen : 3 ≤ (monotoneChain pts).length := by
    rw [hMC, List.length_append, List.length_drop]
    omega
  refine ⟨hhulllen, by rw [hhullhead, hhulllast], ?_⟩
  have hzhull : z ∈ monotoneChain pts := by
    rw [hMC]
    exact List.mem_append_left _ (getLast?_mem_list _ _ hlowlast)
  cases hhull : monotoneChain pts with
  | nil => rw [hhull] at hhullhead; cases hhullhead
  | cons h0 hrest =>
      rw [hhull] at hhullhead hzhull
      have h00 : h0 = s0 := by simpa using hhullhead
      subst h00
      have hzrest : z ∈ hrest := by
        rcases List.mem_cons.mp hzhull with h | h
        · exact absurd h.symm hs0z
        · exact h
      exact hasAtLeast2_pack h0 hrest z hzrest (fun hc => hs0z hc.symm)

/-- On hulls of length ≥ 3, the linearity probe never hits an out-of-range
index. -/
theorem isLinearHull_ne_error (hull : List XY) (h3 : 3 ≤ hull.length) :
    ∀ e, isLinearHull hull ≠ .error e := by
  intro e
  unfold isLinearHull
  by_cases hpar : hull.length % 2 = 0
  · rw [if_pos hpar]
    intro hc
    cases hc
  · rw [if_neg hpar]
    have hi1 : hull.length / 2 - 1 < hull.length := by omega
    have hi2 : hull.length / 2 + 1 < hull.length := by omega
    rw [List.getElem?_eq_getElem hi1, List.getElem?_eq_getElem hi2]
    dsimp only
    split
    · intro hc
      cases hc
    · intro hc
      cases hc

/-- A closed 3-point hull is always classified as linear. -/
theorem isLinearHull_of_length_three (hull : List XY)
    (h3 : hull.length = 3) (hc : hull.head? = hull.getLast?) :
    ∃ half, isLinearHull hull = .ok (some half) := by
  match hull, h3 with
  | [a, b, c], _ =>
      have hac : a = c := by simpa using hc
      subst hac
      refine ⟨[a, b], ?_⟩
      simp [isLinearHull]

/-- C7: `convexHull` returns normally on every input geometry — the panic
branches guarding ring and polygon construction (and the point-index and
linearity-probe accesses) are unreachable. -/
theorem convexHullReturnsNormally (g : Geometry) :
    ∃ out, geom.convexHull g = .ok out := by
  unfold geom.convexHull
  by_cases hemp : geometryIsEmpty g = true
  · rw [if_pos hemp]
    exact ⟨g, rfl⟩
  · rw [if_neg hemp]
    dsimp only
    by_cases h2 : hasAtLeast2DistinctPoints (convexHullPointSet g) = true
    · rw [if_pos h2]
      obtain ⟨hlen3, hclosed, h2dh⟩ :=
        monotoneChain_facts (convexHullPointSet g) h2
      cases hLH : isLinearHull (monotoneChain (convexHullPointSet g)) with
      | error e => exact absurd hLH (isLinearHull_ne_error _ hlen3 e)
      | ok v =>
          cases v with
          | some half => exact ⟨_, rfl⟩
          | none =>
              have hval1 : lineStringValid (monotoneChain (convexHullPointSet g))
                  = true := by
                simp [lineStringValid, h2dh]
              have hclosedB : lineStringIsClosed
                  (monotoneChain (convexHullPointSet g)) = true := by
                simp [lineStringIsClosed, hclosed]
              have hlen4 : 4 ≤ (monotoneChain (convexHullPointSet g)).length := by
                rcases Nat.lt_or_ge (monotoneChain (convexHullPointSet g)).length 4
                  with hlt | hge
                · exfalso
                  have h3 : (monotoneChain (convexHullPointSet g)).length = 3 := by
                    omega
                  obtain ⟨half, hhalf⟩ :=
                    isLinearHull_of_length_three _ h3 hclosed
                  rw [hLH] at hhalf
                  cases hhalf
                · exact hge
              have hval2 : singleRingPolygonValid
                  (monotoneChain (convexHullPointSet g)) = true := by
                simp [singleRingPolygonValid, hclosedB, hlen4]
              rw [if_pos hval1, if_pos hval2]
              exact ⟨_, rfl⟩
    · rw [if_neg h2]
      rw [Bool.not_eq_true] at hemp
      have hne := convexHullPointSet_ne_nil g hemp
      cases hpts : convexHullPointSet g with
      | nil => exact absurd hpts hne
      | cons a t => exact ⟨.point (some a), rfl⟩

/-! ## C10: termination and coverage of `forEachNonInteractingSegment` -/

/-- When the final coordinate interacts, every inner scan from a start index
before the end finds an end index strictly beyond the start and within the
sequence. -/
theorem findSegmentEnd_gt (seq : Sequence) (ia : List XY) (z : XY)
    (hz : seq.getLast? = some z) (hmem : xySetMember ia z = true)
    (i : Nat) (hi : i < seq.length - 1) :
    i < findSegmentEnd seq ia i ∧ findSegmentEnd seq ia i < seq.length := by
  have hdroplast : (seq.drop (i + 1)).getLast? = some z := by
    rw [List.getLast?_drop, if_neg (by omega), hz]
  have hzmem : z ∈ seq.drop (i + 1) := getLast?_mem_list _ _ hdroplast
  have hfind : (seq.drop (i + 1)).findIdx?
      (fun xy => xySetMember ia xy) ≠ none := by
    intro hc
    exact absurd hmem (by simpa using List.findIdx?_eq_none_iff.mp hc z hzmem)
  rcases hk : (seq.drop (i + 1)).findIdx? (fun xy => xySetMember ia xy) with
    _ | k
  · exact absurd hk hfind
  · have hklt : k < (seq.drop (i + 1)).length :=
      (List.findIdx?_eq_some_iff_findIdx_eq.mp hk).1
    rw [List.length_drop] at hklt
    unfold findSegmentEnd
    rw [hk]
    dsimp only
    omega

/-- The loop of `forEachNonInteractingSegment`, with enough fuel and an
interacting final coordinate: it returns segments that run from index `i` to
the end of the sequence, each at least two points long, consecutive segments
sharing an endpoint. -/
theorem nonInteractingLoop_facts (seq : Sequence) (ia : List XY) (z : XY)
    (hz : seq.getLast? = some z) (hmem : xySetMember ia z = true) :
    ∀ (fuel i : Nat), seq.length ≤ i + 1 + fuel → i < seq.length →
      ∃ segs, nonInteractingSegmentsLoop seq ia fuel i = some segs ∧
        (i < seq.length - 1 →
          segs ≠ [] ∧
          segs.head?.bind List.head? = seq[i]? ∧
          (segs.getLast?).bind List.getLast? = seq.getLast? ∧
          List.Chain' (fun s1 s2 => s1.getLast? = s2.head?) segs ∧
          ∀ s ∈ segs, 2 ≤ s.length) ∧
        (seq.length - 1 ≤ i → segs = []) := by
  intro fuel
  induction fuel with
  | zero =>
      intro i hfuel hi
      refine ⟨[], ?_, fun hlt => by omega, fun _ => rfl⟩
      show (if i < seq.length - 1 then none else some []) = some []
      rw [if_neg (by omega)]
  | succ fuel ih =>
      intro i hfuel hi
      by_cases hend : seq.length - 1 ≤ i
      · refine ⟨[], ?_, fun hlt => by omega, fun _ => rfl⟩
        show (if i < seq.length - 1 then _ else some []) = some []
        rw [if_neg (by omega)]
      · have hilt : i < seq.length - 1 := by omega
        obtain ⟨hgt, hlt⟩ := findSegmentEnd_gt seq ia z hz hmem i hilt
        obtain ⟨segs2, hsegs2, hstruct2, hnil2⟩ :=
          ih (findSegmentEnd seq ia i) (by omega) hlt
        have hseglen : ((seq.drop i).take (findSegmentEnd seq ia i + 1 - i)).length
            = findSegmentEnd seq ia i + 1 - i := by
          rw [List.length_take, List.length_drop]
          omega
        have hseghead : ((seq.drop i).take (findSegmentEnd seq ia i + 1 - i)).head?
            = seq[i]? := by
          rw [List.head?_take, if_neg (by omega), List.head?_drop]
        have hseglast : ((seq.drop i).take (findSegmentEnd seq ia i + 1 - i)).getLast?
            = seq[findSegmentEnd seq ia i]? := by
          rw [List.getLast?_eq_getElem?, hseglen, List.getElem?_take,
            if_pos (by omega), List.getElem?_drop]
          have : i + (findSegmentEnd seq ia i + 1 - i - 1) = findSegmentEnd seq ia i := by
            omega
          rw [this]
        have hloop : nonInteractingSegmentsLoop seq ia (fuel + 1) i =
            some ((seq.drop i).take (findSegmentEnd seq ia i + 1 - i) :: segs2) := by
          show (if i < seq.length - 1 then _ else some []) = _
          rw [if_pos hilt]
          dsimp only
          rw [hsegs2]
        refine ⟨_, hloop, fun _ => ?_, fun hge => by omega⟩
        by_cases hend2 : seq.length - 1 ≤ findSegmentEnd seq ia i
        · have hsegs2nil : segs2 = [] := hnil2 hend2
          subst hsegs2nil
          refine ⟨by simp, by simpa using hseghead, ?_, by simp, ?_⟩
          · have heq : findSegmentEnd seq ia i = seq.length - 1 := by omega
            have h1 : (([(seq.drop i).take (findSegmentEnd seq ia i + 1 - i)]
                : List Sequence).getLast?).bind List.getLast?
                = ((seq.drop i).take (findSegmentEnd seq ia i + 1 - i)).getLast? := by
              simp
            rw [h1, hseglast, heq, ← List.getLast?_eq_getElem?]
          · intro s hs
            rw [List.mem_singleton] at hs
            subst hs
            rw [hseglen]
            omega
        · obtain ⟨hnil, hhead2, hlast2, hchain2, hlens2⟩ := hstruct2 (by omega)
          rcases segs2 with _ | ⟨s1, rest2⟩
          · exact absurd rfl hnil
          refine ⟨by simp, by simpa using hseghead, ?_, ?_, ?_⟩
          · rw [List.getLast?_cons_cons]
            exact hlast2
          · rw [List.chain'_cons]
            refine ⟨?_, hchain2⟩
            have hs1 : s1.head? = seq[findSegmentEnd seq ia i]? := by
              simpa using hhead2
            rw [hseglast, hs1]
          · intro s hs
            rcases List.mem_cons.mp hs with h | h
            · subst h
              rw [hseglen]
              omega
            · exact hlens2 s h

/-- C10: on a sequence of length ≥ 2 whose final coordinate is in the
interaction set, `forEachNonInteractingSegment` terminates (the fuelled loop
returns under `seq.length` units of fuel): every inner scan finds an end
index strictly greater than its start, and the emitted segments run from the
sequence's first coordinate to its last, each at least two points long, with
consecutive segments sharing an endpoint. -/
theorem forEachNonInteractingSegmentTermination (seq : Sequence) (ia : List XY)
    (h2 : 2 ≤ seq.length) (z : XY) (hz : seq.getLast? = some z)
    (hmem : xySetMember ia z = true) :
    ∃ segs, nonInteractingSegments seq ia = some segs ∧
      segs ≠ [] ∧
      segs.head?.bind List.head? = seq.head? ∧
      (segs.getLast?).bind List.getLast? = seq.getLast? ∧
      List.Chain' (fun s1 s2 => s1.getLast? = s2.head?) segs ∧
      (∀ s ∈ segs, 2 ≤ s.length) ∧
      ∀ i, i < seq.length - 1 → i < findSegmentEnd seq ia i := by
  obtain ⟨segs, hloop, hstruct, _⟩ :=
    nonInteractingLoop_facts seq ia z hz hmem seq.length 0 (by omega) (by omega)
  obtain ⟨hnil, hhead, hlast, hchain, hlens⟩ := hstruct (by omega)
  refine ⟨segs, hloop, hnil, ?_, hlast, hchain, hlens, ?_⟩
  · rw [hhead, ← List.head?_eq_getElem?]
  · intro i hi
    exact (findSegmentEnd_gt seq ia z hz hmem i hi).1

/-- Witness for C10 on a four-point sequence with three interaction points. -/
theorem forEachNonInteractingSegmentTerminationWitness :
    (2 ≤ ([⟨0,0⟩, ⟨1,0⟩, ⟨2,0⟩, ⟨3,0⟩] : Sequence).length ∧
     ([⟨0,0⟩, ⟨1,0⟩, ⟨2,0⟩, ⟨3,0⟩] : Sequence).getLast? = some ⟨3,0⟩ ∧
     xySetMember [⟨0,0⟩, ⟨2,0⟩, ⟨3,0⟩] ⟨3,0⟩ = true) ∧
    (∃ segs, nonInteractingSegments [⟨0,0⟩, ⟨1,0⟩, ⟨2,0⟩, ⟨3,0⟩]
        [⟨0,0⟩, ⟨2,0⟩, ⟨3,0⟩] = some segs ∧
      segs ≠ [] ∧
      segs.head?.bind List.head? =
        ([⟨0,0⟩, ⟨1,0⟩, ⟨2,0⟩, ⟨3,0⟩] : Sequence).head? ∧
      (segs.getLast?).bind List.getLast? =
        ([⟨0,0⟩, ⟨1,0⟩, ⟨2,0⟩, ⟨3,0⟩] : Sequence).getLast? ∧
      List.Chain' (fun s1 s2 => s1.getLast? = s2.head?) segs ∧
      (∀ s ∈ segs, 2 ≤ s.length) ∧
      ∀ i, i < ([⟨0,0⟩, ⟨1,0⟩, ⟨2,0⟩, ⟨3,0⟩] : Sequence).length - 1 →
        i < findSegmentEnd [⟨0,0⟩, ⟨1,0⟩, ⟨2,0⟩, ⟨3,0⟩] [⟨0,0⟩, ⟨2,0⟩, ⟨3,0⟩] i) :=
  ⟨⟨by decide, by decide, by decide⟩,
    forEachNonInteractingSegmentTermination [⟨0,0⟩, ⟨1,0⟩, ⟨2,0⟩, ⟨3,0⟩]
      [⟨0,0⟩, ⟨2,0⟩, ⟨3,0⟩] (by decide) ⟨3,0⟩ (by decide) (by decide)⟩

/-! ## C8: idempotence of `convexHull`

The development below analyses the hull scans: cross-product algebra for the
lexicographic half-plane, the scan-stack invariants (strict descent, strict
convexity, spanned dominance), uniqueness of mutually dominating convex
chains, and the per-branch idempotence assembly. -/

/-- Vector cross product of two XYs viewed as vectors. -/
def cross2 (u v : XY) : Int := u.x * v.y - u.y * v.x

/-- Coordinatewise difference. -/
def xySub (a b : XY) : XY := ⟨a.x - b.x, a.y - b.y⟩

/-- Point negation (mirrors the plane through the origin; used to reduce the
right-to-left upper scan to an ascending scan). -/
def negP (p : XY) : XY := ⟨-p.x, -p.y⟩

/-- Lexicographically strictly positive vector. -/
def lexPos (v : XY) : Prop := 0 < v.x ∨ (v.x = 0 ∧ 0 < v.y)

/-- Lexicographically non-negative vector. -/
def lexNN (v : XY) : Prop := 0 < v.x ∨ (v.x = 0 ∧ 0 ≤ v.y)

theorem crossProd_eq_cross2 (a b c : XY) :
    crossProd a b c = cross2 (xySub b a) (xySub c a) := by
  unfold crossProd cross2 xySub
  ring

theorem lexPos_xySub_iff (a b : XY) :
    lexPos (xySub b a) ↔ xyLess a b = true := by
  unfold lexPos xySub
  rw [xyLess_iff]
  constructor <;> (intro h; rcases h with h | h) <;> simp_all <;> omega

theorem lexNN_xySub_iff (a b : XY) : lexNN (xySub b a) ↔ xyLe a b := by
  unfold lexNN xySub
  rw [xyLe_iff]
  constructor <;> (intro h; rcases h with h | h) <;> simp_all <;> omega

theorem cross2_identity (W P Q : XY) :
    W.x * cross2 P Q = P.x * cross2 W Q - Q.x * cross2 W P := by
  unfold cross2
  ring

/-- Angular order in the lexicographic half-plane (weak form): if `P` is
clockwise of `W` and `Q` counter-clockwise of `W`, then `Q` is
counter-clockwise of `P`. -/
theorem cross2_rot_weak (W P Q : XY) (hW : lexPos W) (hP : lexNN P)
    (hQ : lexNN Q) (h1 : cross2 W P ≤ 0) (h2 : 0 ≤ cross2 W Q) :
    0 ≤ cross2 P Q := by
  have hid := cross2_identity W P Q
  rcases hW with hWx | ⟨hWx, hWy⟩
  · rcases hP with hPx | ⟨hPx, hPy⟩ <;> rcases hQ with hQx | ⟨hQx, hQy⟩
    · nlinarith [mul_nonneg (le_of_lt hPx) h2,
        mul_nonneg (le_of_lt hQx) (neg_nonneg.mpr h1)]
    · nlinarith [mul_nonneg (le_of_lt hPx) h2]
    · nlinarith [mul_nonneg (le_of_lt hQx) (neg_nonneg.mpr h1)]
    · have hz : cross2 P Q = 0 := by
        unfold cross2
        rw [hPx, hQx]
        ring
      omega
  · have hQx0 : Q.x ≤ 0 := by
      have : cross2 W Q = -(W.y * Q.x) := by
        unfold cross2
        rw [hWx]
        ring
      nlinarith [h2, this]
    rcases hQ with hQx | ⟨hQx, hQy⟩
    · omega
    · have hcPQ : cross2 P Q = P.x * Q.y := by
        unfold cross2
        rw [hQx]
        ring
      rcases hP with hPx | ⟨hPx, hPy⟩
      · nlinarith [hcPQ]
      · nlinarith [hcPQ]

/-- Strict variant: a strictly clockwise `P` forces a strict conclusion. -/
theorem cross2_rot_strict_h1 (W P Q : XY) (hW : lexPos W) (hP : lexNN P)
    (hQ : lexPos Q) (h1 : cross2 W P < 0) (h2 : 0 ≤ cross2 W Q) :
    0 < cross2 P Q := by
  have hid := cross2_identity W P Q
  rcases hW with hWx | ⟨hWx, hWy⟩
  · have hPx : 0 < P.x := by
      rcases hP with h | ⟨hx0, hy0⟩
      · exact h
      · exfalso
        have : cross2 W P = W.x * P.y := by
          unfold cross2
          rw [hx0]
          ring
        nlinarith [this]
    rcases hQ with hQx | ⟨hQx, hQy⟩
    · nlinarith [mul_nonneg (le_of_lt hPx) h2, mul_pos hQx (neg_pos.mpr h1)]
    · have hcWQ : cross2 W Q = W.x * Q.y := by
        unfold cross2
        rw [hQx]
        ring
      nlinarith [hcWQ, mul_pos hPx (mul_pos hWx hQy)]
  · have hPx : 0 < P.x := by
      have : cross2 W P = -(W.y * P.x) := by
        unfold cross2
        rw [hWx]
        ring
      nlinarith [this]
    have hQx0 : Q.x ≤ 0 := by
      have : cross2 W Q = -(W.y * Q.x) := by
        unfold cross2
        rw [hWx]
        ring
      nlinarith [this]
    rcases hQ with hQx | ⟨hQx, hQy⟩
    · omega
    · have : cross2 P Q = P.x * Q.y := by
        unfold cross2
        rw [hQx]
        ring
      nlinarith [this]

/-- Strict variant: a strictly counter-clockwise `Q` forces a strict
conclusion. -/
theorem cross2_rot_strict_h2 (W P Q : XY) (hW : lexPos W) (hP : lexPos P)
    (hQ : lexNN Q) (h1 : cross2 W P ≤ 0) (h2 : 0 < cross2 W Q) :
    0 < cross2 P Q := by
  have hid := cross2_identity W P Q
  rcases hW with hWx | ⟨hWx, hWy⟩
  · have hPx : 0 < P.x := by
      rcases hP with h | ⟨hx0, hy0⟩
      · exact h
      · exfalso
        have : cross2 W P = W.x * P.y := by
          unfold cross2
          rw [hx0]
          ring
        nlinarith [this]
    rcases hQ with hQx | ⟨hQx, hQy⟩
    · nlinarith [mul_pos hPx h2, mul_nonneg (le_of_lt hQx) (neg_nonneg.mpr h1)]
    · nlinarith [mul_pos hPx h2]
  · exfalso
    have : cross2 W Q = -(W.y * Q.x) := by
      unfold cross2
      rw [hWx]
      ring
    have hQx0 : Q.x < 0 := by nlinarith [this]
    rcases hQ with h | ⟨hx0, _⟩
    · omega
    · omega

theorem lexPos_imp_lexNN (v : XY) (h : lexPos v) : lexNN v := by
  unfold lexPos at h
  unfold lexNN
  omega

theorem cross2_anticomm (u v : XY) : cross2 u v = -cross2 v u := by
  unfold cross2
  ring

theorem cross2_neg_right (u v : XY) : cross2 u (negP v) = -cross2 u v := by
  unfold cross2 negP
  ring

theorem crossProd_cyclic (a b c : XY) : crossProd a b c = crossProd b c a := by
  unfold crossProd
  ring

theorem crossProd_swap12 (a b c : XY) : crossProd b a c = -crossProd a b c := by
  unfold crossProd
  ring

theorem crossProd_swap23 (a b c : XY) : crossProd a c b = -crossProd a b c := by
  unfold crossProd
  ring

theorem crossProd_swap13 (a b c : XY) : crossProd c b a = -crossProd a b c := by
  unfold crossProd
  ring

theorem crossProd_self23 (a b : XY) : crossProd a b b = 0 := by
  unfold crossProd
  ring

theorem crossProd_self12 (a b : XY) : crossProd a a b = 0 := by
  unfold crossProd
  ring

theorem crossProd_neg (a b c : XY) :
    crossProd (negP a) (negP b) (negP c) = crossProd a b c := by
  unfold crossProd negP
  ring

theorem xyLess_neg_iff (a b : XY) :
    xyLess (negP a) (negP b) = true ↔ xyLess b a = true := by
  rw [xyLess_iff, xyLess_iff]
  unfold negP
  simp only
  omega

theorem xyLe_neg_iff (a b : XY) : xyLe (negP a) (negP b) ↔ xyLe b a := by
  rw [xyLe_iff, xyLe_iff]
  unfold negP
  simp only
  omega

theorem orientation_left_iff (a b c : XY) :
    orientation a b c = leftTurn ↔ 0 < crossProd a b c := by
  unfold orientation
  split
  · simp_all
  · split <;> simp_all <;> omega

theorem popCond_iff (a b p : XY) :
    ((orientation a b p != leftTurn) = true) ↔ crossProd a b p ≤ 0 := by
  rw [bne_iff_ne, ne_eq]
  rw [not_iff_comm, orientation_left_iff]
  omega

theorem xyLess_of_xyLe_ne {a b : XY} (h : xyLe a b) (hne : a ≠ b) :
    xyLess a b = true := by
  rw [xyLe_iff] at h
  rw [xyLess_iff]
  rcases h with h | ⟨hx, hy⟩
  · exact Or.inl h
  · refine Or.inr ⟨hx, ?_⟩
    rcases Int.lt_or_le a.y b.y with h2 | h2
    · exact h2
    · exfalso
      have hyy : a.y = b.y := by omega
      exact hne (by cases a; cases b; simp_all)

theorem xyLe_of_xyLess {a b : XY} (h : xyLess a b = true) : xyLe a b := by
  rw [xyLess_iff] at h
  rw [xyLe_iff]
  omega

theorem xyLess_ne {a b : XY} (h : xyLess a b = true) : a ≠ b := by
  rw [xyLess_iff] at h
  intro hc
  subst hc
  omega

theorem xyLess_trans {a b c : XY} (h1 : xyLess a b = true)
    (h2 : xyLess b c = true) : xyLess a c = true := by
  rw [xyLess_iff] at h1 h2 ⊢
  omega

theorem xyLess_le_trans {a b c : XY} (h1 : xyLess a b = true) (h2 : xyLe b c) :
    xyLess a c = true := by
  rw [xyLess_iff] at h1 ⊢
  rw [xyLe_iff] at h2
  omega

theorem xyLe_less_trans {a b c : XY} (h1 : xyLe a b) (h2 : xyLess b c = true) :
    xyLess a c = true := by
  rw [xyLess_iff] at h2 ⊢
  rw [xyLe_iff] at h1
  omega

/-- Weak transfer at a shared base vertex `t`: if `p` is on or clockwise of
the ray `t → w` and `q` on or counter-clockwise of it, `q` is on or
counter-clockwise of the ray `t → p`. -/
theorem crossTransfer (t w p q : XY) (htw : xyLess t w = true) (htp : xyLe t p)
    (htq : xyLe t q) (h1 : crossProd t w p ≤ 0) (h2 : 0 ≤ crossProd t w q) :
    0 ≤ crossProd t p q := by
  rw [crossProd_eq_cross2] at h1 h2 ⊢
  exact cross2_rot_weak _ _ _ ((lexPos_xySub_iff t w).mpr htw)
    ((lexNN_xySub_iff t p).mpr htp) ((lexNN_xySub_iff t q).mpr htq) h1 h2

theorem crossTransferStrictH2 (t w p q : XY) (htw : xyLess t w = true)
    (htp : xyLess t p = true) (htq : xyLe t q) (h1 : crossProd t w p ≤ 0)
    (h2 : 0 < crossProd t w q) : 0 < crossProd t p q := by
  rw [crossProd_eq_cross2] at h1 h2 ⊢
  exact cross2_rot_strict_h2 _ _ _ ((lexPos_xySub_iff t w).mpr htw)
    ((lexPos_xySub_iff t p).mpr htp) ((lexNN_xySub_iff t q).mpr htq) h1 h2

theorem crossTransferStrictH1 (t w p q : XY) (htw : xyLess t w = true)
    (htp : xyLe t p) (htq : xyLess t q = true) (h1 : crossProd t w p < 0)
    (h2 : 0 ≤ crossProd t w q) : 0 < crossProd t p q := by
  rw [crossProd_eq_cross2] at h1 h2 ⊢
  exact cross2_rot_strict_h1 _ _ _ ((lexPos_xySub_iff t w).mpr htw)
    ((lexNN_xySub_iff t p).mpr htp) ((lexPos_xySub_iff t q).mpr htq) h1 h2

/-- Strict lift along a convex chain: a strict left turn at `b` lifts
"on or counter-clockwise of `b → c`" (for a point beyond `b`) to "strictly
counter-clockwise of `a → b`". -/
theorem liftStrict (a b c q : XY) (hab : xyLess a b = true)
    (hbc : xyLess b c = true) (hbq : xyLess b q = true)
    (h1 : 0 < crossProd a b c) (h2 : 0 ≤ crossProd b c q) :
    0 < crossProd a b q := by
  have h1' : cross2 (xySub c b) (xySub b a) < 0 := by
    have e1 : crossProd a b c = crossProd b c a := crossProd_cyclic a b c
    rw [e1, crossProd_eq_cross2] at h1
    have e2 : xySub a b = negP (xySub b a) := by
      unfold xySub negP
      simp
    rw [e2, cross2_neg_right] at h1
    omega
  have h2' : 0 ≤ cross2 (xySub c b) (xySub q b) := by
    rw [crossProd_eq_cross2] at h2
    exact h2
  have hmain := cross2_rot_strict_h1 (xySub c b) (xySub b a) (xySub q b)
    ((lexPos_xySub_iff b c).mpr hbc)
    (lexPos_imp_lexNN _ ((lexPos_xySub_iff a b).mpr hab))
    ((lexPos_xySub_iff b q).mpr hbq) h1' h2'
  have e3 : crossProd a b q = crossProd b q a := crossProd_cyclic a b q
  rw [e3, crossProd_eq_cross2]
  have e4 : xySub a b = negP (xySub b a) := by
    unfold xySub negP
    simp
  rw [e4, cross2_neg_right]
  have := cross2_anticomm (xySub b a) (xySub q b)
  omega

/-- Weak transfer at a shared apex `p`: if `t` is on or clockwise of the
chord `w → p` and `q` on or counter-clockwise of it (all points at or before
`p`), then `q` is on or counter-clockwise of `t → p`. -/
theorem crossTransferMirror (t w p q : XY) (hwp : xyLess w p = true)
    (htp : xyLe t p) (hqp : xyLe q p) (h1 : crossProd t w p ≤ 0)
    (h2 : 0 ≤ crossProd w p q) : 0 ≤ crossProd t p q := by
  have hmain := crossTransfer (negP p) (negP w) (negP q) (negP t)
    ((xyLess_neg_iff p w).mpr hwp) ((xyLe_neg_iff p q).mpr hqp)
    ((xyLe_neg_iff p t).mpr htp) ?_ ?_
  · rw [crossProd_neg] at hmain
    have e1 : crossProd p q t = crossProd q t p := crossProd_cyclic p q t
    have e2 : crossProd q t p = crossProd t p q := crossProd_cyclic q t p
    omega
  · rw [crossProd_neg]
    have := crossProd_swap12 w p q
    omega
  · rw [crossProd_neg]
    have := crossProd_swap13 t w p
    omega

/-- Adjacent pair (in list order) of a list. -/
def adjPair : List XY → XY → XY → Prop
  | a :: b :: t, u, w => (a = u ∧ b = w) ∨ adjPair (b :: t) u w
  | _, _, _ => False

/-- Adjacent triple (in list order) of a list. -/
def adjTriple : List XY → XY → XY → XY → Prop
  | a :: b :: c :: t, u, v, w =>
      (a = u ∧ b = v ∧ c = w) ∨ adjTriple (b :: c :: t) u v w
  | _, _, _, _ => False

/-- Strictly lexicographically ascending list. -/
def ascChain (l : List XY) : Prop :=
  List.Chain' (fun a b => xyLess a b = true) l

/-- Strictly lexicographically descending list (scan stacks, head = top). -/
def descChain (l : List XY) : Prop :=
  List.Chain' (fun a b => xyLess b a = true) l

/-- Strict convexity of an ascending chain: consecutive triples turn left. -/
def convexUp : List XY → Prop
  | a :: b :: c :: t => 0 < crossProd a b c ∧ convexUp (b :: c :: t)
  | _ => True

/-- Strict convexity of a descending stack (top first). -/
def stackConvexD : List XY → Prop
  | b :: a :: c :: t => 0 < crossProd c a b ∧ stackConvexD (a :: c :: t)
  | _ => True

/-- `q` lies on or above some edge of the stack that spans it (stack order:
head is the lexicographically greatest). -/
def spannedD : List XY → XY → Prop
  | b :: a :: t, q => (xyLe a q ∧ xyLe q b ∧ 0 ≤ crossProd a b q) ∨
      spannedD (a :: t) q
  | _, _ => False

/-- `q` lies on or above some edge of the ascending chain that spans it. -/
def aboveChain (l : List XY) (q : XY) : Prop :=
  ∃ u w, adjPair l u w ∧ xyLe u q ∧ xyLe q w ∧ 0 ≤ crossProd u w q

theorem adjPair_cons_of (x : XY) (l : List XY) (u w : XY)
    (h : adjPair l u w) : adjPair (x :: l) u w := by
  cases l with
  | nil => cases h
  | cons b t => exact Or.inr h

theorem adjPair_mem_left : ∀ (l : List XY) (u w : XY), adjPair l u w → u ∈ l
  | a :: b :: t, u, w, h => by
      rcases h with ⟨h1, _⟩ | h
      · simp [h1]
      · exact List.mem_cons_of_mem _ (adjPair_mem_left (b :: t) u w h)

theorem adjPair_mem_right : ∀ (l : List XY) (u w : XY), adjPair l u w → w ∈ l
  | a :: b :: t, u, w, h => by
      rcases h with ⟨_, h2⟩ | h
      · simp [h2]
      · exact List.mem_cons_of_mem _ (adjPair_mem_right (b :: t) u w h)

theorem mem_tail_exists_adjPair :
    ∀ (l : List XY) (v : XY), v ∈ l.drop 1 → ∃ u, adjPair l u v
  | a :: b :: t, v, h => by
      simp only [List.drop_one, List.tail_cons] at h
      rcases List.mem_cons.mp h with h1 | h2
      · exact ⟨a, Or.inl ⟨rfl, h1.symm⟩⟩
      · obtain ⟨u, hu⟩ := mem_tail_exists_adjPair (b :: t) v (by simpa using h2)
        exact ⟨u, Or.inr hu⟩

theorem ascChain_adjPair_less :
    ∀ (l : List XY) (u w : XY), ascChain l → adjPair l u w →
      xyLess u w = true
  | a :: b :: t, u, w, hc, h => by
      rcases h with ⟨h1, h2⟩ | h
      · subst h1
        subst h2
        exact (List.chain'_cons.mp hc).1
      · exact ascChain_adjPair_less (b :: t) u w (List.chain'_cons.mp hc).2 h

theorem ascChain_tail (a : XY) (l : List XY) (h : ascChain (a :: l)) :
    ascChain l := by
  cases l with
  | nil => exact List.chain'_nil
  | cons b t => exact (List.chain'_cons.mp h).2

theorem convexUp_tail (a : XY) (l : List XY) (h : convexUp (a :: l)) :
    convexUp l := by
  match l, h with
  | [], _ => trivial
  | [b], _ => trivial
  | b :: c :: t, h => exact h.2

/-- Every member of an ascending chain of length ≥ 2 lies above the chain. -/
theorem mem_aboveChain :
    ∀ (l : List XY), ascChain l → 2 ≤ l.length → ∀ v ∈ l, aboveChain l v
  | a :: b :: t, hc, _, v, hv => by
      have hab : xyLess a b = true := (List.chain'_cons.mp hc).1
      rcases List.mem_cons.mp hv with h1 | h2
      · subst h1
        exact ⟨v, b, Or.inl ⟨rfl, rfl⟩, xyLe_refl v,
          xyLe_of_xyLess hab, by rw [crossProd_cyclic, crossProd_self23]⟩
      · cases t with
        | nil =>
            have hvb : v = b := by simpa using h2
            subst hvb
            exact ⟨a, v, Or.inl ⟨rfl, rfl⟩, xyLe_of_xyLess hab, xyLe_refl v,
              by rw [crossProd_self23]⟩
        | cons c t2 =>
            obtain ⟨u, w, hadj, h3, h4, h5⟩ :=
              mem_aboveChain (b :: c :: t2) (ascChain_tail a _ hc) (by simp) v h2
            exact ⟨u, w, Or.inr hadj, h3, h4, h5⟩

theorem adjPair_cons_iff (x : XY) (l : List XY) (u w : XY) :
    adjPair (x :: l) u w ↔ (x = u ∧ l.head? = some w) ∨ adjPair l u w := by
  cases l with
  | nil => simp [adjPair]
  | cons b t => simp [adjPair]

theorem adjPair_append_singleton :
    ∀ (l : List XY) (x u w : XY),
      adjPair (l ++ [x]) u w ↔
        adjPair l u w ∨ (l.getLast? = some u ∧ w = x)
  | [], x, u, w => by simp [adjPair]
  | a :: t, x, u, w => by
      rw [List.cons_append, adjPair_cons_iff, adjPair_cons_iff,
        adjPair_append_singleton t x u w]
      cases t with
      | nil =>
          simp [adjPair]
          tauto
      | cons b t2 =>
          simp only [List.cons_append, List.head?_cons,
            List.getLast?_cons_cons]
          constructor
          · rintro (h | (h | h))
            · exact Or.inl (Or.inl h)
            · exact Or.inl (Or.inr h)
            · exact Or.inr h
          · rintro ((h | h) | h)
            · exact Or.inl h
            · exact Or.inr (Or.inl h)
            · exact Or.inr (Or.inr h)

theorem adjPair_reverse :
    ∀ (l : List XY) (u w : XY), adjPair l.reverse u w ↔ adjPair l w u
  | [], u, w => by simp [adjPair]
  | x :: t, u, w => by
      rw [List.reverse_cons, adjPair_append_singleton,
        adjPair_reverse t u w, adjPair_cons_iff]
      rw [List.getLast?_reverse]
      constructor
      · rintro (h | ⟨h1, h2⟩)
        · exact Or.inr h
        · exact Or.inl ⟨h2.symm, h1⟩
      · rintro (⟨h1, h2⟩ | h)
        · exact Or.inr ⟨h2, h1.symm⟩
        · exact Or.inl h

theorem adjTriple_cons_iff (x : XY) (l : List XY) (u v w : XY) :
    adjTriple (x :: l) u v w ↔
      (x = u ∧ l.head? = some v ∧ (l.drop 1).head? = some w) ∨
        adjTriple l u v w := by
  cases l with
  | nil => simp [adjTriple]
  | cons b t =>
      cases t with
      | nil => simp [adjTriple]
      | cons c t2 =>
          show (x = u ∧ b = v ∧ c = w) ∨ adjTriple (b :: c :: t2) u v w ↔ _
          simp only [List.head?_cons, Option.some.injEq, List.drop_one,
            List.tail_cons]

theorem adjTriple_iff_getElem :
    ∀ (l : List XY) (u v w : XY),
      adjTriple l u v w ↔
        ∃ i, l[i]? = some u ∧ l[i + 1]? = some v ∧ l[i + 2]? = some w
  | [], u, v, w => by simp [adjTriple]
  | [a], u, v, w => by
      constructor
      · intro h
        cases h
      · rintro ⟨i, h1, h2, h3⟩
        rw [List.getElem?_eq_none (by simp)] at h3
        cases h3
  | [a, b], u, v, w => by
      constructor
      · intro h
        cases h
      · rintro ⟨i, h1, h2, h3⟩
        rw [List.getElem?_eq_none (by simp)] at h3
        cases h3
  | a :: b :: c :: t, u, v, w => by
      constructor
      · intro h
        rcases h with ⟨h1, h2, h3⟩ | h
        · exact ⟨0, by simp [h1, h2, h3]⟩
        · obtain ⟨i, h1, h2, h3⟩ :=
            (adjTriple_iff_getElem (b :: c :: t) u v w).mp h
          exact ⟨i + 1, by simpa using h1, by simpa using h2, by simpa using h3⟩
      · rintro ⟨i, h1, h2, h3⟩
        cases i with
        | zero =>
            refine Or.inl ⟨?_, ?_, ?_⟩ <;> simp_all
        | succ j =>
            refine Or.inr ((adjTriple_iff_getElem (b :: c :: t) u v w).mpr
              ⟨j, ?_, ?_, ?_⟩) <;> simp_all

theorem adjTriple_reverse_mp (l : List XY) (u v w : XY)
    (h : adjTriple l.reverse u v w) : adjTriple l w v u := by
  rw [adjTriple_iff_getElem] at h ⊢
  obtain ⟨i, h1, h2, h3⟩ := h
  have hb3 : i + 2 < l.reverse.length := by
    by_contra hc
    rw [List.getElem?_eq_none (by omega)] at h3
    cases h3
  rw [List.length_reverse] at hb3
  refine ⟨l.length - 1 - (i + 2), ?_, ?_, ?_⟩
  · have hb : l.length - 1 - (i + 2) < l.length := by omega
    rw [List.getElem?_eq_getElem hb]
    rw [List.getElem?_eq_getElem (by rw [List.length_reverse]; omega : i + 2 < l.reverse.length)] at h3
    rw [← h3]
    congr 1
    rw [List.getElem_reverse]
  · have hb : l.length - 1 - (i + 2) + 1 < l.length := by omega
    rw [List.getElem?_eq_getElem hb]
    rw [List.getElem?_eq_getElem (by rw [List.length_reverse]; omega : i + 1 < l.reverse.length)] at h2
    rw [← h2]
    congr 1
    rw [List.getElem_reverse]
    congr 1
    omega
  · have hb : l.length - 1 - (i + 2) + 2 < l.length := by omega
    rw [List.getElem?_eq_getElem hb]
    rw [List.getElem?_eq_getElem (by rw [List.length_reverse]; omega : i < l.reverse.length)] at h1
    rw [← h1]
    congr 1
    rw [List.getElem_reverse]
    congr 1
    omega

theorem adjTriple_reverse (l : List XY) (u v w : XY) :
    adjTriple l.reverse u v w ↔ adjTriple l w v u := by
  constructor
  · exact adjTriple_reverse_mp l u v w
  · intro h
    have := adjTriple_reverse_mp l.reverse w v u (by rw [List.reverse_reverse]; exact h)
    exact this

theorem convexUp_iff :
    ∀ (l : List XY), convexUp l ↔
      ∀ u v w, adjTriple l u v w → 0 < crossProd u v w
  | [] => by simp [convexUp, adjTriple]
  | [a] => by simp [convexUp, adjTriple]
  | [a, b] => by simp [convexUp, adjTriple]
  | a :: b :: c :: t => by
      show 0 < crossProd a b c ∧ convexUp (b :: c :: t) ↔ _
      rw [convexUp_iff (b :: c :: t)]
      constructor
      · rintro ⟨h1, h2⟩ u v w h
        rcases h with ⟨e1, e2, e3⟩ | h
        · subst e1; subst e2; subst e3; exact h1
        · exact h2 u v w h
      · intro h
        exact ⟨h a b c (Or.inl ⟨rfl, rfl, rfl⟩),
          fun u v w hh => h u v w (Or.inr hh)⟩

theorem stackConvexD_iff :
    ∀ (s : List XY), stackConvexD s ↔
      ∀ u v w, adjTriple s u v w → 0 < crossProd w v u
  | [] => by simp [stackConvexD, adjTriple]
  | [a] => by simp [stackConvexD, adjTriple]
  | [a, b] => by simp [stackConvexD, adjTriple]
  | b :: a :: c :: t => by
      show 0 < crossProd c a b ∧ stackConvexD (a :: c :: t) ↔ _
      rw [stackConvexD_iff (a :: c :: t)]
      constructor
      · rintro ⟨h1, h2⟩ u v w h
        rcases h with ⟨e1, e2, e3⟩ | h
        · subst e1; subst e2; subst e3; exact h1
        · exact h2 u v w h
      · intro h
        exact ⟨h b a c (Or.inl ⟨rfl, rfl, rfl⟩),
          fun u v w hh => h u v w (Or.inr hh)⟩

theorem stackConvexD_reverse (s : List XY) :
    stackConvexD s ↔ convexUp s.reverse := by
  rw [stackConvexD_iff, convexUp_iff]
  constructor
  · intro h u v w hadj
    exact h w v u ((adjTriple_reverse s u v w).mp hadj)
  · intro h u v w hadj
    exact h w v u ((adjTriple_reverse s w v u).mpr hadj)

theorem spannedD_iff :
    ∀ (s : List XY) (q : XY), spannedD s q ↔
      ∃ u w, adjPair s w u ∧ xyLe u q ∧ xyLe q w ∧ 0 ≤ crossProd u w q
  | [], q => by simp [spannedD, adjPair]
  | [a], q => by simp [spannedD, adjPair]
  | b :: a :: t, q => by
      show (xyLe a q ∧ xyLe q b ∧ 0 ≤ crossProd a b q) ∨ spannedD (a :: t) q ↔ _
      rw [spannedD_iff (a :: t) q]
      constructor
      · rintro (⟨h1, h2, h3⟩ | ⟨u, w, hadj, h1, h2, h3⟩)
        · exact ⟨a, b, Or.inl ⟨rfl, rfl⟩, h1, h2, h3⟩
        · exact ⟨u, w, Or.inr hadj, h1, h2, h3⟩
      · rintro ⟨u, w, hadj, h1, h2, h3⟩
        rcases hadj with ⟨e1, e2⟩ | hadj
        · subst e1; subst e2; exact Or.inl ⟨h1, h2, h3⟩
        · exact Or.inr ⟨u, w, hadj, h1, h2, h3⟩

theorem spannedD_reverse (s : List XY) (q : XY) :
    spannedD s q ↔ aboveChain s.reverse q := by
  rw [spannedD_iff]
  unfold aboveChain
  constructor
  · rintro ⟨u, w, hadj, h1, h2, h3⟩
    exact ⟨u, w, (adjPair_reverse s u w).mpr hadj, h1, h2, h3⟩
  · rintro ⟨u, w, hadj, h1, h2, h3⟩
    exact ⟨u, w, (adjPair_reverse s u w).mp hadj, h1, h2, h3⟩

theorem descChain_reverse (s : List XY) : descChain s ↔ ascChain s.reverse := by
  unfold descChain ascChain
  rw [List.chain'_reverse]
  rfl

theorem xyLe_trans {a b c : XY} (h1 : xyLe a b) (h2 : xyLe b c) : xyLe a c := by
  rw [xyLe_iff] at h1 h2 ⊢
  omega

theorem pushCond_iff (a b p : XY) :
    ¬((orientation a b p != leftTurn) = true) ↔ 0 < crossProd a b p := by
  rw [popCond_iff]
  omega

theorem hullScanStep_suffix :
    ∀ (s : List XY) (p : XY), ∃ t, hullScanStep s p = p :: t ∧ t.IsSuffix s
  | [], p => ⟨[], rfl, List.nil_suffix⟩
  | [a], p => ⟨[a], rfl, List.suffix_refl _⟩
  | b :: a :: r, p => by
      show ∃ t, (if orientation a b p != leftTurn then hullScanStep (a :: r) p
        else p :: b :: a :: r) = p :: t ∧ t.IsSuffix (b :: a :: r)
      split
      · obtain ⟨t, ht, hsuf⟩ := hullScanStep_suffix (a :: r) p
        exact ⟨t, ht, hsuf.trans (List.suffix_cons b (a :: r))⟩
      · exact ⟨b :: a :: r, rfl, List.suffix_refl _⟩

theorem descChain_tail (a : XY) (l : List XY) (h : descChain (a :: l)) :
    descChain l := by
  cases l with
  | nil => exact List.chain'_nil
  | cons b t => exact (List.chain'_cons.mp h).2

theorem descChain_hullScanStep :
    ∀ (s : List XY) (p : XY), descChain s →
      (∀ a ∈ s, xyLess a p = true) → descChain (hullScanStep s p)
  | [], p, _, _ => List.chain'_singleton p
  | [a], p, _, hlt => by
      show descChain [p, a]
      exact List.chain'_cons.mpr ⟨hlt a (by simp), List.chain'_singleton a⟩
  | b :: a :: r, p, hdesc, hlt => by
      show descChain (if orientation a b p != leftTurn then
        hullScanStep (a :: r) p else p :: b :: a :: r)
      split
      · exact descChain_hullScanStep (a :: r) p (descChain_tail b _ hdesc)
          (fun x hx => hlt x (List.mem_cons_of_mem _ hx))
      · exact List.chain'_cons.mpr ⟨hlt b (by simp), hdesc⟩

theorem stackConvexD_tail (a : XY) (l : List XY) (h : stackConvexD (a :: l)) :
    stackConvexD l := by
  match l, h with
  | [], _ => trivial
  | [b], _ => trivial
  | b :: c :: t, h => exact h.2

theorem stackConvexD_hullScanStep :
    ∀ (s : List XY) (p : XY), stackConvexD s →
      stackConvexD (hullScanStep s p)
  | [], p, _ => trivial
  | [a], p, _ => trivial
  | b :: a :: r, p, hconv => by
      show stackConvexD (if orientation a b p != leftTurn then
        hullScanStep (a :: r) p else p :: b :: a :: r)
      split
      · exact stackConvexD_hullScanStep (a :: r) p (stackConvexD_tail b _ hconv)
      · rename_i hpush
        rw [pushCond_iff] at hpush
        exact ⟨hpush, hconv⟩

/-- Dominance maintenance through one scan step: a processed point that is on
the stack, spanned by it, or recorded against the incoming edge, stays on or
spanned by the new stack. -/
theorem spannedD_hullScanStep (p q : XY) :
    ∀ s, descChain s → (∀ a ∈ s, xyLess a p = true) → xyLe q p →
      (q ∈ s ∨ spannedD s q ∨
        (∃ h, s.head? = some h ∧ xyLe h q ∧ 0 ≤ crossProd h p q)) →
      (q ∈ hullScanStep s p ∨ spannedD (hullScanStep s p) q)
  | [], _, _, _, hyp => by
      rcases hyp with h | h | ⟨h, hh, _⟩
      · cases h
      · cases h
      · cases hh
  | [a], _, _, hqp, hyp => by
      show q ∈ [p, a] ∨ spannedD [p, a] q
      rcases hyp with h | h | ⟨h, hh, h1, h2⟩
      · simp at h
        simp [h]
      · cases h
      · have ha : h = a := by
          have := hh
          simp at this
          exact this.symm
        subst ha
        exact Or.inr (Or.inl ⟨h1, hqp, h2⟩)
  | b :: a :: r, hdesc, hlt, hqp, hyp => by
      show q ∈ (if orientation a b p != leftTurn then hullScanStep (a :: r) p
          else p :: b :: a :: r) ∨
        spannedD (if orientation a b p != leftTurn then hullScanStep (a :: r) p
          else p :: b :: a :: r) q
      have hab : xyLess a b = true := (List.chain'_cons.mp hdesc).1
      split
      · rename_i hpop
        rw [popCond_iff] at hpop
        refine spannedD_hullScanStep p q (a :: r) (descChain_tail b _ hdesc)
          (fun x hx => hlt x (List.mem_cons_of_mem _ hx)) hqp ?_
        rcases hyp with h | h | ⟨h, hh, h1, h2⟩
        · rcases List.mem_cons.mp h with hb | har
          · subst hb
            refine Or.inr (Or.inr ⟨a, rfl, xyLe_of_xyLess hab, ?_⟩)
            have := crossProd_swap23 a q p
            omega
          · exact Or.inl har
        · rcases h with ⟨h1, h2, h3⟩ | h
          · refine Or.inr (Or.inr ⟨a, rfl, h1, ?_⟩)
            exact crossTransfer a b p q hab
              (xyLe_of_xyLess (hlt a (by simp))) h1 hpop h3
          · exact Or.inr (Or.inl h)
        · have hb : h = b := by
            have := hh
            simp at this
            exact this.symm
          subst hb
          refine Or.inr (Or.inr ⟨a, rfl, xyLe_trans (xyLe_of_xyLess hab) h1, ?_⟩)
          exact crossTransferMirror a h p q (hlt h (by simp))
            (xyLe_of_xyLess (hlt a (by simp))) hqp hpop h2
      · rcases hyp with h | h | ⟨h, hh, h1, h2⟩
        · exact Or.inl (List.mem_cons_of_mem _ h)
        · exact Or.inr (Or.inr h)
        · have hb : h = b := by
            have := hh
            simp at this
            exact this.symm
          subst hb
          exact Or.inr (Or.inl ⟨h1, hqp, h2⟩)

/-- Full scan-stack invariant: non-empty, strictly descending, strictly
convex, drawn from the processed points, and dominating them. -/
def scanStackOK (processed : List XY) (s : List XY) : Prop :=
  s ≠ [] ∧ descChain s ∧ stackConvexD s ∧ (∀ v ∈ s, v ∈ processed) ∧
  (∀ q ∈ processed, q ∈ s ∨ spannedD s q)

theorem scanStep_OK (processed s : List XY) (p : XY)
    (hOK : scanStackOK processed s)
    (hgt : ∀ q ∈ processed, xyLess q p = true) :
    scanStackOK (processed ++ [p]) (hullScanStep s p) := by
  obtain ⟨hne, hdesc, hconv, hmem, hdom⟩ := hOK
  have hlt : ∀ a ∈ s, xyLess a p = true := fun a ha => hgt a (hmem a ha)
  obtain ⟨t, ht, hsuf⟩ := hullScanStep_suffix s p
  refine ⟨by rw [ht]; simp, descChain_hullScanStep s p hdesc hlt,
    stackConvexD_hullScanStep s p hconv, ?_, ?_⟩
  · intro v hv
    rw [ht] at hv
    rcases List.mem_cons.mp hv with h | h
    · simp [h]
    · exact List.mem_append_left _ (hmem v (hsuf.subset h))
  · intro q hq
    rcases List.mem_append.mp hq with h | h
    · refine spannedD_hullScanStep p q s hdesc hlt
        (xyLe_of_xyLess (hgt q h)) ?_
      rcases hdom q h with h2 | h2
      · exact Or.inl h2
      · exact Or.inr (Or.inl h2)
    · have : q = p := by simpa using h
      subst this
      rw [ht]
      exact Or.inl (by simp)

theorem scanFold_OK_aux :
    ∀ (rest processed s : List XY),
      scanStackOK processed s →
      (∀ q ∈ processed, ∀ r ∈ rest, xyLess q r = true) →
      rest.Pairwise (fun a b => xyLess a b = true) →
      scanStackOK (processed ++ rest) (rest.foldl hullScanStep s)
  | [], processed, s, hOK, _, _ => by simpa using hOK
  | p :: rest', processed, s, hOK, hcross, hpw => by
      rw [List.foldl_cons]
      have hstep := scanStep_OK processed s p hOK
        (fun q hq => hcross q hq p (by simp))
      have hrec := scanFold_OK_aux rest' (processed ++ [p])
        (hullScanStep s p) hstep ?_ (List.pairwise_cons.mp hpw).2
      · rw [List.append_assoc] at hrec
        simpa using hrec
      · intro q hq r hr
        rcases List.mem_append.mp hq with h | h
        · exact hcross q h r (List.mem_cons_of_mem _ hr)
        · have : q = p := by simpa using h
          subst this
          exact (List.pairwise_cons.mp hpw).1 r hr

/-- Scan correctness (Theorem A): over a strictly ascending input, the hull
scan yields a non-empty, strictly descending, strictly convex stack drawn
from the input that dominates every input point. -/
theorem scanFold_OK (L : List XY)
    (hpw : L.Pairwise (fun a b => xyLess a b = true)) (hne : L ≠ []) :
    scanStackOK L (L.foldl hullScanStep []) := by
  cases L with
  | nil => exact absurd rfl hne
  | cons x rest =>
      have hsx : hullScanStep [] x = [x] := rfl
      rw [List.foldl_cons, hsx]
      have hbase : scanStackOK [x] [x] :=
        ⟨by simp, List.chain'_singleton x, trivial, fun v hv => hv,
          fun q hq => Or.inl hq⟩
      have := scanFold_OK_aux rest [x] [x] hbase ?_ (List.pairwise_cons.mp hpw).2
      · simpa using this
      · intro q hq r hr
        have : q = x := by simpa using hq
        subst this
        exact (List.pairwise_cons.mp hpw).1 r hr

theorem hullScanStep_ne_nil (s : List XY) (p : XY) : hullScanStep s p ≠ [] := by
  intro hc
  have := hullScanStep_head s p
  rw [hc] at this
  cases this

/-- The stop condition of the pop loop: when the new stack still has two old
points below the pushed one, the top two make a strict left turn with it. -/
theorem hullScanStep_stopCond :
    ∀ (s : List XY) (p : XY) (t : List XY), hullScanStep s p = p :: t →
      (match t with
       | a2 :: b2 :: _ => 0 < crossProd b2 a2 p
       | _ => True)
  | [], p, t, h => by
      have h2 : ([p] : List XY) = p :: t := h
      have : t = [] := by simpa using h2.symm
      subst this
      trivial
  | [a], p, t, h => by
      have : t = [a] := by
        have : ([p, a] : List XY) = p :: t := h
        simpa using this.symm
      subst this
      trivial
  | b :: a :: r, p, t, h => by
      rw [show hullScanStep (b :: a :: r) p =
        (if orientation a b p != leftTurn then hullScanStep (a :: r) p
          else p :: b :: a :: r) from rfl] at h
      split at h
      · exact hullScanStep_stopCond (a :: r) p t h
      · rename_i hpush
        rw [pushCond_iff] at hpush
        have : t = b :: a :: r := by simpa using h.symm
        subst this
        exact hpush

/-- Processing the same point twice in a row is the same as processing it
once (on a non-empty stack). -/
theorem hullScanStep_idem (s : List XY) (p : XY) (hs : s ≠ []) :
    hullScanStep (hullScanStep s p) p = hullScanStep s p := by
  obtain ⟨t, ht, _⟩ := hullScanStep_suffix s p
  have hlen := (hullScanStep_of_ne_nil s p hs).1
  have htne : t ≠ [] := by
    intro hc
    rw [ht, hc] at hlen
    simp at hlen
  rw [ht]
  cases t with
  | nil => exact absurd rfl htne
  | cons a2 t2 =>
      cases t2 with
      | nil =>
          show (if orientation a2 p p != leftTurn then hullScanStep [a2] p
            else p :: p :: a2 :: []) = p :: [a2]
          rw [if_pos (by rw [popCond_iff, crossProd_self23])]
          rfl
      | cons b2 r =>
          have hstop := hullScanStep_stopCond s p (a2 :: b2 :: r) ht
          show (if orientation a2 p p != leftTurn then
              hullScanStep (a2 :: b2 :: r) p
            else p :: p :: a2 :: b2 :: r) = p :: a2 :: b2 :: r
          rw [if_pos (by rw [popCond_iff, crossProd_self23])]
          show (if orientation b2 a2 p != leftTurn then hullScanStep (b2 :: r) p
            else p :: a2 :: b2 :: r) = p :: a2 :: b2 :: r
          rw [if_neg (by rw [popCond_iff]; omega)]

/-- Sorted-duplicate removal, keeping the first of each run. -/
def dedupSorted : List XY → List XY
  | a :: b :: t => if a = b then dedupSorted (a :: t) else a :: dedupSorted (b :: t)
  | l => l

theorem fold_dedupSorted :
    ∀ (l s : List XY), s ≠ [] →
      l.foldl hullScanStep s = (dedupSorted l).foldl hullScanStep s
  | [], _, _ => by simp [dedupSorted]
  | [a], _, _ => by simp [dedupSorted]
  | a :: b :: t, s, hs => by
      show (t.foldl hullScanStep (hullScanStep (hullScanStep s a) b)) =
        (dedupSorted (a :: b :: t)).foldl hullScanStep s
      by_cases hab : a = b
      · subst hab
        have hd : dedupSorted (a :: a :: t) = dedupSorted (a :: t) := by
          simp [dedupSorted]
        rw [hullScanStep_idem s a hs, hd]
        have he : (t.foldl hullScanStep (hullScanStep s a)) =
            ((a :: t).foldl hullScanStep s) := rfl
        rw [he, fold_dedupSorted (a :: t) s hs]
      · have hd : dedupSorted (a :: b :: t) = a :: dedupSorted (b :: t) := by
          simp [dedupSorted, hab]
        rw [hd]
        have he : (t.foldl hullScanStep (hullScanStep (hullScanStep s a) b)) =
            ((b :: t).foldl hullScanStep (hullScanStep s a)) := rfl
        rw [he, fold_dedupSorted (b :: t) (hullScanStep s a)
          (hullScanStep_ne_nil s a)]
        rfl
termination_by l s => l.length

/-- On a stack holding the same point twice, the next distinct point behaves
as on the single-point stack. -/
theorem leadingDup_heal (x y : XY) :
    hullScanStep [x, x] y = hullScanStep [x] y := by
  show (if orientation x x y != leftTurn then hullScanStep [x] y
    else y :: x :: x :: []) = hullScanStep [x] y
  rw [if_pos (by rw [popCond_iff, crossProd_self12])]

/-- The whole scan is insensitive to sorted duplicates, as long as the input
has two distinct points. -/
theorem scanFold_dedupSorted :
    ∀ (rest : List XY) (x : XY), (∃ y ∈ rest, y ≠ x) →
      (x :: rest).foldl hullScanStep [] =
        (dedupSorted (x :: rest)).foldl hullScanStep []
  | [], x, h => by
      obtain ⟨y, hy, _⟩ := h
      cases hy
  | b :: t, x, h => by
      by_cases hxb : x = b
      · subst hxb
        have htne : ∃ y ∈ t, y ≠ x := by
          obtain ⟨y, hy, hne⟩ := h
          rcases List.mem_cons.mp hy with h1 | h2
          · exact absurd h1 hne
          · exact ⟨y, h2, hne⟩
        have htne2 : t ≠ [] := by
          obtain ⟨y, hy, _⟩ := htne
          exact List.ne_nil_of_mem hy
        have hstep : ((x :: x :: t).foldl hullScanStep []) =
            (t.foldl hullScanStep [x, x]) := rfl
        rw [hstep]
        cases t with
        | nil => exact absurd rfl htne2
        | cons c t2 =>
            rw [show ((c :: t2).foldl hullScanStep ([x, x] : List XY)) =
              (t2.foldl hullScanStep (hullScanStep [x, x] c)) from rfl,
              leadingDup_heal]
            have he : (t2.foldl hullScanStep (hullScanStep [x] c)) =
                ((x :: c :: t2).foldl hullScanStep []) := rfl
            rw [he, scanFold_dedupSorted (c :: t2) x htne]
            have hd : dedupSorted (x :: x :: c :: t2) =
                dedupSorted (x :: c :: t2) := by
              simp [dedupSorted]
            rw [hd]
      · have he : ((x :: b :: t).foldl hullScanStep []) =
            ((b :: t).foldl hullScanStep [x]) := rfl
        have hd : dedupSorted (x :: b :: t) = x :: dedupSorted (b :: t) := by
          simp [dedupSorted, hxb]
        rw [he, fold_dedupSorted (b :: t) [x] (by simp), hd]
        rfl

theorem dedupSorted_nil : dedupSorted [] = [] := by
  unfold dedupSorted
  rfl

theorem dedupSorted_singleton (a : XY) : dedupSorted [a] = [a] := by
  unfold dedupSorted
  rfl

theorem dedupSorted_sublist : ∀ (l : List XY), (dedupSorted l).Sublist l
  | [] => by rw [dedupSorted_nil]
  | [a] => by rw [dedupSorted_singleton]
  | a :: b :: t => by
      by_cases hab : a = b
      · subst hab
        have hd : dedupSorted (a :: a :: t) = dedupSorted (a :: t) := by
          simp [dedupSorted]
        rw [hd]
        exact (dedupSorted_sublist (a :: t)).trans
          (List.cons_sublist_cons.mpr (List.sublist_cons_self a t))
      · have hd : dedupSorted (a :: b :: t) = a :: dedupSorted (b :: t) := by
          simp [dedupSorted, hab]
        rw [hd]
        exact List.cons_sublist_cons.mpr (dedupSorted_sublist (b :: t))
termination_by l => l.length

theorem dedupSorted_mem_of :
    ∀ (l : List XY) (v : XY), v ∈ l → v ∈ dedupSorted l
  | [a], v, hv => by
      rw [dedupSorted_singleton]
      exact hv
  | a :: b :: t, v, hv => by
      by_cases hab : a = b
      · subst hab
        have hd : dedupSorted (a :: a :: t) = dedupSorted (a :: t) := by
          simp [dedupSorted]
        rw [hd]
        refine dedupSorted_mem_of (a :: t) v ?_
        rcases List.mem_cons.mp hv with h | h
        · simp [h]
        · exact h
      · have hd : dedupSorted (a :: b :: t) = a :: dedupSorted (b :: t) := by
          simp [dedupSorted, hab]
        rw [hd]
        rcases List.mem_cons.mp hv with h | h
        · simp [h]
        · exact List.mem_cons_of_mem _ (dedupSorted_mem_of (b :: t) v h)
termination_by l v _ => l.length

theorem dedupSorted_mem (l : List XY) (v : XY) :
    v ∈ dedupSorted l ↔ v ∈ l :=
  ⟨fun h => (dedupSorted_sublist l).subset h, dedupSorted_mem_of l v⟩

theorem dedupSorted_head :
    ∀ (x : XY) (l : List XY), (dedupSorted (x :: l)).head? = some x
  | x, [] => by rw [dedupSorted_singleton]; rfl
  | x, b :: t => by
      by_cases hxb : x = b
      · subst hxb
        have hd : dedupSorted (x :: x :: t) = dedupSorted (x :: t) := by
          simp [dedupSorted]
        rw [hd]
        exact dedupSorted_head x t
      · have hd : dedupSorted (x :: b :: t) = x :: dedupSorted (b :: t) := by
          simp [dedupSorted, hxb]
        rw [hd]
        rfl
termination_by x l => l.length

theorem dedupSorted_getLast? :
    ∀ (l : List XY), (dedupSorted l).getLast? = l.getLast?
  | [] => by rw [dedupSorted_nil]
  | [a] => by rw [dedupSorted_singleton]
  | a :: b :: t => by
      by_cases hab : a = b
      · subst hab
        have hd : dedupSorted (a :: a :: t) = dedupSorted (a :: t) := by
          simp [dedupSorted]
        rw [hd, dedupSorted_getLast? (a :: t), List.getLast?_cons_cons]
      · have hd : dedupSorted (a :: b :: t) = a :: dedupSorted (b :: t) := by
          simp [dedupSorted, hab]
        rw [hd]
        have h2 := dedupSorted_getLast? (b :: t)
        rw [List.getLast?_cons_cons]
        cases hdd : dedupSorted (b :: t) with
        | nil =>
            have := dedupSorted_head b t
            rw [hdd] at this
            cases this
        | cons c t2 =>
            rw [hdd] at h2
            rw [List.getLast?_cons_cons]
            exact h2
termination_by l => l.length

/-- On a weakly ascending list, removing sorted duplicates yields a strictly
ascending list. -/
theorem dedupSorted_strict :
    ∀ (l : List XY), l.Pairwise (fun a b => xyLe a b) →
      ascChain (dedupSorted l)
  | [], _ => by rw [dedupSorted_nil]; exact List.chain'_nil
  | [a], _ => by rw [dedupSorted_singleton]; exact List.chain'_singleton a
  | a :: b :: t, hpw => by
      by_cases hab : a = b
      · subst hab
        have hd : dedupSorted (a :: a :: t) = dedupSorted (a :: t) := by
          simp [dedupSorted]
        rw [hd]
        refine dedupSorted_strict (a :: t) ?_
        have h1 := List.pairwise_cons.mp hpw
        have h2 := List.pairwise_cons.mp h1.2
        refine List.pairwise_cons.mpr ⟨?_, h2.2⟩
        intro y hy
        exact h1.1 y (List.mem_cons_of_mem _ hy)
      · have hd : dedupSorted (a :: b :: t) = a :: dedupSorted (b :: t) := by
          simp [dedupSorted, hab]
        rw [hd]
        have htail := dedupSorted_strict (b :: t) (List.pairwise_cons.mp hpw).2
        refine List.chain'_cons'.mpr ⟨?_, htail⟩
        intro y hy
        have hyhead : y = b := by
          have := dedupSorted_head b t
          rw [hy] at this
          simpa using this
        subst hyhead
        exact xyLess_of_xyLe_ne ((List.pairwise_cons.mp hpw).1 y (by simp)) hab
termination_by l _ => l.length

theorem negP_involutive (p : XY) : negP (negP p) = p := by
  cases p
  simp [negP]

theorem hullScanStep_negMap :
    ∀ (s : List XY) (p : XY),
      hullScanStep (s.map negP) (negP p) = (hullScanStep s p).map negP
  | [], p => rfl
  | [a], p => rfl
  | b :: a :: r, p => by
      show (if orientation (negP a) (negP b) (negP p) != leftTurn then
          hullScanStep ((a :: r).map negP) (negP p)
        else negP p :: negP b :: negP a :: r.map negP) =
        ((if orientation a b p != leftTurn then hullScanStep (a :: r) p
          else p :: b :: a :: r) : List XY).map negP
      by_cases hc : crossProd a b p ≤ 0
      · rw [if_pos ((popCond_iff _ _ _).mpr (by rw [crossProd_neg]; exact hc)),
          if_pos ((popCond_iff _ _ _).mpr hc)]
        exact hullScanStep_negMap (a :: r) p
      · rw [if_neg (by rw [popCond_iff, crossProd_neg]; omega),
          if_neg (by rw [popCond_iff]; omega)]
        rfl

theorem scanFold_negMap :
    ∀ (L s : List XY),
      (L.map negP).foldl hullScanStep (s.map negP) =
        (L.foldl hullScanStep s).map negP
  | [], s => rfl
  | p :: rest, s => by
      rw [List.map_cons, List.foldl_cons, List.foldl_cons,
        hullScanStep_negMap s p]
      exact scanFold_negMap rest (hullScanStep s p)

theorem crossProd_self13 (a b : XY) : crossProd a b a = 0 := by
  unfold crossProd
  ring

theorem xyLess_irrefl (x : XY) : ¬(xyLess x x = true) := by
  rw [xyLess_iff]
  omega

theorem xy_trichotomy (x y : XY) :
    xyLess x y = true ∨ xyLess y x = true ∨ x = y := by
  rcases Decidable.em (x = y) with h | h
  · exact Or.inr (Or.inr h)
  · rw [xyLess_iff, xyLess_iff]
    have : ¬(x.x = y.x ∧ x.y = y.y) := by
      intro hc
      exact h (by cases x; cases y; simp_all)
    omega

theorem ascChain_head_less :
    ∀ (t : List XY) (x : XY), ascChain (x :: t) → ∀ v ∈ t, xyLess x v = true
  | [], _, _, v, hv => by cases hv
  | y :: t', x, hc, v, hv => by
      have hxy : xyLess x y = true := (List.chain'_cons.mp hc).1
      rcases List.mem_cons.mp hv with h | h
      · subst h
        exact hxy
      · exact xyLess_trans hxy
          (ascChain_head_less t' y (List.chain'_cons.mp hc).2 v h)

theorem ascChain_head_le (t : List XY) (x : XY) (hc : ascChain (x :: t)) :
    ∀ v ∈ x :: t, xyLe x v := by
  intro v hv
  rcases List.mem_cons.mp hv with h | h
  · subst h
    exact xyLe_refl v
  · exact xyLe_of_xyLess (ascChain_head_less t x hc v h)

theorem ascChain_getLast_head (x : XY) (R : List XY) (hc : ascChain (x :: R))
    (hl : (x :: R).getLast? = some x) : R = [] := by
  cases R with
  | nil => rfl
  | cons y t =>
      exfalso
      rw [List.getLast?_cons_cons] at hl
      have hmem : x ∈ y :: t := getLast?_mem_list _ _ hl
      have := ascChain_head_less (y :: t) x hc x hmem
      exact xyLess_irrefl x this

/-- Strict lift to the first edge: a point beyond `u` lying on or above a
later edge `(u, w)` of the chain lies strictly above the first edge line. -/
theorem chainLift :
    ∀ (t : List XY) (a b : XY), ascChain (a :: b :: t) →
      convexUp (a :: b :: t) →
      ∀ u w q, adjPair (b :: t) u w → xyLess u q = true →
        0 ≤ crossProd u w q → 0 < crossProd a b q
  | [], a, b, _, _, u, w, q, hadj, _, _ => by cases hadj
  | c :: t', a, b, hasc, hconv, u, w, q, hadj, hless, hcross => by
      have hab : xyLess a b = true := (List.chain'_cons.mp hasc).1
      have hbc : xyLess b c = true :=
        (List.chain'_cons.mp (List.chain'_cons.mp hasc).2).1
      have htriple : 0 < crossProd a b c := hconv.1
      rcases hadj with ⟨h1, h2⟩ | hdeep
      · subst h1
        subst h2
        exact liftStrict a b c q hab hbc hless htriple hcross
      · have hIH := chainLift t' b c (List.chain'_cons.mp hasc).2
          (convexUp_tail a _ hconv) u w q hdeep hless hcross
        have hcu : xyLe c u :=
          ascChain_head_le t' c (List.chain'_cons.mp
            (List.chain'_cons.mp hasc).2).2 u (adjPair_mem_left _ u w hdeep)
        have hbq : xyLess b q = true :=
          xyLess_trans hbc (xyLe_less_trans hcu hless)
        exact liftStrict a b c q hab hbc hbq htriple (le_of_lt hIH)

/-- Every vertex beyond the first edge lies strictly above its line. -/
theorem chainFirstEdge (a b : XY) (t : List XY) (hasc : ascChain (a :: b :: t))
    (hconv : convexUp (a :: b :: t)) : ∀ v ∈ t, 0 < crossProd a b v := by
  intro v hv
  obtain ⟨u, hadj⟩ := mem_tail_exists_adjPair (b :: t) v (by simpa using hv)
  have huv : xyLess u v = true :=
    ascChain_adjPair_less (b :: t) u v (List.chain'_cons.mp hasc).2 hadj
  exact chainLift t a b hasc hconv u v v hadj huv
    (le_of_eq (crossProd_self23 u v).symm)

/-- A point lexicographically before the chain's second vertex can only be
spanned by the first edge. -/
theorem aboveChain_head_edge (m y : XY) (R : List XY)
    (hasc : ascChain (m :: y :: R)) (x : XY) (hxy : xyLess x y = true)
    (habove : aboveChain (m :: y :: R) x) : 0 ≤ crossProd m y x := by
  obtain ⟨u, w, hadj, h1, h2, h3⟩ := habove
  rcases hadj with ⟨e1, e2⟩ | hdeep
  · subst e1
    subst e2
    exact h3
  · exfalso
    have hyu : xyLe y u :=
      ascChain_head_le R y (List.chain'_cons.mp hasc).2 u
        (adjPair_mem_left _ u w hdeep)
    have : xyLess x x = true :=
      xyLess_le_trans hxy (xyLe_trans hyu h1)
    exact xyLess_irrefl x this

/-- The successor comparison: the second vertex of a convex chain cannot be
strictly before the second vertex of a chain it dominates. -/
theorem chainSuccessor (m x y : XY) (R1 R2 : List XY)
    (h1asc : ascChain (m :: x :: R1)) (h1conv : convexUp (m :: x :: R1))
    (h2asc : ascChain (m :: y :: R2))
    (hx_above : aboveChain (m :: y :: R2) x)
    (hy_above : aboveChain (m :: x :: R1) y) :
    ¬(xyLess x y = true) := by
  intro hxy
  have hA : 0 ≤ crossProd m y x := aboveChain_head_edge m y R2 h2asc x hxy
    hx_above
  have hA2 : crossProd m x y ≤ 0 := by
    have := crossProd_swap23 m x y
    omega
  obtain ⟨u, w, hadj, hu, hw, hc⟩ := hy_above
  rcases hadj with ⟨e1, e2⟩ | hdeep
  · subst e1
    subst e2
    have : xyLess x x = true := xyLess_le_trans hxy hw
    exact xyLess_irrefl x this
  · by_cases hyu : y = u
    · subst hyu
      rcases List.mem_cons.mp (adjPair_mem_left _ y w hdeep) with h | h
      · subst h
        exact xyLess_irrefl y hxy
      · have := chainFirstEdge m x R1 h1asc h1conv y h
        omega
    · have huy : xyLess u y = true := xyLess_of_xyLe_ne hu (fun h => hyu h.symm)
      have := chainLift R1 m x h1asc h1conv u w y hdeep huy hc
      omega

theorem aboveChain_tail_transfer (m x : XY) (R2 : List XY)
    (hasc : ascChain (m :: x :: R2)) (v : XY) (hxv : xyLe x v)
    (hab : aboveChain (m :: x :: R2) v) (hR2 : R2 ≠ []) :
    aboveChain (x :: R2) v := by
  obtain ⟨u, w, hadj, h1, h2, h3⟩ := hab
  rcases hadj with ⟨e1, e2⟩ | hdeep
  · subst e1
    subst e2
    have hvx : v = x := xyLe_antisymm h2 hxv
    subst hvx
    cases R2 with
    | nil => exact absurd rfl hR2
    | cons c t =>
        refine ⟨v, c, Or.inl ⟨rfl, rfl⟩, xyLe_refl v, ?_, ?_⟩
        · exact xyLe_of_xyLess
            (List.chain'_cons.mp (List.chain'_cons.mp hasc).2).1
        · exact le_of_eq (crossProd_self13 v c).symm
  · exact ⟨u, w, hdeep, h1, h2, h3⟩

/-- Uniqueness: two strictly ascending, strictly convex chains with the same
endpoints that lie above each other are equal. -/
theorem chainUnique :
    ∀ (C1 C2 : List XY) (m : XY),
      C1.head? = some m → C2.head? = some m →
      C1.getLast? = C2.getLast? →
      ascChain C1 → convexUp C1 → ascChain C2 → convexUp C2 →
      (∀ v ∈ C1, aboveChain C2 v) → (∀ v ∈ C2, aboveChain C1 v) →
      C1 = C2
  | [], _, m, h1, _, _, _, _, _, _, _, _ => by cases h1
  | _ :: _, [], m, _, h2, _, _, _, _, _, _, _ => by cases h2
  | m1 :: R1, m2 :: R2, m, h1, h2, hl, a1, c1, a2, c2, ab1, ab2 => by
      have hm12 : m1 = m2 := by
        have e1 : m1 = m := by simpa using h1
        have e2 : m2 = m := by simpa using h2
        rw [e1, e2]
      subst hm12
      cases R1 with
      | nil =>
          cases R2 with
          | nil => rfl
          | cons y R2' =>
              exfalso
              rw [List.getLast?_cons_cons] at hl
              have hx : (y :: R2').getLast? = some m1 := by
                rw [← hl]
                rfl
              have := ascChain_getLast_head m1 (y :: R2') a2
                (by rw [List.getLast?_cons_cons]; exact hx)
              cases this
      | cons x R1' =>
          cases R2 with
          | nil =>
              exfalso
              rw [List.getLast?_cons_cons] at hl
              have hx : (x :: R1').getLast? = some m1 := by
                rw [hl]
                rfl
              have := ascChain_getLast_head m1 (x :: R1') a1
                (by rw [List.getLast?_cons_cons]; exact hx)
              cases this
          | cons y R2' =>
              have hxy := chainSuccessor m1 x y R1' R2' a1 c1 a2
                (ab1 x (by simp)) (ab2 y (by simp))
              have hyx := chainSuccessor m1 y x R2' R1' a2 c2 a1
                (ab2 y (by simp)) (ab1 x (by simp))
              have hxeqy : x = y := by
                rcases xy_trichotomy x y with h | h | h
                · exact absurd h hxy
                · exact absurd h hyx
                · exact h
              subst hxeqy
              rw [List.getLast?_cons_cons, List.getLast?_cons_cons] at hl
              cases R1' with
              | nil =>
                  cases R2' with
                  | nil => rfl
                  | cons z R2'' =>
                      exfalso
                      have hx2 : (z :: R2'').getLast? = some x := by
                        rw [List.getLast?_cons_cons] at hl
                        rw [← hl]
                        rfl
                      have := ascChain_getLast_head x (z :: R2'')
                        (ascChain_tail m1 _ a2)
                        (by rw [List.getLast?_cons_cons]; exact hx2)
                      cases this
              | cons w1 R1'' =>
                  cases R2' with
                  | nil =>
                      exfalso
                      have hx2 : (w1 :: R1'').getLast? = some x := by
                        rw [List.getLast?_cons_cons] at hl
                        rw [hl]
                        rfl
                      have := ascChain_getLast_head x (w1 :: R1'')
                        (ascChain_tail m1 _ a1)
                        (by rw [List.getLast?_cons_cons]; exact hx2)
                      cases this
                  | cons z R2'' =>
                      have hrec := chainUnique (x :: w1 :: R1'')
                        (x :: z :: R2'') x rfl rfl hl
                        (ascChain_tail m1 _ a1) (convexUp_tail m1 _ c1)
                        (ascChain_tail m1 _ a2) (convexUp_tail m1 _ c2)
                        ?_ ?_
                      · rw [hrec]
                      · intro v hv
                        refine aboveChain_tail_transfer m1 x (z :: R2'')
                          a2 v ?_ (ab1 v (List.mem_cons_of_mem _ hv))
                          (by simp)
                        exact ascChain_head_le _ x (ascChain_tail m1 _ a1) v hv
                      · intro v hv
                        refine aboveChain_tail_transfer m1 x (w1 :: R1'')
                          a1 v ?_ (ab2 v (List.mem_cons_of_mem _ hv))
                          (by simp)
                        exact ascChain_head_le _ x (ascChain_tail m1 _ a2) v hv

theorem ascChain_pairwise :
    ∀ (l : List XY), ascChain l →
      l.Pairwise (fun a b => xyLess a b = true)
  | [], _ => List.Pairwise.nil
  | x :: t, hc =>
      List.pairwise_cons.mpr ⟨ascChain_head_less t x hc,
        ascChain_pairwise t (ascChain_tail x t hc)⟩

theorem descChain_pairwise (l : List XY) (hc : descChain l) :
    l.Pairwise (fun a b => xyLess b a = true) := by
  rw [descChain_reverse] at hc
  have := ascChain_pairwise l.reverse hc
  have h2 := (List.pairwise_reverse).mp this
  exact h2

theorem scanFold_mem :
    ∀ (L s : List XY) (v : XY), v ∈ L.foldl hullScanStep s →
      v ∈ s ∨ v ∈ L
  | [], s, v, hv => Or.inl hv
  | p :: rest, s, v, hv => by
      rw [List.foldl_cons] at hv
      rcases scanFold_mem rest (hullScanStep s p) v hv with h | h
      · obtain ⟨t, ht, hsuf⟩ := hullScanStep_suffix s p
        rw [ht] at h
        rcases List.mem_cons.mp h with h2 | h2
        · exact Or.inr (by simp [h2])
        · exact Or.inl (hsuf.subset h2)
      · exact Or.inr (List.mem_cons_of_mem _ h)

theorem sortPoints_pairwise (l : List XY) :
    (sortPoints l).Pairwise xyLe := by
  exact sortPoints_sorted l

theorem sortPoints_head_pin (l : List XY) (m : XY) (hm : m ∈ l)
    (hmin : ∀ v ∈ l, xyLe m v) : (sortPoints l).head? = some m := by
  have hperm := sortPoints_perm l
  have hmem : m ∈ sortPoints l := hperm.mem_iff.mpr hm
  cases hs : sortPoints l with
  | nil =>
      rw [hs] at hmem
      cases hmem
  | cons h0 t =>
      rw [hs] at hmem
      have hpw := sortPoints_pairwise l
      rw [hs] at hpw
      have h0mem : h0 ∈ l := hperm.mem_iff.mp (by rw [hs]; simp)
      have h1 : xyLe m h0 := hmin h0 h0mem
      have h2 : xyLe h0 m := by
        rcases List.mem_cons.mp hmem with h | h
        · rw [h]
          exact xyLe_refl h0
        · exact (List.pairwise_cons.mp hpw).1 m h
      rw [xyLe_antisymm h2 h1]
      rfl

theorem sortPoints_getLast_pin (l : List XY) (m : XY) (hm : m ∈ l)
    (hmax : ∀ v ∈ l, xyLe v m) : (sortPoints l).getLast? = some m := by
  have hperm := sortPoints_perm l
  have hmem : m ∈ sortPoints l := hperm.mem_iff.mpr hm
  have hne : sortPoints l ≠ [] := List.ne_nil_of_mem hmem
  obtain ⟨z0, hz0⟩ := Option.isSome_iff_exists.mp
    ((List.getLast?_isSome).mpr hne)
  have hz0mem : z0 ∈ l := hperm.mem_iff.mp (getLast?_mem_list _ _ hz0)
  have h1 : xyLe z0 m := hmax z0 hz0mem
  have h2 : xyLe m z0 :=
    sorted_le_getLast (sortPoints l) z0 (sortPoints_sorted l) hz0 m hmem
  rw [hz0, xyLe_antisymm h2 h1]

theorem sortPoints_head_min (l : List XY) (m : XY)
    (hh : (sortPoints l).head? = some m) : ∀ v ∈ l, xyLe m v := by
  intro v hv
  have hperm := sortPoints_perm l
  have hvm : v ∈ sortPoints l := hperm.mem_iff.mpr hv
  cases hs : sortPoints l with
  | nil =>
      rw [hs] at hvm
      cases hvm
  | cons h0 t =>
      rw [hs] at hh hvm
      have hm : h0 = m := by simpa using hh
      subst hm
      have hpw := sortPoints_pairwise l
      rw [hs] at hpw
      rcases List.mem_cons.mp hvm with h | h
      · rw [h]
        exact xyLe_refl h0
      · exact (List.pairwise_cons.mp hpw).1 v h

theorem sortPoints_getLast_max (l : List XY) (m : XY)
    (hh : (sortPoints l).getLast? = some m) : ∀ v ∈ l, xyLe v m := by
  intro v hv
  exact sorted_le_getLast (sortPoints l) m (sortPoints_sorted l) hh v
    ((sortPoints_perm l).mem_iff.mpr hv)

theorem length_ge_two_of_two_mem (l : List XY) (a b : XY) (ha : a ∈ l)
    (hb : b ∈ l) (hab : a ≠ b) : 2 ≤ l.length := by
  cases l with
  | nil => cases ha
  | cons x t =>
      cases t with
      | nil =>
          have h1 : a = x := by simpa using ha
          have h2 : b = x := by simpa using hb
          exact absurd (h1.trans h2.symm) hab
      | cons y t2 => simp

/-- Shape of the scan stack from an empty initial stack: at least two
elements, bottom is the first input point, top is the last. -/
theorem scanFold_shape (S : List XY) (hlen : 2 ≤ S.length) :
    2 ≤ (S.foldl hullScanStep []).length ∧
    (S.foldl hullScanStep []).getLast? = S.head? ∧
    (S.foldl hullScanStep []).head? = S.getLast? := by
  match S, hlen with
  | x :: y :: rest, _ =>
      have hfold : (x :: y :: rest).foldl hullScanStep []
          = (y :: rest).foldl hullScanStep [x] := by
        rw [List.foldl_cons]
        rfl
      have hf := hullFold_facts (y :: rest) [x] (by simp)
      have h2 := hf.2.2 (by simp)
      rw [hfold]
      refine ⟨h2.1, ?_, ?_⟩
      · rw [hf.2.1]
        rfl
      · rw [h2.2, List.getLast?_cons_cons]

/-- The scan stack is determined by the dominance structure: two strictly
ascending inputs with the same extremes, where the second is contained in the
first and contains the first stack, produce the same stack. -/
theorem scanStack_unique (S1 S2 : List XY)
    (hpw1 : S1.Pairwise (fun a b => xyLess a b = true))
    (hpw2 : S2.Pairwise (fun a b => xyLess a b = true))
    (hlen1 : 2 ≤ S1.length) (hlen2 : 2 ≤ S2.length)
    (hhead : S1.head? = S2.head?) (hlast : S1.getLast? = S2.getLast?)
    (hsub21 : ∀ v ∈ S2, v ∈ S1)
    (hsubstack : ∀ v ∈ S1.foldl hullScanStep [], v ∈ S2) :
    S1.foldl hullScanStep [] = S2.foldl hullScanStep [] := by
  have hsh1 := scanFold_shape S1 hlen1
  have hsh2 := scanFold_shape S2 hlen2
  have hne1 : S1 ≠ [] := by
    intro h
    rw [h] at hlen1
    simp at hlen1
  have hne2 : S2 ≠ [] := by
    intro h
    rw [h] at hlen2
    simp at hlen2
  obtain ⟨hn1, hd1, hc1, hm1, hdom1⟩ := scanFold_OK S1 hpw1 hne1
  obtain ⟨hn2, hd2, hc2, hm2, hdom2⟩ := scanFold_OK S2 hpw2 hne2
  obtain ⟨m, hm⟩ : ∃ m, S1.head? = some m := by
    cases S1 with
    | nil => exact absurd rfl hne1
    | cons a t => exact ⟨a, rfl⟩
  have key := chainUnique (S1.foldl hullScanStep []).reverse
    (S2.foldl hullScanStep []).reverse m
    (by rw [List.head?_reverse, hsh1.2.1, hm])
    (by rw [List.head?_reverse, hsh2.2.1, ← hhead, hm])
    (by rw [List.getLast?_reverse, List.getLast?_reverse, hsh1.2.2,
        hsh2.2.2, hlast])
    ((descChain_reverse _).mp hd1) ((stackConvexD_reverse _).mp hc1)
    ((descChain_reverse _).mp hd2) ((stackConvexD_reverse _).mp hc2)
    ?_ ?_
  · exact List.reverse_injective key
  · intro v hv
    have hv2 : v ∈ S2 := hsubstack v (List.mem_reverse.mp hv)
    rcases hdom2 v hv2 with h | h
    · exact mem_aboveChain _ ((descChain_reverse _).mp hd2)
        (by rw [List.length_reverse]; exact hsh2.1) v
        (List.mem_reverse.mpr h)
    · exact (spannedD_reverse _ v).mp h
  · intro v hv
    have hv1 : v ∈ S1 :=
      hsub21 v (hm2 v (List.mem_reverse.mp hv))
    rcases hdom1 v hv1 with h | h
    · exact mem_aboveChain _ ((descChain_reverse _).mp hd1)
        (by rw [List.length_reverse]; exact hsh1.1) v
        (List.mem_reverse.mpr h)
    · exact (spannedD_reverse _ v).mp h

theorem head?_mem_list {α : Type} (l : List α) (a : α)
    (h : l.head? = some a) : a ∈ l := by
  cases l with
  | nil => cases h
  | cons x t =>
      have hx : x = a := by simpa using h
      rw [← hx]
      exact List.mem_cons_self x t

theorem dedupSorted_head? :
    ∀ (l : List XY), (dedupSorted l).head? = l.head?
  | [] => by rw [dedupSorted_nil]
  | x :: t => by rw [dedupSorted_head x t]; rfl

theorem scanFold_dedupSorted2 (l : List XY) (a b : XY) (ha : a ∈ l)
    (hb : b ∈ l) (hab : a ≠ b) :
    l.foldl hullScanStep [] = (dedupSorted l).foldl hullScanStep [] := by
  cases l with
  | nil => cases ha
  | cons x t =>
      refine scanFold_dedupSorted t x ?_
      rcases Decidable.em (a = x) with h | h
      · have hbx : b ≠ x := fun hc => hab (h.trans hc.symm)
        rcases List.mem_cons.mp hb with h2 | h2
        · exact absurd h2 hbx
        · exact ⟨b, h2, hbx⟩
      · rcases List.mem_cons.mp ha with h2 | h2
        · exact absurd h2 h
        · exact ⟨a, h2, h⟩

/-- A point set with two distinct points sorts into a list of length at least
two whose first and last elements differ. -/
theorem sorted_extremes (pts : List XY)
    (h2 : hasAtLeast2DistinctPoints pts = true) :
    ∃ m z, (sortPoints pts).head? = some m ∧
      (sortPoints pts).getLast? = some z ∧ m ≠ z ∧
      2 ≤ (sortPoints pts).length := by
  obtain ⟨p0, rest, hpts, q, hq, hqne⟩ := hasAtLeast2_unpack pts h2
  have hperm := sortPoints_perm pts
  have hlen : 2 ≤ (sortPoints pts).length := by
    rw [hperm.length_eq, hpts]
    have hr : 0 < rest.length := List.length_pos.mpr (List.ne_nil_of_mem hq)
    simp
    omega
  have hne : sortPoints pts ≠ [] := by
    intro h
    rw [h] at hlen
    simp at hlen
  obtain ⟨s0, hs0⟩ : ∃ s0, (sortPoints pts).head? = some s0 := by
    cases hsp : (sortPoints pts).head? with
    | none => exact absurd (List.head?_eq_none_iff.mp hsp) hne
    | some s0 => exact ⟨s0, rfl⟩
  obtain ⟨z, hz⟩ : ∃ z, (sortPoints pts).getLast? = some z :=
    Option.isSome_iff_exists.mp ((List.getLast?_isSome).mpr hne)
  refine ⟨s0, z, hs0, hz, ?_, hlen⟩
  intro heq
  have hconst := sorted_const_of_head_eq_getLast (sortPoints pts) s0
    (sortPoints_sorted pts) hs0 (by rw [hz, heq])
  have hp0 : p0 = s0 :=
    hconst p0 (hperm.mem_iff.mpr (by rw [hpts]; exact List.mem_cons_self _ _))
  have hqeq : q = s0 :=
    hconst q (hperm.mem_iff.mpr (by rw [hpts]; exact List.mem_cons_of_mem _ hq))
  exact hqne (hqeq.trans hp0.symm)

theorem monotoneChain_eq (pts : List XY) :
    monotoneChain pts =
      ((sortPoints pts).foldl hullScanStep []).reverse ++
        ((sortPoints pts).reverse.foldl hullScanStep []).reverse.drop 1 := rfl

theorem monotoneChain_mem (pts : List XY) (v : XY)
    (hv : v ∈ monotoneChain pts) : v ∈ pts := by
  rw [monotoneChain_eq] at hv
  rcases List.mem_append.mp hv with h | h
  · rw [List.mem_reverse] at h
    rcases scanFold_mem _ _ v h with h2 | h2
    · cases h2
    · exact (sortPoints_perm pts).mem_iff.mp h2
  · have h1 : v ∈ ((sortPoints pts).reverse.foldl hullScanStep []).reverse :=
      List.drop_subset _ _ h
    rw [List.mem_reverse] at h1
    rcases scanFold_mem _ _ v h1 with h2 | h2
    · cases h2
    · exact (sortPoints_perm pts).mem_iff.mp (List.mem_reverse.mp h2)

/-- Re-running the lower scan on the hull chain reproduces the lower stack. -/
theorem lowerRerun_eq (pts : List XY)
    (h2 : hasAtLeast2DistinctPoints pts = true) :
    (sortPoints (monotoneChain pts)).foldl hullScanStep [] =
      (sortPoints pts).foldl hullScanStep [] := by
  obtain ⟨m, z, hm, hz, hmz, hlen⟩ := sorted_extremes pts h2
  have hshape := scanFold_shape (sortPoints pts) hlen
  have hmLow : m ∈ (sortPoints pts).foldl hullScanStep [] :=
    getLast?_mem_list _ _ (by rw [hshape.2.1, hm])
  have hzLow : z ∈ (sortPoints pts).foldl hullScanStep [] :=
    head?_mem_list _ _ (by rw [hshape.2.2, hz])
  have hmH : m ∈ monotoneChain pts := by
    rw [monotoneChain_eq]
    exact List.mem_append_left _ (List.mem_reverse.mpr hmLow)
  have hzH : z ∈ monotoneChain pts := by
    rw [monotoneChain_eq]
    exact List.mem_append_left _ (List.mem_reverse.mpr hzLow)
  have hminH : ∀ v ∈ monotoneChain pts, xyLe m v := fun v hv =>
    sortPoints_head_min pts m hm v (monotoneChain_mem pts v hv)
  have hmaxH : ∀ v ∈ monotoneChain pts, xyLe v z := fun v hv =>
    sortPoints_getLast_max pts z hz v (monotoneChain_mem pts v hv)
  have hheadH : (sortPoints (monotoneChain pts)).head? = some m :=
    sortPoints_head_pin _ m hmH hminH
  have hlastH : (sortPoints (monotoneChain pts)).getLast? = some z :=
    sortPoints_getLast_pin _ z hzH hmaxH
  have hmSH : m ∈ sortPoints (monotoneChain pts) := head?_mem_list _ _ hheadH
  have hzSH : z ∈ sortPoints (monotoneChain pts) := getLast?_mem_list _ _ hlastH
  have hmS : m ∈ sortPoints pts := head?_mem_list _ _ hm
  have hzS : z ∈ sortPoints pts := getLast?_mem_list _ _ hz
  have hb1 := scanFold_dedupSorted2 (sortPoints pts) m z hmS hzS hmz
  have hb2 := scanFold_dedupSorted2 (sortPoints (monotoneChain pts)) m z
    hmSH hzSH hmz
  rw [hb1, hb2]
  refine (scanStack_unique (dedupSorted (sortPoints pts))
    (dedupSorted (sortPoints (monotoneChain pts)))
    (ascChain_pairwise _ (dedupSorted_strict _ (sortPoints_sorted pts)))
    (ascChain_pairwise _ (dedupSorted_strict _ (sortPoints_sorted _)))
    (length_ge_two_of_two_mem _ m z ((dedupSorted_mem _ m).mpr hmS)
      ((dedupSorted_mem _ z).mpr hzS) hmz)
    (length_ge_two_of_two_mem _ m z ((dedupSorted_mem _ m).mpr hmSH)
      ((dedupSorted_mem _ z).mpr hzSH) hmz)
    (by rw [dedupSorted_head?, dedupSorted_head?, hm, hheadH])
    (by rw [dedupSorted_getLast?, dedupSorted_getLast?, hz, hlastH])
    ?_ ?_).symm
  · intro v hv
    exact (dedupSorted_mem _ v).mpr ((sortPoints_perm pts).mem_iff.mpr
      (monotoneChain_mem pts v ((sortPoints_perm _).mem_iff.mp
        ((dedupSorted_mem _ v).mp hv))))
  · intro v hv
    rw [← hb1] at hv
    have hvH : v ∈ monotoneChain pts := by
      rw [monotoneChain_eq]
      exact List.mem_append_left _ (List.mem_reverse.mpr hv)
    exact (dedupSorted_mem _ v).mpr ((sortPoints_perm _).mem_iff.mpr hvH)

/-- Every point on the upper-scan stack appears in the joined hull chain: the
seam point dropped from the reversed upper stack is the chain's last lower
point. -/
theorem upStack_sub_chain (pts : List XY)
    (h2 : hasAtLeast2DistinctPoints pts = true) :
    ∀ w ∈ (sortPoints pts).reverse.foldl hullScanStep [],
      w ∈ monotoneChain pts := by
  obtain ⟨m, z, hm, hz, hmz, hlen⟩ := sorted_extremes pts h2
  have hlenr : 2 ≤ (sortPoints pts).reverse.length := by
    rw [List.length_reverse]
    exact hlen
  have hshape := scanFold_shape (sortPoints pts) hlen
  have hshapeU := scanFold_shape (sortPoints pts).reverse hlenr
  have hzLow : z ∈ (sortPoints pts).foldl hullScanStep [] :=
    head?_mem_list _ _ (by rw [hshape.2.2, hz])
  have hzH : z ∈ monotoneChain pts := by
    rw [monotoneChain_eq]
    exact List.mem_append_left _ (List.mem_reverse.mpr hzLow)
  have hUlast :
      ((sortPoints pts).reverse.foldl hullScanStep []).getLast? = some z := by
    rw [hshapeU.2.1, List.head?_reverse, hz]
  intro w hw
  have hwrev : w ∈ ((sortPoints pts).reverse.foldl hullScanStep []).reverse :=
    List.mem_reverse.mpr hw
  have hrh :
      ((sortPoints pts).reverse.foldl hullScanStep []).reverse.head? =
        some z := by
    rw [List.head?_reverse, hUlast]
  cases hur : ((sortPoints pts).reverse.foldl hullScanStep []).reverse with
  | nil =>
      rw [hur] at hwrev
      cases hwrev
  | cons u0 urest =>
      have hu0 : u0 = z := by
        rw [hur] at hrh
        simpa using hrh
      rw [hur] at hwrev
      rcases List.mem_cons.mp hwrev with h | h
      · rw [h, hu0]
        exact hzH
      · rw [monotoneChain_eq, hur]
        exact List.mem_append_right _ h

/-- Re-running the upper scan on the hull chain reproduces the upper stack. -/
theorem upperRerun_eq (pts : List XY)
    (h2 : hasAtLeast2DistinctPoints pts = true) :
    (sortPoints (monotoneChain pts)).reverse.foldl hullScanStep [] =
      (sortPoints pts).reverse.foldl hullScanStep [] := by
  obtain ⟨m, z, hm, hz, hmz, hlen⟩ := sorted_extremes pts h2
  have hinj : Function.Injective negP := fun a b h => by
    rw [← negP_involutive a, h, negP_involutive]
  have hshape := scanFold_shape (sortPoints pts) hlen
  have hmLow : m ∈ (sortPoints pts).foldl hullScanStep [] :=
    getLast?_mem_list _ _ (by rw [hshape.2.1, hm])
  have hzLow : z ∈ (sortPoints pts).foldl hullScanStep [] :=
    head?_mem_list _ _ (by rw [hshape.2.2, hz])
  have hmH : m ∈ monotoneChain pts := by
    rw [monotoneChain_eq]
    exact List.mem_append_left _ (List.mem_reverse.mpr hmLow)
  have hzH : z ∈ monotoneChain pts := by
    rw [monotoneChain_eq]
    exact List.mem_append_left _ (List.mem_reverse.mpr hzLow)
  have hminH : ∀ v ∈ monotoneChain pts, xyLe m v := fun v hv =>
    sortPoints_head_min pts m hm v (monotoneChain_mem pts v hv)
  have hmaxH : ∀ v ∈ monotoneChain pts, xyLe v z := fun v hv =>
    sortPoints_getLast_max pts z hz v (monotoneChain_mem pts v hv)
  have hheadH : (sortPoints (monotoneChain pts)).head? = some m :=
    sortPoints_head_pin _ m hmH hminH
  have hlastH : (sortPoints (monotoneChain pts)).getLast? = some z :=
    sortPoints_getLast_pin _ z hzH hmaxH
  have hmSH : m ∈ sortPoints (monotoneChain pts) := head?_mem_list _ _ hheadH
  have hzSH : z ∈ sortPoints (monotoneChain pts) := getLast?_mem_list _ _ hlastH
  have hmS : m ∈ sortPoints pts := head?_mem_list _ _ hm
  have hzS : z ∈ sortPoints pts := getLast?_mem_list _ _ hz
  have hnz1 : negP z ∈ (sortPoints pts).reverse.map negP :=
    List.mem_map.mpr ⟨z, List.mem_reverse.mpr hzS, rfl⟩
  have hnm1 : negP m ∈ (sortPoints pts).reverse.map negP :=
    List.mem_map.mpr ⟨m, List.mem_reverse.mpr hmS, rfl⟩
  have hnz2 : negP z ∈ (sortPoints (monotoneChain pts)).reverse.map negP :=
    List.mem_map.mpr ⟨z, List.mem_reverse.mpr hzSH, rfl⟩
  have hnm2 : negP m ∈ (sortPoints (monotoneChain pts)).reverse.map negP :=
    List.mem_map.mpr ⟨m, List.mem_reverse.mpr hmSH, rfl⟩
  have hneq : negP z ≠ negP m := fun h => hmz (hinj h).symm
  have hL1pw : ((sortPoints pts).reverse.map negP).Pairwise xyLe :=
    List.pairwise_map.mpr ((List.pairwise_reverse.mpr
      (sortPoints_sorted pts)).imp (fun h => (xyLe_neg_iff _ _).mpr h))
  have hL2pw :
      ((sortPoints (monotoneChain pts)).reverse.map negP).Pairwise xyLe :=
    List.pairwise_map.mpr ((List.pairwise_reverse.mpr
      (sortPoints_sorted _)).imp (fun h => (xyLe_neg_iff _ _).mpr h))
  have hh1 : ((sortPoints pts).reverse.map negP).head? = some (negP z) := by
    rw [List.head?_map, List.head?_reverse, hz]
    rfl
  have hh2 : ((sortPoints (monotoneChain pts)).reverse.map negP).head? =
      some (negP z) := by
    rw [List.head?_map, List.head?_reverse, hlastH]
    rfl
  have hg1 : ((sortPoints pts).reverse.map negP).getLast? =
      some (negP m) := by
    rw [List.getLast?_map, List.getLast?_reverse, hm]
    rfl
  have hg2 : ((sortPoints (monotoneChain pts)).reverse.map negP).getLast? =
      some (negP m) := by
    rw [List.getLast?_map, List.getLast?_reverse, hheadH]
    rfl
  have hneg1 : ((sortPoints pts).reverse.map negP).foldl hullScanStep [] =
      ((sortPoints pts).reverse.foldl hullScanStep []).map negP :=
    scanFold_negMap (sortPoints pts).reverse []
  have hneg2 :
      ((sortPoints (monotoneChain pts)).reverse.map negP).foldl
        hullScanStep [] =
      ((sortPoints (monotoneChain pts)).reverse.foldl hullScanStep []).map
        negP :=
    scanFold_negMap (sortPoints (monotoneChain pts)).reverse []
  have hb1 := scanFold_dedupSorted2 ((sortPoints pts).reverse.map negP)
    (negP z) (negP m) hnz1 hnm1 hneq
  have hb2 := scanFold_dedupSorted2
    ((sortPoints (monotoneChain pts)).reverse.map negP)
    (negP z) (negP m) hnz2 hnm2 hneq
  have hmain : ((sortPoints pts).reverse.map negP).foldl hullScanStep [] =
      ((sortPoints (monotoneChain pts)).reverse.map negP).foldl
        hullScanStep [] := by
    rw [hb1, hb2]
    refine scanStack_unique _ _
      (ascChain_pairwise _ (dedupSorted_strict _ hL1pw))
      (ascChain_pairwise _ (dedupSorted_strict _ hL2pw))
      (length_ge_two_of_two_mem _ (negP z) (negP m)
        ((dedupSorted_mem _ _).mpr hnz1) ((dedupSorted_mem _ _).mpr hnm1)
        hneq)
      (length_ge_two_of_two_mem _ (negP z) (negP m)
        ((dedupSorted_mem _ _).mpr hnz2) ((dedupSorted_mem _ _).mpr hnm2)
        hneq)
      (by rw [dedupSorted_head?, dedupSorted_head?, hh1, hh2])
      (by rw [dedupSorted_getLast?, dedupSorted_getLast?, hg1, hg2])
      ?_ ?_
    · intro v hv
      have hv2 := (dedupSorted_mem _ v).mp hv
      obtain ⟨w, hw, hwv⟩ := List.mem_map.mp hv2
      have hwS : w ∈ sortPoints (monotoneChain pts) := List.mem_reverse.mp hw
      have hwpts : w ∈ pts :=
        monotoneChain_mem pts w ((sortPoints_perm _).mem_iff.mp hwS)
      exact (dedupSorted_mem _ v).mpr (List.mem_map.mpr
        ⟨w, List.mem_reverse.mpr ((sortPoints_perm pts).mem_iff.mpr hwpts),
          hwv⟩)
    · intro v hv
      rw [← hb1, hneg1] at hv
      obtain ⟨w, hw, hwv⟩ := List.mem_map.mp hv
      have hwH : w ∈ monotoneChain pts := upStack_sub_chain pts h2 w hw
      exact (dedupSorted_mem _ v).mpr (List.mem_map.mpr
        ⟨w, List.mem_reverse.mpr ((sortPoints_perm _).mem_iff.mpr hwH), hwv⟩)
  have hmapeq :
      ((sortPoints (monotoneChain pts)).reverse.foldl hullScanStep []).map
        negP =
      ((sortPoints pts).reverse.foldl hullScanStep []).map negP := by
    rw [← hneg1, ← hneg2, hmain]
  exact List.map_injective_iff.mpr hinj hmapeq

theorem descChain_negMap (l : List XY) :
    descChain (l.map negP) ↔ ascChain l := by
  unfold descChain ascChain
  rw [List.chain'_map]
  constructor
  · intro h
    exact h.imp (fun _ _ hab => (xyLess_neg_iff _ _).mp hab)
  · intro h
    exact h.imp (fun _ _ hab => (xyLess_neg_iff _ _).mpr hab)

/-- Structural decomposition of the hull chain: a strictly ascending lower
part from the minimum to the maximum, followed by a strictly descending
upper tail returning to the minimum. -/
theorem monotoneChain_parts (pts : List XY)
    (h2 : hasAtLeast2DistinctPoints pts = true) :
    ∃ m z lower upperTail,
      monotoneChain pts = lower ++ upperTail ∧
      ascChain lower ∧ descChain upperTail ∧
      lower.head? = some m ∧ lower.getLast? = some z ∧
      upperTail.getLast? = some m ∧ m ≠ z ∧
      (∀ v ∈ monotoneChain pts, xyLe m v) := by
  obtain ⟨m, z, hm, hz, hmz, hlen⟩ := sorted_extremes pts h2
  have hlenr : 2 ≤ (sortPoints pts).reverse.length := by
    rw [List.length_reverse]
    exact hlen
  have hshape := scanFold_shape (sortPoints pts) hlen
  have hshapeU := scanFold_shape (sortPoints pts).reverse hlenr
  have hmS : m ∈ sortPoints pts := head?_mem_list _ _ hm
  have hzS : z ∈ sortPoints pts := getLast?_mem_list _ _ hz
  have hminH : ∀ v ∈ monotoneChain pts, xyLe m v := fun v hv =>
    sortPoints_head_min pts m hm v (monotoneChain_mem pts v hv)
  refine ⟨m, z, ((sortPoints pts).foldl hullScanStep []).reverse,
    ((sortPoints pts).reverse.foldl hullScanStep []).reverse.drop 1,
    monotoneChain_eq pts, ?_, ?_, ?_, ?_, ?_, hmz, hminH⟩
  · have hb1 := scanFold_dedupSorted2 (sortPoints pts) m z hmS hzS hmz
    have hdne : dedupSorted (sortPoints pts) ≠ [] :=
      List.ne_nil_of_mem ((dedupSorted_mem _ m).mpr hmS)
    have hOK := scanFold_OK (dedupSorted (sortPoints pts))
      (ascChain_pairwise _ (dedupSorted_strict _ (sortPoints_sorted pts))) hdne
    have hdesc : descChain ((sortPoints pts).foldl hullScanStep []) := by
      rw [hb1]
      exact hOK.2.1
    exact (descChain_reverse _).mp hdesc
  · have hnz1 : negP z ∈ (sortPoints pts).reverse.map negP :=
      List.mem_map.mpr ⟨z, List.mem_reverse.mpr hzS, rfl⟩
    have hnm1 : negP m ∈ (sortPoints pts).reverse.map negP :=
      List.mem_map.mpr ⟨m, List.mem_reverse.mpr hmS, rfl⟩
    have hinj : Function.Injective negP := fun a b h => by
      rw [← negP_involutive a, h, negP_involutive]
    have hneq : negP z ≠ negP m := fun h => hmz (hinj h).symm
    have hL1pw : ((sortPoints pts).reverse.map negP).Pairwise xyLe :=
      List.pairwise_map.mpr ((List.pairwise_reverse.mpr
        (sortPoints_sorted pts)).imp (fun h => (xyLe_neg_iff _ _).mpr h))
    have hb1 := scanFold_dedupSorted2 ((sortPoints pts).reverse.map negP)
      (negP z) (negP m) hnz1 hnm1 hneq
    have hdne : dedupSorted ((sortPoints pts).reverse.map negP) ≠ [] :=
      List.ne_nil_of_mem ((dedupSorted_mem _ _).mpr hnz1)
    have hOK := scanFold_OK (dedupSorted ((sortPoints pts).reverse.map negP))
      (ascChain_pairwise _ (dedupSorted_strict _ hL1pw)) hdne
    have hneg1 : ((sortPoints pts).reverse.map negP).foldl hullScanStep [] =
        ((sortPoints pts).reverse.foldl hullScanStep []).map negP :=
      scanFold_negMap (sortPoints pts).reverse []
    have hdescmap :
        descChain
          (((sortPoints pts).reverse.foldl hullScanStep []).map negP) := by
      rw [← hneg1, hb1]
      exact hOK.2.1
    have hascU : ascChain ((sortPoints pts).reverse.foldl hullScanStep []) :=
      (descChain_negMap _).mp hdescmap
    have hdescUpper :
        descChain
          ((sortPoints pts).reverse.foldl hullScanStep []).reverse := by
      rw [descChain_reverse, List.reverse_reverse]
      exact hascU
    rw [List.drop_one]
    exact List.Chain'.tail hdescUpper
  · rw [List.head?_reverse, hshape.2.1, hm]
  · rw [List.getLast?_reverse, hshape.2.2, hz]
  · have hUlen2 :
        2 ≤ ((sortPoints pts).reverse.foldl hullScanStep []).reverse.length := by
      rw [List.length_reverse]
      exact hshapeU.1
    rw [getLast?_drop_one _ hUlen2, List.getLast?_reverse, hshapeU.2.2,
      List.getLast?_reverse, hm]

theorem isLinearHull_some_elim (H half : List XY)
    (h : isLinearHull H = .ok (some half)) :
    H.length % 2 = 1 ∧ H.length / 2 + 1 < H.length ∧
    half = H.take (H.length / 2 + 1) := by
  unfold isLinearHull at h
  by_cases he : H.length % 2 = 0
  · rw [if_pos he] at h
    simp at h
  · rw [if_neg he] at h
    cases hp : H[H.length / 2 - 1]? with
    | none =>
        rw [hp] at h
        cases hq : H[H.length / 2 + 1]? with
        | none =>
            rw [hq] at h
            simp at h
        | some q =>
            rw [hq] at h
            simp at h
    | some p =>
        rw [hp] at h
        cases hq : H[H.length / 2 + 1]? with
        | none =>
            rw [hq] at h
            simp at h
        | some q =>
            rw [hq] at h
            dsimp only at h
            have hlt : H.length / 2 + 1 < H.length := by
              by_contra hc
              rw [List.getElem?_eq_none_iff.mpr (by omega)] at hq
              cases hq
            by_cases hpq : (p != q) = true
            · rw [if_pos hpq] at h
              simp at h
            · rw [if_neg hpq] at h
              simp at h
              exact ⟨by omega, hlt, h.symm⟩

theorem head?_append_some {α : Type} (l1 l2 : List α) (a : α)
    (h : l1.head? = some a) : (l1 ++ l2).head? = some a := by
  cases l1 with
  | nil => cases h
  | cons x t => simpa using h

/-- In the linear branch the returned endpoints are the chain minimum and a
strictly larger point, in comparator order. -/
theorem linear_branch_ab (pts : List XY)
    (h2 : hasAtLeast2DistinctPoints pts = true) (half : List XY)
    (hlin : isLinearHull (monotoneChain pts) = .ok (some half)) :
    xyLess (half.headD default) (half.getLastD default) = true := by
  obtain ⟨hodd, hklt, hhalf⟩ := isLinearHull_some_elim _ _ hlin
  obtain ⟨m, z, lower, upperTail, hH, hlasc, hudesc, hlh, hll, hul, hmz,
    hmin⟩ := monotoneChain_parts pts h2
  have hHhead : (monotoneChain pts).head? = some m := by
    rw [hH]
    exact head?_append_some _ _ m hlh
  have hhalfhead : half.headD default = m := by
    rw [hhalf, List.headD_eq_head?_getD, List.head?_take,
      if_neg (by omega), hHhead]
    rfl
  have hkltlen : (monotoneChain pts).length / 2 < (monotoneChain pts).length :=
    by omega
  obtain ⟨b, hb⟩ : ∃ b,
      (monotoneChain pts)[(monotoneChain pts).length / 2]? = some b :=
    ⟨_, List.getElem?_eq_getElem hkltlen⟩
  have htklen : (half.length) = (monotoneChain pts).length / 2 + 1 := by
    rw [hhalf, List.length_take]
    omega
  have hhalflast : half.getLastD default = b := by
    rw [List.getLastD_eq_getLast?, List.getLast?_eq_getElem?, htklen, hhalf]
    have : (monotoneChain pts).length / 2 + 1 - 1 =
        (monotoneChain pts).length / 2 := by omega
    rw [this, List.getElem?_take, if_pos (by omega), hb]
    rfl
  have hbmem : b ∈ monotoneChain pts := List.getElem?_mem hb
  have hle : xyLe m b := hmin b hbmem
  have hk1 : 1 ≤ (monotoneChain pts).length / 2 := by omega
  have hlen2 : (monotoneChain pts).length = lower.length + upperTail.length := by
    rw [hH, List.length_append]
  obtain ⟨k, hkdef⟩ : ∃ k, (monotoneChain pts).length / 2 = k := ⟨_, rfl⟩
  rw [hkdef] at hk1 hklt
  have hbne : b ≠ m := by
    rw [hkdef] at hb
    rw [hH, List.getElem?_append] at hb
    by_cases hkL : k < lower.length
    · rw [if_pos hkL] at hb
      have hb2 : lower[k] = b := by
        have := List.getElem?_eq_getElem hkL
        rw [this] at hb
        simpa using hb
      have hm0 : 0 < lower.length := by omega
      have hm2 : lower[0] = m := by
        have h0 := List.head?_eq_getElem? lower
        rw [hlh, List.getElem?_eq_getElem hm0] at h0
        simpa using h0.symm
      have hpw := ascChain_pairwise lower hlasc
      have hstrict := List.pairwise_iff_getElem.mp hpw 0 k hm0 hkL (by omega)
      rw [hm2, hb2] at hstrict
      exact (xyLess_ne hstrict).symm
    · rw [if_neg hkL] at hb
      have hjlt : k - lower.length < upperTail.length := by omega
      have hb2 : upperTail[k - lower.length] = b := by
        have := List.getElem?_eq_getElem hjlt
        rw [this] at hb
        simpa using hb
      have hlastidx : upperTail.length - 1 < upperTail.length := by omega
      have hm2 : upperTail[upperTail.length - 1] = m := by
        have h0 := List.getLast?_eq_getElem? upperTail
        rw [hul, List.getElem?_eq_getElem hlastidx] at h0
        simpa using h0.symm
      have hpw := descChain_pairwise upperTail hudesc
      have hstrict := List.pairwise_iff_getElem.mp hpw (k - lower.length)
        (upperTail.length - 1) hjlt hlastidx (by omega)
      rw [hm2, hb2] at hstrict
      exact (xyLess_ne hstrict).symm
  rw [hhalfhead, hhalflast]
  exact xyLess_of_xyLe_ne hle (Ne.symm hbne)

/-- The hull chain is a fixed point of the chain construction. -/
theorem monotoneChain_idem (pts : List XY)
    (h2 : hasAtLeast2DistinctPoints pts = true) :
    monotoneChain (monotoneChain pts) = monotoneChain pts := by
  rw [monotoneChain_eq (monotoneChain pts), lowerRerun_eq pts h2,
    upperRerun_eq pts h2, ← monotoneChain_eq]

/-- The convex hull of a two-point line string in comparator order is that
line string again. -/
theorem convexHull_two_points (a b : XY) (hab : xyLess a b = true) :
    geom.convexHull (.lineString [a, b]) = .ok (.lineString [a, b]) := by
  have hne : a ≠ b := xyLess_ne hab
  have hsort : sortPoints [a, b] = [a, b] := by
    show List.orderedInsert xyLe a [b] = [a, b]
    rw [List.orderedInsert, if_pos (xyLe_of_xyLess hab)]
  have hchain : monotoneChain [a, b] = [a, b, a] := by
    rw [monotoneChain_eq, hsort]
    rfl
  have hlin : isLinearHull [a, b, a] = .ok (some [a, b]) := by
    unfold isLinearHull
    simp
  unfold geom.convexHull
  rw [if_neg (by simp [geometryIsEmpty])]
  dsimp only
  have hpts : convexHullPointSet (.lineString [a, b]) = [a, b] := rfl
  rw [hpts]
  rw [if_pos (by simp [hasAtLeast2DistinctPoints, bne_iff_ne, Ne.symm hne])]
  rw [hchain, hlin]
  rfl

/-- C8: `convexHull` is idempotent: whenever `convexHull g` returns a
geometry `h`, running `convexHull` on `h` returns `h` itself. -/
theorem convexHullIdempotent (g h : Geometry)
    (hg : geom.convexHull g = .ok h) : geom.convexHull h = .ok h := by
  unfold geom.convexHull at hg
  by_cases hemp : geometryIsEmpty g = true
  · rw [if_pos hemp] at hg
    injection hg with h1
    subst h1
    unfold geom.convexHull
    rw [if_pos hemp]
  · rw [if_neg hemp] at hg
    dsimp only at hg
    by_cases h2 : hasAtLeast2DistinctPoints (convexHullPointSet g) = true
    · rw [if_pos h2] at hg
      cases hLH : isLinearHull (monotoneChain (convexHullPointSet g)) with
      | error e =>
          rw [hLH] at hg
          simp at hg
      | ok v =>
          rw [hLH] at hg
          cases v with
          | some half =>
              dsimp only at hg
              injection hg with h1
              subst h1
              exact convexHull_two_points _ _ (linear_branch_ab _ h2 half hLH)
          | none =>
              dsimp only at hg
              by_cases hv1 :
                  lineStringValid (monotoneChain (convexHullPointSet g)) =
                    true
              · rw [if_pos hv1] at hg
                by_cases hv2 : singleRingPolygonValid
                    (monotoneChain (convexHullPointSet g)) = true
                · rw [if_pos hv2] at hg
                  injection hg with h1
                  subst h1
                  have hHne2 :=
                    (monotoneChain_facts (convexHullPointSet g) h2).2.2
                  have hHne : monotoneChain (convexHullPointSet g) ≠ [] := by
                    intro hc
                    rw [hc] at hHne2
                    simp [hasAtLeast2DistinctPoints] at hHne2
                  unfold geom.convexHull
                  rw [if_neg (by
                    simp [geometryIsEmpty, List.isEmpty_iff, hHne])]
                  dsimp only
                  have hpts2 : convexHullPointSet
                      (.polygon [monotoneChain (convexHullPointSet g)]) =
                      monotoneChain (convexHullPointSet g) := rfl
                  rw [hpts2, if_pos hHne2,
                    monotoneChain_idem (convexHullPointSet g) h2, hLH]
                  dsimp only
                  rw [if_pos hv1, if_pos hv2]
                · rw [if_neg hv2] at hg
                  simp at hg
              · rw [if_neg hv1] at hg
                simp at hg
    · rw [if_neg h2] at hg
      cases hpts : convexHullPointSet g with
      | nil =>
          rw [hpts] at hg
          simp at hg
      | cons p0 t =>
          rw [hpts] at hg
          dsimp only at hg
          injection hg with h1
          subst h1
          unfold geom.convexHull
          rw [if_neg (by simp [geometryIsEmpty])]
          dsimp only
          have hpp : convexHullPointSet (.point (some p0)) = [p0] := rfl
          rw [hpp, if_neg (by simp [hasAtLeast2DistinctPoints])]

theorem convexHullIdempotentWitness :
    geom.convexHull (.multiPoint [some ⟨0,0⟩, some ⟨1,0⟩, some ⟨1,1⟩,
        some ⟨0,1⟩]) =
      .ok (.polygon [[⟨0,0⟩, ⟨1,0⟩, ⟨1,1⟩, ⟨0,1⟩, ⟨0,0⟩]]) ∧
    geom.convexHull (.polygon [[⟨0,0⟩, ⟨1,0⟩, ⟨1,1⟩, ⟨0,1⟩, ⟨0,0⟩]]) =
      .ok (.polygon [[⟨0,0⟩, ⟨1,0⟩, ⟨1,1⟩, ⟨0,1⟩, ⟨0,0⟩]]) :=
  ⟨by rfl, convexHullIdempotent
    (.multiPoint [some ⟨0,0⟩, some ⟨1,0⟩, some ⟨1,1⟩, some ⟨0,1⟩])
    (.polygon [[⟨0,0⟩, ⟨1,0⟩, ⟨1,1⟩, ⟨0,1⟩, ⟨0,0⟩]]) (by rfl)⟩
